import Mathlib

/-!
Verification of the devlica repository against its specification.

Shallow embedding conventions:
* Go strings handled byte-wise (`internal/textutil/truncate.go`) are modelled
  as `List Nat`, one entry per byte (each < 256 at use sites).
* Go strings handled rune-wise (`SanitizeJSON`, the JSON decoding layer) are
  modelled as `List Char`.
* Go `int` is modelled as `Int` (or `Nat` where the source value is a
  non-negative count), `float64` as `ℚ` together with an explicit model of
  IEEE-754 binary64 round-to-nearest-even where the source actually depends
  on double rounding (`spreadIndices`).
* Fallible code returns `Except`/`Option`; a Go panic is modelled as `none`.
-/

namespace Devlica

/-! ## textutil.Truncate (src/internal/textutil/truncate.go)

`Truncate(s, maxLen, suffix)` returns `s` when `len(s) <= maxLen`; otherwise
it sets `cut := maxLen`, decrements `cut` while `cut > 0 && s[cut]>>6 == 0b10`,
and returns `s[:cut] + suffix`.  Bytes are `List Nat` entries. -/

/-- A UTF-8 continuation byte: top two bits are `10`, i.e. `b>>6 == 0b10`. -/
def isCont (b : Nat) : Bool := b / 64 == 2

/-- The cut-back loop of `Truncate`: starting at `cut`, walk backward while the
byte at the current position is a continuation byte (and the position is
positive).  `s.getD` is safe because every position probed is below
`s.length` at the call site (`maxLen < s.length`). -/
def cutBack (s : List Nat) : Nat → Nat
  | 0 => 0
  | k + 1 => if isCont (s.getD (k + 1) 0) then cutBack s k else k + 1

/-- Model of `textutil.Truncate` on byte lists. -/
def Truncate (s : List Nat) (maxLen : Nat) (suffix : List Nat) : List Nat :=
  if s.length ≤ maxLen then s
  else s.take (cutBack s maxLen) ++ suffix

/-- A single UTF-8-encoded code point, classified by its lead byte:
one byte `0xxxxxxx`, or a lead `110xxxxx`/`1110xxxx`/`11110xxx` followed by
one/two/three continuation bytes. -/
def IsCP : List Nat → Prop
  | [b] => b < 128
  | [b, c] => 192 ≤ b ∧ b < 224 ∧ isCont c = true
  | [b, c, d] => 224 ≤ b ∧ b < 240 ∧ isCont c = true ∧ isCont d = true
  | [b, c, d, e] => 240 ≤ b ∧ b < 248 ∧ isCont c = true ∧ isCont d = true ∧ isCont e = true
  | _ => False

theorem IsCP.ne_nil {cp : List Nat} (h : IsCP cp) : cp ≠ [] := by
  cases cp with
  | nil => exact absurd h (by simp [IsCP])
  | cons a l => simp

theorem IsCP.head_not_cont {b : Nat} {l : List Nat} (h : IsCP (b :: l)) :
    isCont b = false := by
  have hb : b < 128 ∨ 192 ≤ b := by
    match l, h with
    | [], h => simp only [IsCP] at h; omega
    | [c], h => simp only [IsCP] at h; omega
    | [c, d], h => simp only [IsCP] at h; omega
    | [c, d, e], h => simp only [IsCP] at h; omega
    | _ :: _ :: _ :: _ :: _ :: _, h => exact absurd h (by simp [IsCP])
  simp only [isCont]
  rw [beq_eq_false_iff_ne]
  omega

theorem IsCP.tail_cont {b : Nat} {l : List Nat} (h : IsCP (b :: l)) :
    ∀ x ∈ l, isCont x = true := by
  match l, h with
  | [], h => intro x hx; simp at hx
  | [c], h =>
      intro x hx
      simp only [List.mem_singleton] at hx
      subst hx
      exact h.2.2
  | [c, d], h =>
      intro x hx
      simp only [IsCP] at h
      simp only [List.mem_cons, List.mem_singleton, List.not_mem_nil, or_false] at hx
      rcases hx with rfl | rfl
      · exact h.2.2.1
      · exact h.2.2.2
  | [c, d, e], h =>
      intro x hx
      simp only [IsCP] at h
      simp only [List.mem_cons, List.mem_singleton, List.not_mem_nil, or_false] at hx
      rcases hx with rfl | rfl | rfl
      · exact h.2.2.1
      · exact h.2.2.2.1
      · exact h.2.2.2.2
  | _ :: _ :: _ :: _ :: _ :: _, h => exact absurd h (by simp [IsCP])

/-- Inside the first code point, the cut-back loop walks all the way to 0. -/
theorem cutBack_lt_head (cp t : List Nat) (hcp : IsCP cp) :
    ∀ m, m < cp.length → cutBack (cp ++ t) m = 0 := by
  intro m
  induction m with
  | zero => intro _; rfl
  | succ k ih =>
      intro hk
      have hk' : k + 1 < cp.length := hk
      have hget : (cp ++ t).getD (k + 1) 0 = cp.getD (k + 1) 0 := by
        rw [List.getD_append]
        exact hk'
      obtain ⟨b, l, rfl⟩ : ∃ b l, cp = b :: l := by
        cases cp with
        | nil => simp at hk'
        | cons b l => exact ⟨b, l, rfl⟩
      have hlt : k < l.length := by simpa using hk'
      have hmem : (b :: l).getD (k + 1) 0 ∈ l := by
        simp only [List.getD_cons_succ]
        rw [List.getD_eq_getElem l 0 hlt]
        exact List.getElem_mem hlt
      have hcont : isCont (((b :: l) ++ t).getD (k + 1) 0) = true := by
        rw [hget]
        exact IsCP.tail_cont hcp _ hmem
      simp only [cutBack, hcont, if_true]
      exact ih (Nat.lt_of_succ_lt hk)

/-- Past the first code point, the cut-back loop never crosses back into it:
cutting `cp ++ t` at `cp.length + m` is cutting `t` at `m`, shifted. -/
theorem cutBack_append (cp t : List Nat) (hcp : IsCP cp)
    (ht : t ≠ [] → isCont (t.getD 0 0) = false) :
    ∀ m, cutBack (cp ++ t) (cp.length + m) = cp.length + cutBack t m := by
  intro m
  induction m with
  | zero =>
      obtain ⟨b, l, rfl⟩ : ∃ b l, cp = b :: l := by
        cases cp with
        | nil => exact absurd rfl hcp.ne_nil
        | cons b l => exact ⟨b, l, rfl⟩
      show cutBack ((b :: l) ++ t) ((b :: l).length + 0) = (b :: l).length + cutBack t 0
      simp only [List.length_cons, Nat.add_zero]
      have hd : isCont (((b :: l) ++ t).getD (l.length + 1) 0) = false := by
        rcases eq_or_ne t [] with rfl | htne
        · -- probing one past the end: getD returns the default 0, not a continuation byte
          rw [List.getD_eq_default _ _ (by simp)]
          rfl
        · rw [List.getD_append_right (b :: l) t 0 (l.length + 1) (by simp)]
          simpa using ht htne
      show cutBack ((b :: l) ++ t) (l.length + 1) = l.length + 1 + cutBack t 0
      simp only [cutBack, hd, if_false, Bool.false_eq_true]
  | succ k ih =>
      show cutBack (cp ++ t) (cp.length + (k + 1)) = cp.length + cutBack t (k + 1)
      have hget' : (cp ++ t).getD (cp.length + k + 1) 0 = t.getD (k + 1) 0 := by
        rw [List.getD_append_right cp t 0 (cp.length + k + 1) (by omega)]
        congr 1
        omega
      have hstep : cp.length + (k + 1) = (cp.length + k) + 1 := by omega
      rw [hstep]
      cases hc : isCont (t.getD (k + 1) 0) with
      | true =>
          have h1 : cutBack (cp ++ t) (cp.length + k + 1) = cutBack (cp ++ t) (cp.length + k) := by
            simp only [cutBack, hget', hc, if_true]
          have h2 : cutBack t (k + 1) = cutBack t k := by
            simp only [cutBack, hc, if_true]
          rw [h1, h2]
          exact ih
      | false =>
          have h1 : cutBack (cp ++ t) (cp.length + k + 1) = cp.length + k + 1 := by
            simp only [cutBack, hget', hc, if_false, Bool.false_eq_true]
          have h2 : cutBack t (k + 1) = k + 1 := by
            simp only [cutBack, hc, if_false, Bool.false_eq_true]
          rw [h1, h2]
          omega

/-- On a well-formed UTF-8 byte string (a concatenation of code points `cps`),
the prefix kept by the cut-back loop is the concatenation of a prefix of
`cps`: no code point is split. -/
theorem take_cutBack_join (cps : List (List Nat)) (h : ∀ cp ∈ cps, IsCP cp) :
    ∀ m, m < (cps.flatten).length →
      ∃ n, (cps.flatten).take (cutBack cps.flatten m) = (cps.take n).flatten := by
  induction cps with
  | nil => intro m hm; simp at hm
  | cons cp rest ih =>
      intro m hm
      have hcp : IsCP cp := h cp (by simp)
      have hrest : ∀ c ∈ rest, IsCP c := fun c hc => h c (by simp [hc])
      by_cases hlt : m < cp.length
      · refine ⟨0, ?_⟩
        have : cutBack (cp ++ rest.flatten) m = 0 := cutBack_lt_head cp rest.flatten hcp m hlt
        simp [List.flatten_cons, this]
      · push_neg at hlt
        obtain ⟨m', rfl⟩ : ∃ m', m = cp.length + m' := ⟨m - cp.length, by omega⟩
        have hm' : m' < rest.flatten.length := by
          simp only [List.flatten_cons, List.length_append] at hm
          omega
        have hthead : rest.flatten ≠ [] → isCont (rest.flatten.getD 0 0) = false := by
          intro hne
          obtain ⟨c, cs, hc⟩ : ∃ c cs, rest = c :: cs := by
            cases rest with
            | nil => simp at hne
            | cons c cs => exact ⟨c, cs, rfl⟩
          subst hc
          have hc' : IsCP c := hrest c (by simp)
          obtain ⟨b, l, rfl⟩ : ∃ b l, c = b :: l := by
            cases c with
            | nil => exact absurd rfl hc'.ne_nil
            | cons b l => exact ⟨b, l, rfl⟩
          have : ((b :: l) :: cs).flatten.getD 0 0 = b := by simp
          rw [this]
          exact hc'.head_not_cont
        have hshift := cutBack_append cp rest.flatten hcp hthead m'
        obtain ⟨n, hn⟩ := ih hrest m' hm'
        refine ⟨n + 1, ?_⟩
        simp only [List.flatten_cons, hshift]
        rw [List.take_append_eq_append_take]
        have htake1 : List.take (cp.length + cutBack rest.flatten m') cp = cp :=
          List.take_of_length_le (by omega)
        have harith : cp.length + cutBack rest.flatten m' - cp.length = cutBack rest.flatten m' := by
          omega
        rw [htake1, harith, hn]
        simp [List.take_succ_cons]

/-- On well-formed UTF-8 input that exceeds the budget, the bytes kept
before the suffix are a whole-code-point prefix of the input. -/
theorem truncate_whole_codepoints (cps : List (List Nat)) (h : ∀ cp ∈ cps, IsCP cp)
    (maxLen : Nat) (suffix : List Nat) (hlen : maxLen < (cps.flatten).length) :
    ∃ n, Truncate cps.flatten maxLen suffix = (cps.take n).flatten ++ suffix := by
  obtain ⟨n, hn⟩ := take_cutBack_join cps h maxLen hlen
  refine ⟨n, ?_⟩
  unfold Truncate
  rw [if_neg (by omega), hn]

/-- C8: for every UTF-8 string (a concatenation of code points `cps`), byte
budget, and suffix, `Truncate` never splits a multi-byte code point: the part
of the output before the appended suffix is a concatenation of whole code
points of the input, so every multi-byte sequence is wholly present or wholly
absent.  In particular truncating `"a\xf0\x9f\x98\x80b"` (the 4-byte emoji
U+1F600 between `a` and `b`) at a 3-byte budget with suffix `"!"` yields
`"a!"`. -/
theorem C8_truncate_never_splits :
    (∀ (cps : List (List Nat)) (maxLen : Nat) (suffix : List Nat),
        (∀ cp ∈ cps, IsCP cp) →
        Truncate cps.flatten maxLen suffix = cps.flatten ∨
        ∃ n, Truncate cps.flatten maxLen suffix = (cps.take n).flatten ++ suffix) ∧
    Truncate [97, 240, 159, 152, 128, 98] 3 [33] = [97, 33] := by
  constructor
  · intro cps maxLen suffix h
    by_cases hlen : cps.flatten.length ≤ maxLen
    · left
      unfold Truncate
      rw [if_pos hlen]
    · right
      exact truncate_whole_codepoints cps h maxLen suffix (by omega)
  · decide

/-- Witness for C8: the general statement applied to the decomposition of
`"a\xf0\x9f\x98\x80b"` into its three code points, at budget 3, suffix `"!"`. -/
theorem C8_truncate_never_splits_witness :
    Truncate ([[97], [240, 159, 152, 128], [98]] : List (List Nat)).flatten 3 [33] =
      ([[97], [240, 159, 152, 128], [98]] : List (List Nat)).flatten ∨
    ∃ n, Truncate ([[97], [240, 159, 152, 128], [98]] : List (List Nat)).flatten 3 [33] =
      (([[97], [240, 159, 152, 128], [98]] : List (List Nat)).take n).flatten ++ [33] :=
  C8_truncate_never_splits.1 [[97], [240, 159, 152, 128], [98]] 3 [33] (by
    intro cp hcp
    simp only [List.mem_cons, List.mem_singleton, List.not_mem_nil, or_false] at hcp
    rcases hcp with rfl | rfl | rfl
    · simp only [IsCP]; omega
    · simp only [IsCP]; refine ⟨by omega, by omega, by decide, by decide, by decide⟩
    · simp only [IsCP]; omega)

/-- The cut-back loop never moves the cut forward. -/
theorem cutBack_le (s : List Nat) : ∀ m, cutBack s m ≤ m := by
  intro m
  induction m with
  | zero => exact Nat.le_refl 0
  | succ k ih =>
      by_cases hc : isCont (s.getD (k + 1) 0)
      · simp only [cutBack, hc, if_true]
        omega
      · simp only [cutBack, eq_false_of_ne_true hc, Bool.false_eq_true, if_false]
        omega

/-- If the byte probed first is not a continuation byte, the loop does not
move at all. -/
theorem cutBack_of_not_cont (s : List Nat) (m : Nat)
    (h : isCont (s.getD m 0) = false) : cutBack s m = m := by
  cases m with
  | zero => rfl
  | succ k => simp only [cutBack, h, Bool.false_eq_true, if_false]

/-- `Truncate` is the identity on inputs within the budget. -/
theorem Truncate_of_fit (t : List Nat) (m : Nat) (suf : List Nat)
    (h : t.length ≤ m) : Truncate t m suf = t := by
  unfold Truncate
  rw [if_pos h]

/-- `Truncate` on inputs exceeding the budget cuts and appends the suffix. -/
theorem Truncate_of_exceed (t : List Nat) (m : Nat) (suf : List Nat)
    (h : m < t.length) : Truncate t m suf = t.take (cutBack t m) ++ suf := by
  unfold Truncate
  rw [if_neg (by omega)]

/-- C9 counterexample: re-truncating at the same budget and suffix can change
the result.  `Truncate "ab\xc3\xa9" 3 "!!"` is `"ab!!"`, but truncating
`"ab!!"` again at budget 3 with suffix `"!!"` gives `"ab!!!"`. -/
theorem C9_counterexample :
    Truncate (Truncate [97, 98, 195, 169] 3 [33, 33]) 3 [33, 33] ≠
      Truncate [97, 98, 195, 169] 3 [33, 33] := by
  decide

/-- C9 (amended): truncation is idempotent provided the suffix is empty, or
the suffix begins with a non-continuation byte and additionally either the
first truncation's result already fits the budget or the input byte at the
budget position is not a continuation byte (no backward walk happened). -/
theorem C9_truncate_idempotent (s : List Nat) (maxLen : Nat) (suffix : List Nat)
    (h : suffix = [] ∨ (isCont (suffix.getD 0 0) = false ∧
        ((Truncate s maxLen suffix).length ≤ maxLen ∨ isCont (s.getD maxLen 0) = false))) :
    Truncate (Truncate s maxLen suffix) maxLen suffix = Truncate s maxLen suffix := by
  by_cases hbig : s.length ≤ maxLen
  · have h1 : Truncate s maxLen suffix = s := Truncate_of_fit s maxLen suffix hbig
    rw [h1, h1]
  · push_neg at hbig
    have hTs : Truncate s maxLen suffix = s.take (cutBack s maxLen) ++ suffix :=
      Truncate_of_exceed s maxLen suffix hbig
    rcases h with rfl | ⟨hhead, hcase⟩
    · -- empty suffix: the truncated result always fits within the budget
      apply Truncate_of_fit
      rw [hTs]
      simp only [List.append_nil, List.length_take]
      have := cutBack_le s maxLen
      omega
    · rcases hcase with hfit | hnc
      · exact Truncate_of_fit _ maxLen suffix hfit
      · have hcut : cutBack s maxLen = maxLen := cutBack_of_not_cont s maxLen hnc
        have htklen : (s.take maxLen).length = maxLen := by
          simp only [List.length_take]
          omega
        have hTs' : Truncate s maxLen suffix = s.take maxLen ++ suffix := by
          rw [hTs, hcut]
        by_cases hfit2 : (s.take maxLen ++ suffix).length ≤ maxLen
        · rw [hTs']
          exact Truncate_of_fit _ maxLen suffix hfit2
        · rw [hTs']
          have hd : (s.take maxLen ++ suffix).getD maxLen 0 = suffix.getD 0 0 := by
            rw [List.getD_append_right (s.take maxLen) suffix 0 maxLen (by omega)]
            rw [htklen]
            simp
          have hcut2 : cutBack (s.take maxLen ++ suffix) maxLen = maxLen := by
            apply cutBack_of_not_cont
            rw [hd]
            exact hhead
          rw [Truncate_of_exceed _ maxLen suffix (by omega), hcut2]
          congr 1
          rw [List.take_append_eq_append_take, htklen]
          simp [List.take_of_length_le (le_of_eq htklen)]

/-- Witness for C9: the amended idempotence applied at `s = "ab\xc3\xa9"`,
budget 3, suffix `"!"` (whose first byte `!` is not a continuation byte, and
the truncated result `"ab!"` fits the budget). -/
theorem C9_truncate_idempotent_witness :
    Truncate (Truncate [97, 98, 195, 169] 3 [33]) 3 [33] =
      Truncate [97, 98, 195, 169] 3 [33] :=
  C9_truncate_idempotent [97, 98, 195, 169] 3 [33] (Or.inr ⟨by decide, Or.inl (by decide)⟩)

/-! ## ghcrawl.spreadIndices (src/internal/ghcrawl/client.go, lines 481-498)

The Go code computes `step := float64(total-1) / float64(count-1)` and
`indices[i] = int(float64(i) * step)`.  Both operations are IEEE-754 binary64
with round-to-nearest-even, so the model carries an explicit correct-rounding
function `fl` on nonnegative rationals. -/

/-- `⌊log₂ n⌋` by structural recursion on a fuel argument (`Nat.log2` itself
is well-founded recursion, which the kernel cannot evaluate). -/
def log2Aux : Nat → Nat → Nat
  | 0, _ => 0
  | fuel + 1, n => if 2 ≤ n then log2Aux fuel (n / 2) + 1 else 0

/-- `⌊log₂ n⌋` (0 for `n = 0`). -/
def log2F (n : Nat) : Nat := log2Aux n n

/-- Round the nonnegative fraction `a/b` to the nearest natural number,
ties to even. -/
def rnat (a b : Nat) : Nat :=
  let n := a / b
  let r := a % b
  if 2 * r < b then n
  else if b < 2 * r then n + 1
  else if n % 2 = 0 then n else n + 1

/-- Round the nonnegative fraction `a/b` to the nearest IEEE-754 binary64
value (round to nearest, ties to even), returned as an exact fraction
(numerator, denominator): with `e = ⌊log₂(a/b)⌋`, the representable doubles
in that binade are the multiples of `2^(e-52)`, so round `(a/b)/2^(e-52)` to
the nearest integer (ties to even) and scale back.  Exact for zero and for
values `≥ 1` far below the overflow threshold — the only values
`spreadIndices` produces (subnormals, negatives and overflow never arise
there). -/
def flFrac (a b : Nat) : Nat × Nat :=
  if a = 0 then (0, 1)
  else
    let e := log2F (a / b)
    if e ≤ 52 then (rnat (a * 2 ^ (52 - e)) b, 2 ^ (52 - e))
    else (rnat a (b * 2 ^ (e - 52)) * 2 ^ (e - 52), 1)

/-- Go `float64(n)` for a nonnegative integer `n`. -/
def toF (n : Nat) : Nat × Nat := flFrac n 1

/-- Go `float64` division (correctly rounded, operands as exact fractions). -/
def divF (x y : Nat × Nat) : Nat × Nat := flFrac (x.1 * y.2) (x.2 * y.1)

/-- Go `float64` multiplication (correctly rounded). -/
def mulF (x y : Nat × Nat) : Nat × Nat := flFrac (x.1 * y.1) (x.2 * y.2)

/-- Go `int(f)` conversion: truncation toward zero.  Every float converted in
`spreadIndices` is nonnegative, where truncation is the fraction's integer
part. -/
def truncF (x : Nat × Nat) : Nat := x.1 / x.2

/-- Model of `spreadIndices(total, count)`.  For `0 < total`, `count < total`
and `count < 2` the Go code divides by zero in float64 (`count = 1`, giving
`int(0*Inf) = int(NaN)`, implementation-defined) or panics in
`make([]int, count)` (`count < 0`); those inputs are outside every claim and
are mapped to `none`. -/
def spreadIndices (total count : Int) : Option (List Int) :=
  if total ≤ 0 then some []
  else if total ≤ count then some ((List.range total.toNat).map Int.ofNat)
  else if count < 2 then none
  else
    let step := divF (toF (total - 1).toNat) (toF (count - 1).toNat)
    some ((List.range count.toNat).map fun i => Int.ofNat (truncF (mulF (toF i) step)))

/-- C3 counterexample: at `total = 16, count = 12` the code's float64
computation yields index 14 at position `i = 11`, while the claimed exact
formula `⌊i·(total-1)/(count-1)⌋` gives 15 — so the last returned index is
14, not `total-1 = 15`, and the two disagree. -/
theorem C3_counterexample :
    spreadIndices 16 12 = some [0, 1, 2, 4, 5, 6, 8, 9, 10, 12, 13, 14] ∧
    (11 * (16 - 1) / (12 - 1) : Int) = 15 ∧ ((14 : Int) ≠ 15) :=
  ⟨by decide, by decide, by decide⟩

/-- C3 (amended): `spreadIndices(0, count)` is empty; for `count ≥ total > 0`
it returns `[0, …, total-1]`; for `2 ≤ count < total` it returns exactly
`count` indices where index `i` is the truncation of the IEEE-754 float64
product `float64(i) * (float64(total-1)/float64(count-1))` — which can fall
short of the exact `⌊i·(total-1)/(count-1)⌋` — and the first returned index
is 0; `spreadIndices(10,3) = [0,4,9]` and `spreadIndices(6,3) = [0,2,5]`. -/
theorem C3_spreadIndices_amended :
    (∀ count : Int, spreadIndices 0 count = some []) ∧
    (∀ total count : Int, 0 < total → total ≤ count →
      spreadIndices total count = some ((List.range total.toNat).map Int.ofNat)) ∧
    (∀ total count : Int, 0 < total → 2 ≤ count → count < total →
      ∃ l, spreadIndices total count = some l ∧
        l.length = count.toNat ∧
        l.head? = some 0 ∧
        ∀ i : Nat, i < count.toNat →
          l.getD i 0 = Int.ofNat (truncF (mulF (toF i)
            (divF (toF (total - 1).toNat) (toF (count - 1).toNat))))) ∧
    (spreadIndices 10 3 = some [0, 4, 9] ∧ spreadIndices 6 3 = some [0, 2, 5]) := by
  refine ⟨?_, ?_, ?_, by decide, by decide⟩
  · intro count
    unfold spreadIndices
    rw [if_pos (by omega)]
  · intro total count h1 h2
    unfold spreadIndices
    rw [if_neg (by omega), if_pos h2]
  · intro total count h1 h2 h3
    refine ⟨(List.range count.toNat).map (fun i => Int.ofNat (truncF (mulF (toF i)
      (divF (toF (total - 1).toNat) (toF (count - 1).toNat))))), ?_, ?_, ?_, ?_⟩
    · unfold spreadIndices
      rw [if_neg (by omega), if_neg (by omega), if_neg (by omega)]
    · simp
    · obtain ⟨m, hm⟩ : ∃ m, count.toNat = m + 1 := ⟨count.toNat - 1, by omega⟩
      rw [hm, List.range_succ_eq_map]
      simp only [List.map_cons, List.head?_cons, Option.some.injEq]
      simp [toF, mulF, flFrac, truncF]
    · intro i hi
      rw [List.getD_eq_getElem _ _ (by simpa using hi)]
      simp

/-- Witness for C3: the middle clause of the amended statement applied at
`total = 6, count = 3`. -/
theorem C3_spreadIndices_amended_witness :
    ∃ l, spreadIndices 6 3 = some l ∧
      l.length = (3 : Int).toNat ∧
      l.head? = some 0 ∧
      ∀ i : Nat, i < (3 : Int).toNat →
        l.getD i 0 = Int.ofNat (truncF (mulF (toF i)
          (divF (toF ((6 : Int) - 1).toNat) (toF ((3 : Int) - 1).toNat)))) :=
  C3_spreadIndices_amended.2.2.1 6 3 (by decide) (by decide) (by decide)

/-! ## Benchmarker.Run (src/internal/llm/ollama.go, lines 364-403)

`Run` short-circuits on an empty held-out set (`FinalScore: -1`), then loops
`iter = 1 .. MaxIterations`: `runIteration` grades every held-out sample and
averages the scores; the record is appended to `History`, `FinalScore` and
`Iterations` are set to the iteration's score and index, and the loop breaks
as soon as the score reaches `TargetScore`.  The per-sample grader scores are
opaque provider output, abstracted as `g iter j` (iteration, sample index);
`refinePersona` only changes the prompt for later scores, which the
abstraction absorbs.  Any provider/parse failure aborts the whole run, so the
claim's "for every sequence of grader scores" is the success path modelled
here. -/

def MaxIterations : Nat := 5

def TargetScore : ℚ := 80

/-- One entry of `Result.History` (feedback and pairs are opaque provider
text, not modelled; the claims concern `Iteration` and `Score`). -/
structure IterationResult where
  iteration : Nat
  score : ℚ
deriving DecidableEq

/-- `Result`: final score, iteration count, history. -/
structure RunResult where
  finalScore : ℚ
  iterations : Nat
  history : List IterationResult
deriving DecidableEq

/-- `runIteration`'s score: per-sample grader scores for iteration `iter`
summed over the `n` held-out samples and divided by `n`. -/
def iterAvg (g : Nat → Nat → ℚ) (n : Nat) (iter : Nat) : ℚ :=
  ((List.range n).map (g iter)).sum / n

/-- The benchmark loop from iteration `iter` with `fuel` iterations left:
record the iteration, stop on reaching the target, else continue. -/
def runFrom (g : Nat → Nat → ℚ) (n : Nat) : Nat → Nat → List IterationResult
  | _, 0 => []
  | iter, fuel + 1 =>
      if TargetScore ≤ iterAvg g n iter then [⟨iter, iterAvg g n iter⟩]
      else ⟨iter, iterAvg g n iter⟩ :: runFrom g n (iter + 1) fuel

/-- Model of `Benchmarker.Run` (success path): `n` held-out samples, grader
scores `g`. -/
def Run (g : Nat → Nat → ℚ) (n : Nat) : RunResult :=
  if n = 0 then ⟨-1, 0, []⟩
  else
    let hist := runFrom g n 1 MaxIterations
    ⟨((hist.getLast?).map IterationResult.score).getD 0, hist.length, hist⟩

/-- The claim's "smaller of 5 and the index of the first iteration whose
average score is ≥ 80.0". -/
def specIterations (g : Nat → Nat → ℚ) (n : Nat) : Nat :=
  if TargetScore ≤ iterAvg g n 1 then 1
  else if TargetScore ≤ iterAvg g n 2 then 2
  else if TargetScore ≤ iterAvg g n 3 then 3
  else if TargetScore ≤ iterAvg g n 4 then 4
  else 5

theorem runFrom_ne_nil (g : Nat → Nat → ℚ) (n iter fuel : Nat) (h : 0 < fuel) :
    runFrom g n iter fuel ≠ [] := by
  cases fuel with
  | zero => omega
  | succ m =>
      simp only [runFrom]
      by_cases hhit : TargetScore ≤ iterAvg g n iter
      · rw [if_pos hhit]; exact List.cons_ne_nil _ _
      · rw [if_neg hhit]; exact List.cons_ne_nil _ _

theorem runFrom_length_pos (g : Nat → Nat → ℚ) (n iter fuel : Nat) (h : 0 < fuel) :
    0 < (runFrom g n iter fuel).length := by
  have hne := runFrom_ne_nil g n iter fuel h
  cases hrf : runFrom g n iter fuel with
  | nil => exact absurd hrf hne
  | cons a l => simp

theorem runFrom_length_le (g : Nat → Nat → ℚ) (n : Nat) :
    ∀ fuel iter, (runFrom g n iter fuel).length ≤ fuel := by
  intro fuel
  induction fuel with
  | zero => intro iter; simp [runFrom]
  | succ m ih =>
      intro iter
      simp only [runFrom]
      by_cases hhit : TargetScore ≤ iterAvg g n iter
      · rw [if_pos hhit]; simp
      · rw [if_neg hhit]
        simp only [List.length_cons]
        have := ih (iter + 1)
        omega

theorem runFrom_getD (g : Nat → Nat → ℚ) (n : Nat) :
    ∀ fuel iter k, k < (runFrom g n iter fuel).length →
      (runFrom g n iter fuel).getD k ⟨0, 0⟩ = ⟨iter + k, iterAvg g n (iter + k)⟩ := by
  intro fuel
  induction fuel with
  | zero => intro iter k hk; simp [runFrom] at hk
  | succ m ih =>
      intro iter k hk
      simp only [runFrom] at hk ⊢
      by_cases hhit : TargetScore ≤ iterAvg g n iter
      · rw [if_pos hhit] at hk ⊢
        simp only [List.length_cons, List.length_nil] at hk
        have hk0 : k = 0 := by omega
        subst hk0
        simp
      · rw [if_neg hhit] at hk ⊢
        cases k with
        | zero => simp
        | succ j =>
            simp only [List.length_cons] at hk
            simp only [List.getD_cons_succ]
            have := ih (iter + 1) j (by omega)
            rw [this]
            have harith : iter + 1 + j = iter + (j + 1) := by omega
            rw [harith]

theorem runFrom_no_early_hit (g : Nat → Nat → ℚ) (n : Nat) :
    ∀ fuel iter k, k + 1 < (runFrom g n iter fuel).length →
      iterAvg g n (iter + k) < TargetScore := by
  intro fuel
  induction fuel with
  | zero => intro iter k hk; simp [runFrom] at hk
  | succ m ih =>
      intro iter k hk
      simp only [runFrom] at hk
      by_cases hhit : TargetScore ≤ iterAvg g n iter
      · rw [if_pos hhit] at hk
        simp only [List.length_cons, List.length_nil] at hk
        omega
      · rw [if_neg hhit] at hk
        simp only [List.length_cons] at hk
        cases k with
        | zero => simpa using not_le.mp hhit
        | succ j =>
            have := ih (iter + 1) j (by omega)
            have harith : iter + 1 + j = iter + (j + 1) := by omega
            rwa [harith] at this

theorem runFrom_stops_on_hit (g : Nat → Nat → ℚ) (n : Nat) :
    ∀ fuel iter, (runFrom g n iter fuel).length < fuel →
      TargetScore ≤ iterAvg g n (iter + (runFrom g n iter fuel).length - 1) := by
  intro fuel
  induction fuel with
  | zero => intro iter h; omega
  | succ m ih =>
      intro iter h
      simp only [runFrom] at h ⊢
      by_cases hhit : TargetScore ≤ iterAvg g n iter
      · rw [if_pos hhit] at h ⊢
        simpa using hhit
      · rw [if_neg hhit] at h ⊢
        simp only [List.length_cons] at h ⊢
        have hlen : 0 < (runFrom g n (iter + 1) m).length :=
          runFrom_length_pos g n (iter + 1) m (by omega)
        have := ih (iter + 1) (by omega)
        have harith : iter + ((runFrom g n (iter + 1) m).length + 1) - 1 =
            iter + 1 + (runFrom g n (iter + 1) m).length - 1 := by omega
        rw [harith]
        exact this

theorem Run_eq (g : Nat → Nat → ℚ) (n : Nat) (hn : n ≠ 0) :
    Run g n = ⟨(((runFrom g n 1 MaxIterations).getLast?).map IterationResult.score).getD 0,
      (runFrom g n 1 MaxIterations).length, runFrom g n 1 MaxIterations⟩ := by
  unfold Run
  rw [if_neg hn]

/-- C1: for every sequence of grader scores and non-empty held-out set, the
benchmark loop executes between 1 and 5 iterations; the iteration count is
exactly the smaller of 5 and the index of the first iteration whose average
score reaches 80.0 (`specIterations`); `Result.Iterations` and the history
length agree; `Result.FinalScore` is the last iteration's average; and the
history records iterations `1, …, Iterations` in order with their averages. -/
theorem C1_run_loop (g : Nat → Nat → ℚ) (n : Nat) (hn : 0 < n) :
    1 ≤ (Run g n).iterations ∧
    (Run g n).iterations ≤ MaxIterations ∧
    (Run g n).iterations = specIterations g n ∧
    (Run g n).history.length = (Run g n).iterations ∧
    (Run g n).finalScore = iterAvg g n (Run g n).iterations ∧
    (∀ k, k < (Run g n).history.length →
      (Run g n).history.getD k ⟨0, 0⟩ = ⟨k + 1, iterAvg g n (k + 1)⟩) := by
  have hne : n ≠ 0 := by omega
  rw [Run_eq g n hne]
  set hist := runFrom g n 1 MaxIterations with hhist
  have hpos : 0 < hist.length := runFrom_length_pos g n 1 MaxIterations (by norm_num [MaxIterations])
  have hle : hist.length ≤ MaxIterations := runFrom_length_le g n MaxIterations 1
  have hget : ∀ k, k < hist.length → hist.getD k ⟨0, 0⟩ = ⟨1 + k, iterAvg g n (1 + k)⟩ :=
    fun k hk => runFrom_getD g n MaxIterations 1 k hk
  have hbelow : ∀ k, k + 1 < hist.length → iterAvg g n (1 + k) < TargetScore :=
    fun k hk => runFrom_no_early_hit g n MaxIterations 1 k hk
  have hstop : hist.length < MaxIterations →
      TargetScore ≤ iterAvg g n (1 + hist.length - 1) :=
    fun h => runFrom_stops_on_hit g n MaxIterations 1 h
  have hlast : (hist.getLast?.map IterationResult.score).getD 0 =
      iterAvg g n hist.length := by
    have hne' : hist ≠ [] := by
      rw [hhist]
      exact runFrom_ne_nil g n 1 MaxIterations (by norm_num [MaxIterations])
    rw [List.getLast?_eq_getLast_of_ne_nil hne']
    simp only [Option.map_some', Option.getD_some]
    rw [List.getLast_eq_getElem hist hne']
    have hlt : hist.length - 1 < hist.length := by omega
    have := hget (hist.length - 1) hlt
    rw [List.getD_eq_getElem _ _ hlt] at this
    rw [this]
    have : 1 + (hist.length - 1) = hist.length := by omega
    rw [this]
  refine ⟨hpos, hle, ?_, rfl, hlast, ?_⟩
  · -- iteration count = min(5, first hit)
    have h5 : MaxIterations = 5 := rfl
    obtain ⟨L, hL⟩ : ∃ L, hist.length = L := ⟨hist.length, rfl⟩
    rw [hL] at hpos hle hbelow hstop ⊢
    rw [h5] at hle hstop
    have havg : ∀ i : Nat, 1 ≤ i → i ≤ L - 1 → iterAvg g n i < TargetScore := by
      intro i h1 h2
      have := hbelow (i - 1) (by omega)
      have harith : 1 + (i - 1) = i := by omega
      rwa [harith] at this
    have hhit : L < 5 → TargetScore ≤ iterAvg g n L := by
      intro h
      have := hstop h
      have harith : 1 + L - 1 = L := by omega
      rwa [harith] at this
    show L = specIterations g n
    unfold specIterations
    interval_cases L
    · rw [if_pos (hhit (by norm_num))]
    · rw [if_neg (not_le.mpr (havg 1 (by norm_num) (by norm_num))),
        if_pos (hhit (by norm_num))]
    · rw [if_neg (not_le.mpr (havg 1 (by norm_num) (by norm_num))),
        if_neg (not_le.mpr (havg 2 (by norm_num) (by norm_num))),
        if_pos (hhit (by norm_num))]
    · rw [if_neg (not_le.mpr (havg 1 (by norm_num) (by norm_num))),
        if_neg (not_le.mpr (havg 2 (by norm_num) (by norm_num))),
        if_neg (not_le.mpr (havg 3 (by norm_num) (by norm_num))),
        if_pos (hhit (by norm_num))]
    · rw [if_neg (not_le.mpr (havg 1 (by norm_num) (by norm_num))),
        if_neg (not_le.mpr (havg 2 (by norm_num) (by norm_num))),
        if_neg (not_le.mpr (havg 3 (by norm_num) (by norm_num))),
        if_neg (not_le.mpr (havg 4 (by norm_num) (by norm_num)))]
  · intro k hk
    have := hget k hk
    rw [this]
    have harith : 1 + k = k + 1 := by omega
    rw [harith]

/-- Witness for C1: two held-out samples, every grader score 90: one
iteration, final score 90 (the spec's end-to-end scenario). -/
theorem C1_run_loop_witness :
    1 ≤ (Run (fun _ _ => 90) 2).iterations ∧
    (Run (fun _ _ => 90) 2).iterations ≤ MaxIterations ∧
    (Run (fun _ _ => 90) 2).iterations = specIterations (fun _ _ => 90) 2 ∧
    (Run (fun _ _ => 90) 2).history.length = (Run (fun _ _ => 90) 2).iterations ∧
    (Run (fun _ _ => 90) 2).finalScore = iterAvg (fun _ _ => 90) 2 (Run (fun _ _ => 90) 2).iterations ∧
    (∀ k, k < (Run (fun _ _ => 90) 2).history.length →
      (Run (fun _ _ => 90) 2).history.getD k ⟨0, 0⟩ = ⟨k + 1, iterAvg (fun _ _ => 90) 2 (k + 1)⟩) :=
  C1_run_loop (fun _ _ => 90) 2 (by norm_num)

/-! ## SplitReviews (src/internal/llm/ollama.go, lines 326-346)

`SplitReviews(data, max)` walks `data.Repos` in order; within each repo it
walks `ReviewComments` in order, moving a comment to the held-out set while
`len(heldOut) < max` and the comment's `DiffHunk` is non-empty, and keeping
it otherwise.  Only `FullName` and `ReviewComments` of each repo are read or
written; other `RepoData` fields are untouched and omitted from the model.
Go's `max` is an `int`; a non-positive `max` holds nothing out (the guard
`len(heldOut) < max` is never true), which `max : Nat` with `max = 0`
captures. -/

/-- `ghcrawl.ReviewComment` (types.go): the `Date` field (a `time.Time`) is
opaque and modelled as an integer timestamp. -/
structure ReviewComment where
  repo : String
  body : String
  path : String
  diffHunk : String
  date : Int
deriving DecidableEq

/-- The slice of `ghcrawl.RepoData` that `SplitReviews` touches. -/
structure RepoData where
  fullName : String
  reviewComments : List ReviewComment
deriving DecidableEq

/-- `benchmark.HeldOutReview`. -/
structure HeldOutReview where
  repoFullName : String
  body : String
  path : String
  diffHunk : String
deriving DecidableEq

/-- The inner loop of `SplitReviews` over one repo's comments, with `cnt` the
current global held-out count: returns (kept, taken). -/
def splitComments (max : Nat) : List ReviewComment → Nat → List ReviewComment × List ReviewComment
  | [], _ => ([], [])
  | rc :: rest, cnt =>
      if cnt < max ∧ rc.diffHunk ≠ "" then
        ((splitComments max rest (cnt + 1)).1, rc :: (splitComments max rest (cnt + 1)).2)
      else
        (rc :: (splitComments max rest cnt).1, (splitComments max rest cnt).2)

/-- The held-out record built from a taken comment of the repo `fn`. -/
def mkHeldOut (fn : String) (rc : ReviewComment) : HeldOutReview :=
  ⟨fn, rc.body, rc.path, rc.diffHunk⟩

/-- The outer loop of `SplitReviews` over the repos. -/
def splitRepos (max : Nat) : List RepoData → Nat → List RepoData × List HeldOutReview
  | [], _ => ([], [])
  | repo :: rest, cnt =>
      (⟨repo.fullName, (splitComments max repo.reviewComments cnt).1⟩ ::
          (splitRepos max rest (cnt + (splitComments max repo.reviewComments cnt).2.length)).1,
        (splitComments max repo.reviewComments cnt).2.map (mkHeldOut repo.fullName) ++
          (splitRepos max rest (cnt + (splitComments max repo.reviewComments cnt).2.length)).2)

/-- Model of `SplitReviews`: returns the mutated repo list and the held-out
set. -/
def SplitReviews (repos : List RepoData) (max : Nat) : List RepoData × List HeldOutReview :=
  splitRepos max repos 0

/-- The value content of a review comment that held-out "presence" can see:
`HeldOutReview` keeps exactly body, path and diff hunk. -/
def commentKey (rc : ReviewComment) : String × String × String :=
  (rc.body, rc.path, rc.diffHunk)

theorem splitComments_taken_le (max : Nat) :
    ∀ cs cnt, (splitComments max cs cnt).2.length ≤ max - cnt := by
  intro cs
  induction cs with
  | nil => intro cnt; simp [splitComments]
  | cons rc rest ih =>
      intro cnt
      by_cases h : cnt < max ∧ rc.diffHunk ≠ ""
      · simp only [splitComments, if_pos h, List.length_cons]
        have := ih (cnt + 1)
        omega
      · simp only [splitComments, if_neg h]
        exact ih cnt

theorem splitComments_taken_diff (max : Nat) :
    ∀ cs cnt, ∀ t ∈ (splitComments max cs cnt).2, t.diffHunk ≠ "" := by
  intro cs
  induction cs with
  | nil => intro cnt t ht; simp [splitComments] at ht
  | cons rc rest ih =>
      intro cnt t ht
      by_cases h : cnt < max ∧ rc.diffHunk ≠ ""
      · simp only [splitComments, if_pos h, List.mem_cons] at ht
        rcases ht with rfl | ht
        · exact h.2
        · exact ih (cnt + 1) t ht
      · simp only [splitComments, if_neg h] at ht
        exact ih cnt t ht

theorem splitComments_kept_sublist (max : Nat) :
    ∀ cs cnt, (splitComments max cs cnt).1.Sublist cs := by
  intro cs
  induction cs with
  | nil => intro cnt; simp [splitComments]
  | cons rc rest ih =>
      intro cnt
      by_cases h : cnt < max ∧ rc.diffHunk ≠ ""
      · simp only [splitComments, if_pos h]
        exact (ih (cnt + 1)).cons rc
      · simp only [splitComments, if_neg h]
        exact (ih cnt).cons₂ rc

theorem splitComments_partition (max : Nat) :
    ∀ cs cnt, (↑(splitComments max cs cnt).1 + ↑(splitComments max cs cnt).2 :
      Multiset ReviewComment) = ↑cs := by
  intro cs
  induction cs with
  | nil => intro cnt; simp [splitComments]
  | cons rc rest ih =>
      intro cnt
      by_cases h : cnt < max ∧ rc.diffHunk ≠ ""
      · simp only [splitComments, if_pos h]
        rw [← Multiset.cons_coe, Multiset.add_cons, ih (cnt + 1), Multiset.cons_coe]
      · simp only [splitComments, if_neg h]
        rw [← Multiset.cons_coe, ← Multiset.cons_coe, Multiset.cons_add, ih cnt]

theorem splitComments_perm (max : Nat) (cs : List ReviewComment) (cnt : Nat) :
    ((splitComments max cs cnt).1 ++ (splitComments max cs cnt).2).Perm cs := by
  rw [← Multiset.coe_eq_coe, ← Multiset.coe_add]
  exact splitComments_partition max cs cnt

/-- Within one repo, if the comment keys are distinct then no kept comment
shares its key with a taken comment. -/
theorem splitComments_key_disjoint (max cnt : Nat) (cs : List ReviewComment)
    (hnd : (cs.map commentKey).Nodup) :
    ∀ rc ∈ (splitComments max cs cnt).1, ∀ t ∈ (splitComments max cs cnt).2,
      commentKey rc ≠ commentKey t := by
  intro rc hrc t ht heq
  have hperm := splitComments_perm max cs cnt
  have hnd2 : (((splitComments max cs cnt).1 ++ (splitComments max cs cnt).2).map
      commentKey).Nodup := ((hperm.map commentKey).nodup_iff).mpr hnd
  rw [List.map_append] at hnd2
  have hdisj := List.disjoint_of_nodup_append hnd2
  exact hdisj (List.mem_map_of_mem commentKey hrc)
    (heq ▸ List.mem_map_of_mem commentKey ht)

theorem splitRepos_heldOut_le (max : Nat) :
    ∀ repos cnt, (splitRepos max repos cnt).2.length ≤ max - cnt := by
  intro repos
  induction repos with
  | nil => intro cnt; simp [splitRepos]
  | cons repo rest ih =>
      intro cnt
      simp only [splitRepos, List.length_append, List.length_map]
      have h1 := splitComments_taken_le max repo.reviewComments cnt
      have h2 := ih (cnt + (splitComments max repo.reviewComments cnt).2.length)
      omega

theorem splitRepos_heldOut_diff (max : Nat) :
    ∀ repos cnt, ∀ ho ∈ (splitRepos max repos cnt).2, ho.diffHunk ≠ "" := by
  intro repos
  induction repos with
  | nil => intro cnt ho hho; simp [splitRepos] at hho
  | cons repo rest ih =>
      intro cnt ho hho
      simp only [splitRepos, List.mem_append, List.mem_map] at hho
      rcases hho with ⟨rc, hrc, rfl⟩ | hho
      · exact splitComments_taken_diff max repo.reviewComments cnt rc hrc
      · exact ih _ ho hho

/-- Every kept comment of the output comes from the input aggregate. -/
theorem splitRepos_kept_source (max : Nat) :
    ∀ repos cnt, ∀ r' ∈ (splitRepos max repos cnt).1, ∀ rc ∈ r'.reviewComments,
      rc ∈ repos.flatMap (fun r => r.reviewComments) := by
  intro repos
  induction repos with
  | nil => intro cnt r' hr'; simp [splitRepos] at hr'
  | cons repo rest ih =>
      intro cnt r' hr' rc hrc
      simp only [splitRepos, List.mem_cons] at hr'
      simp only [List.flatMap_cons, List.mem_append]
      rcases hr' with rfl | hr'
      · exact Or.inl ((splitComments_kept_sublist max repo.reviewComments cnt).subset hrc)
      · exact Or.inr (ih _ r' hr' rc hrc)

/-- Every held-out record's key occurs among the input aggregate's comments. -/
theorem splitRepos_heldOut_source (max : Nat) :
    ∀ repos cnt, ∀ ho ∈ (splitRepos max repos cnt).2,
      ∃ c ∈ repos.flatMap (fun r => r.reviewComments),
        commentKey c = (ho.body, ho.path, ho.diffHunk) := by
  intro repos
  induction repos with
  | nil => intro cnt ho hho; simp [splitRepos] at hho
  | cons repo rest ih =>
      intro cnt ho hho
      simp only [splitRepos, List.mem_append, List.mem_map] at hho
      simp only [List.flatMap_cons, List.mem_append]
      rcases hho with ⟨rc, hrc, rfl⟩ | hho
      · refine ⟨rc, Or.inl ?_, rfl⟩
        have := (splitComments_perm max repo.reviewComments cnt).subset
        exact this (List.mem_append_right _ hrc)
      · obtain ⟨c, hc, hkey⟩ := ih _ ho hho
        exact ⟨c, Or.inr hc, hkey⟩

/-- Per-repo correspondence between input and output repos: names unchanged,
kept comments are an in-order sublist, and the rest of each repo's comments
appear in the held-out set tagged with the repo's name. -/
theorem splitRepos_forall2 (max : Nat) :
    ∀ repos cnt, List.Forall₂ (fun r r' =>
        r'.fullName = r.fullName ∧
        r'.reviewComments.Sublist r.reviewComments ∧
        ∃ taken : List ReviewComment,
          (↑r'.reviewComments + ↑taken : Multiset ReviewComment) = ↑r.reviewComments ∧
          ∀ c ∈ taken, mkHeldOut r.fullName c ∈ (splitRepos max repos cnt).2)
      repos (splitRepos max repos cnt).1 := by
  intro repos
  induction repos with
  | nil => intro cnt; simp [splitRepos]
  | cons repo rest ih =>
      intro cnt
      simp only [splitRepos]
      constructor
      · refine ⟨rfl, splitComments_kept_sublist max repo.reviewComments cnt, ?_⟩
        refine ⟨(splitComments max repo.reviewComments cnt).2,
          splitComments_partition max repo.reviewComments cnt, ?_⟩
        intro c hc
        exact List.mem_append_left _ (List.mem_map_of_mem _ hc)
      · refine (ih _).imp ?_
        intro r r' hr
        refine ⟨hr.1, hr.2.1, ?_⟩
        obtain ⟨taken, hpart, hmem⟩ := hr.2.2
        exact ⟨taken, hpart, fun c hc => List.mem_append_right _ (hmem c hc)⟩

/-- Held-out keys never remain in any output repo, provided the comment keys
are globally distinct. -/
theorem splitRepos_absent (max : Nat) :
    ∀ repos cnt,
      ((repos.flatMap fun r => r.reviewComments).map commentKey).Nodup →
      ∀ ho ∈ (splitRepos max repos cnt).2, ∀ r' ∈ (splitRepos max repos cnt).1,
        ∀ rc ∈ r'.reviewComments, commentKey rc ≠ (ho.body, ho.path, ho.diffHunk) := by
  intro repos
  induction repos with
  | nil => intro cnt _ ho hho; simp [splitRepos] at hho
  | cons repo rest ih =>
      intro cnt hnd ho hho r' hr' rc hrc
      rw [List.flatMap_cons, List.map_append, List.nodup_append] at hnd
      obtain ⟨hnd1, hnd2, hdisj⟩ := hnd
      simp only [splitRepos, List.mem_append, List.mem_map, List.mem_cons] at hho hr'
      rcases hho with ⟨t0, ht0, rfl⟩ | hho
      · -- held out of the head repo
        rcases hr' with rfl | hr'
        · exact splitComments_key_disjoint max cnt repo.reviewComments hnd1 rc hrc t0 ht0
        · intro heq
          have hrcJ : rc ∈ rest.flatMap (fun r => r.reviewComments) :=
            splitRepos_kept_source max rest _ r' hr' rc hrc
          have ht0cs : t0 ∈ repo.reviewComments :=
            (splitComments_perm max repo.reviewComments cnt).subset
              (List.mem_append_right _ ht0)
          exact hdisj (heq ▸ List.mem_map_of_mem commentKey ht0cs)
            (List.mem_map_of_mem commentKey hrcJ)
      · -- held out of a later repo
        rcases hr' with rfl | hr'
        · intro heq
          obtain ⟨c, hcJ, hckey⟩ := splitRepos_heldOut_source max rest _ ho hho
          have hrccs : rc ∈ repo.reviewComments :=
            (splitComments_kept_sublist max repo.reviewComments cnt).subset hrc
          refine hdisj (List.mem_map_of_mem commentKey hrccs) ?_
          rw [heq, ← hckey]
          exact List.mem_map_of_mem commentKey hcJ
        · exact ih _ hnd2 ho hho r' hr' rc hrc

/-- C6 (amended): `SplitReviews` removes at most `max` review comments, every
removed comment has a non-empty diff hunk, each output repo keeps its name and
an in-order sublist of its comments whose removed complement appears in the
held-out set, and — provided the (body, path, diff hunk) keys of the
aggregate's review comments are pairwise distinct — no held-out comment's key
remains in any repository's review-comment list. -/
theorem C6_split_reviews (repos : List RepoData) (max : Nat) :
    (SplitReviews repos max).2.length ≤ max ∧
    (∀ ho ∈ (SplitReviews repos max).2, ho.diffHunk ≠ "") ∧
    List.Forall₂ (fun r r' =>
        r'.fullName = r.fullName ∧
        r'.reviewComments.Sublist r.reviewComments ∧
        ∃ taken : List ReviewComment,
          (↑r'.reviewComments + ↑taken : Multiset ReviewComment) = ↑r.reviewComments ∧
          ∀ c ∈ taken, mkHeldOut r.fullName c ∈ (SplitReviews repos max).2)
      repos (SplitReviews repos max).1 ∧
    (((repos.flatMap fun r => r.reviewComments).map commentKey).Nodup →
      ∀ ho ∈ (SplitReviews repos max).2, ∀ r' ∈ (SplitReviews repos max).1,
        ∀ rc ∈ r'.reviewComments, commentKey rc ≠ (ho.body, ho.path, ho.diffHunk)) := by
  refine ⟨?_, splitRepos_heldOut_diff max repos 0, splitRepos_forall2 max repos 0,
    splitRepos_absent max repos 0⟩
  show (splitRepos max repos 0).2.length ≤ max
  have := splitRepos_heldOut_le max repos 0
  omega

/-- Witness for C6: the absence clause applied to a two-comment aggregate with
distinct keys, `max = 1`: the kept comment's key differs from the held-out
one's. -/
theorem C6_split_reviews_witness :
    commentKey ⟨"r", "b2", "p2", "d2", 0⟩ ≠
      (HeldOutReview.body ⟨"r", "b", "p", "d"⟩, HeldOutReview.path ⟨"r", "b", "p", "d"⟩,
        HeldOutReview.diffHunk ⟨"r", "b", "p", "d"⟩) :=
  (C6_split_reviews [⟨"r", [⟨"r", "b", "p", "d", 0⟩, ⟨"r", "b2", "p2", "d2", 0⟩]⟩] 1).2.2.2
    (by decide) ⟨"r", "b", "p", "d"⟩ (by decide)
    ⟨"r", [⟨"r", "b2", "p2", "d2", 0⟩]⟩ (by decide)
    ⟨"r", "b2", "p2", "d2", 0⟩ (by decide)

/-- C6 counterexample: with a repo holding two identical review comments
(non-empty diff hunk) and `max = 1`, the first copy is held out and the
second kept, so the held-out comment's body/path/diff hunk are still present
in the repository's review-comment list. -/
theorem C6_counterexample :
    SplitReviews [⟨"r", [⟨"r", "b", "p", "d", 0⟩, ⟨"r", "b", "p", "d", 0⟩]⟩] 1 =
      ([⟨"r", [⟨"r", "b", "p", "d", 0⟩]⟩], [⟨"r", "b", "p", "d"⟩]) ∧
    ∃ ho ∈ (SplitReviews [⟨"r", [⟨"r", "b", "p", "d", 0⟩, ⟨"r", "b", "p", "d", 0⟩]⟩] 1).2,
    ∃ r ∈ (SplitReviews [⟨"r", [⟨"r", "b", "p", "d", 0⟩, ⟨"r", "b", "p", "d", 0⟩]⟩] 1).1,
    ∃ rc ∈ r.reviewComments,
      rc.body = ho.body ∧ rc.path = ho.path ∧ rc.diffHunk = ho.diffHunk := by
  refine ⟨by decide, ⟨"r", "b", "p", "d"⟩, by decide, ⟨"r", [⟨"r", "b", "p", "d", 0⟩]⟩,
    by decide, ⟨"r", "b", "p", "d", 0⟩, by decide, by decide⟩

/-! ## rateLimitTransport.RoundTrip (src/internal/ghcrawl/client.go, lines 36-95)

The wrapped base transport is modelled as a script: the list of responses
successive `base.RoundTrip` calls return (base-transport errors end the
script).  Time is nanoseconds (`time.Duration`/`time.Until` semantics):
`wait = resetUnix·10⁹ - now`.  `sleepContext` succeeds unless the context is
cancelled; cancellation is not modelled (no claim quantifies over it), so a
sleep always completes and is recorded in the outcome.  Header parsing
(`strconv.Atoi`, `strconv.ParseInt(…, 10, 64)`) is modelled by `goAtoi`,
including the int64 range check whose failure Go reports as a parse error. -/

/-- Accumulate a decimal digit string; fails on any non-digit. -/
def digitsValAux : List Char → Nat → Option Nat
  | [], acc => some acc
  | c :: cs, acc =>
      if '0' ≤ c ∧ c ≤ '9' then digitsValAux cs (acc * 10 + (c.toNat - 48)) else none

/-- Go `strconv.Atoi` / `strconv.ParseInt(s, 10, 64)` on a 64-bit platform:
optional sign, at least one digit, all digits, result within int64. -/
def goAtoi (s : String) : Option Int :=
  match s.data with
  | [] => none
  | '+' :: cs =>
      match cs with
      | [] => none
      | _ => (digitsValAux cs 0).bind fun n =>
          if n ≤ 2 ^ 63 - 1 then some (n : Int) else none
  | '-' :: cs =>
      match cs with
      | [] => none
      | _ => (digitsValAux cs 0).bind fun n =>
          if n ≤ 2 ^ 63 then some (-(n : Int)) else none
  | cs => (digitsValAux cs 0).bind fun n =>
      if n ≤ 2 ^ 63 - 1 then some (n : Int) else none

/-- The response fields `RoundTrip` reads: status code and the three
rate-limit headers (`""` models an absent header). -/
structure HttpResponse where
  status : Nat
  retryAfterH : String
  remainingH : String
  resetH : String
deriving DecidableEq

/-- Outcome of `RoundTrip`: a response (with the sleeps performed, in order,
in nanoseconds), the retries-exhausted error, or the end of the script (a
base-transport error, outside every claim). -/
inductive RTOutcome where
  | ok (resp : HttpResponse) (slept : List Int)
  | exhausted (slept : List Int)
  | scriptEnded
deriving DecidableEq

/-- Record a sleep of `d` nanoseconds in front of an outcome's sleep list. -/
def RTOutcome.addSleep (d : Int) : RTOutcome → RTOutcome
  | .ok r s => .ok r (d :: s)
  | .exhausted s => .exhausted (d :: s)
  | .scriptEnded => .scriptEnded

def maxRetries : Nat := 3

def nsPerSecond : Int := 1000000000

/-- One attempt of the retry loop (fuel = remaining attempts). -/
def roundTripAux (now : Int) : Nat → List HttpResponse → RTOutcome
  | 0, _ => .exhausted []
  | _ + 1, [] => .scriptEnded
  | fuel + 1, r :: rest =>
      if r.status = 403 ∨ r.status = 429 then
        match goAtoi r.retryAfterH with
        | none => .ok r []
        | some secs =>
            if secs ≤ 0 ∨ 900 ≤ secs then .ok r []
            else (roundTripAux now fuel rest).addSleep (secs * nsPerSecond)
      else
        match goAtoi r.remainingH with
        | none => .ok r []
        | some rem =>
            if rem ≤ 10 then
              match goAtoi r.resetH with
              | none => .ok r []
              | some resetUnix =>
                  if 0 < resetUnix * nsPerSecond - now ∧
                      resetUnix * nsPerSecond - now < 900 * nsPerSecond then
                    .ok r [resetUnix * nsPerSecond - now + nsPerSecond]
                  else .ok r []
            else .ok r []

/-- Model of `rateLimitTransport.RoundTrip`. -/
def RoundTrip (now : Int) (script : List HttpResponse) : RTOutcome :=
  roundTripAux now maxRetries script

/-- HTTP 403/429 signals rate limiting. -/
def isRateLimited (r : HttpResponse) : Prop := r.status = 403 ∨ r.status = 429

instance (r : HttpResponse) : Decidable (isRateLimited r) := by
  unfold isRateLimited; infer_instance

/-- A Retry-After header that is absent, malformed, non-positive, or at least
15 minutes (900 s). -/
def badRetryAfter (r : HttpResponse) : Prop :=
  goAtoi r.retryAfterH = none ∨
    ∃ secs, goAtoi r.retryAfterH = some secs ∧ (secs ≤ 0 ∨ 900 ≤ secs)

/-- C4: for rate-limited responses — a bad Retry-After surfaces the response
as-is with no sleep and no error; a valid one sleeps exactly that many
seconds and retries on the rest of the script with one fewer attempt; and
three consecutive rate-limited responses with valid Retry-After values
exhaust the retries, returning the error after the three sleeps. -/
theorem C4_rate_limit_retry :
    (∀ (now : Int) (script : List HttpResponse) (r : HttpResponse),
      isRateLimited r → badRetryAfter r →
      RoundTrip now (r :: script) = .ok r []) ∧
    (∀ (now : Int) (script : List HttpResponse) (r : HttpResponse) (secs : Int),
      isRateLimited r → goAtoi r.retryAfterH = some secs → 0 < secs → secs < 900 →
      RoundTrip now (r :: script) =
        (roundTripAux now (maxRetries - 1) script).addSleep (secs * nsPerSecond)) ∧
    (∀ (now : Int) (r1 r2 r3 : HttpResponse) (rest : List HttpResponse)
        (s1 s2 s3 : Int),
      isRateLimited r1 → goAtoi r1.retryAfterH = some s1 → 0 < s1 → s1 < 900 →
      isRateLimited r2 → goAtoi r2.retryAfterH = some s2 → 0 < s2 → s2 < 900 →
      isRateLimited r3 → goAtoi r3.retryAfterH = some s3 → 0 < s3 → s3 < 900 →
      RoundTrip now (r1 :: r2 :: r3 :: rest) =
        .exhausted [s1 * nsPerSecond, s2 * nsPerSecond, s3 * nsPerSecond]) := by
  have hstep : ∀ (now : Int) (fuel : Nat) (script : List HttpResponse)
      (r : HttpResponse) (secs : Int),
      isRateLimited r → goAtoi r.retryAfterH = some secs → 0 < secs → secs < 900 →
      roundTripAux now (fuel + 1) (r :: script) =
        (roundTripAux now fuel script).addSleep (secs * nsPerSecond) := by
    intro now fuel script r secs hrl hsecs h1 h2
    have hrl' : r.status = 403 ∨ r.status = 429 := hrl
    simp only [roundTripAux]
    rw [if_pos hrl', hsecs]
    simp only [if_neg (show ¬(secs ≤ 0 ∨ 900 ≤ secs) by omega)]
  refine ⟨?_, ?_, ?_⟩
  · intro now script r hrl hbad
    have hrl' : r.status = 403 ∨ r.status = 429 := hrl
    show roundTripAux now 3 (r :: script) = RTOutcome.ok r []
    rw [show (3 : Nat) = 2 + 1 from rfl]
    simp only [roundTripAux]
    rw [if_pos hrl']
    rcases hbad with hnone | ⟨secs, hsecs, hrange⟩
    · rw [hnone]
    · rw [hsecs]
      simp only [if_pos hrange]
  · intro now script r secs hrl hsecs h1 h2
    exact hstep now 2 script r secs hrl hsecs h1 h2
  · intro now r1 r2 r3 rest s1 s2 s3 hrl1 hs1 h11 h12 hrl2 hs2 h21 h22 hrl3 hs3 h31 h32
    show roundTripAux now 3 (r1 :: r2 :: r3 :: rest) = _
    rw [show (3 : Nat) = 2 + 1 from rfl, hstep now 2 _ r1 s1 hrl1 hs1 h11 h12,
      show (2 : Nat) = 1 + 1 from rfl, hstep now 1 _ r2 s2 hrl2 hs2 h21 h22,
      show (1 : Nat) = 0 + 1 from rfl, hstep now 0 _ r3 s3 hrl3 hs3 h31 h32]
    rfl

/-- Witness for C4: the retry clause at `Retry-After: 2` (the spec's
end-to-end scenario — sleep 2 s, succeed on attempt 2), plus exhaustion after
three rate-limited responses. -/
theorem C4_rate_limit_retry_witness :
    RoundTrip 0 [⟨429, "2", "", ""⟩, ⟨200, "", "", ""⟩] =
      (roundTripAux 0 (maxRetries - 1) [⟨200, "", "", ""⟩]).addSleep (2 * nsPerSecond) ∧
    RoundTrip 0 [⟨429, "2", "", ""⟩, ⟨429, "3", "", ""⟩, ⟨403, "4", "", ""⟩] =
      .exhausted [2 * nsPerSecond, 3 * nsPerSecond, 4 * nsPerSecond] :=
  ⟨C4_rate_limit_retry.2.1 0 [⟨200, "", "", ""⟩] ⟨429, "2", "", ""⟩ 2
      (by decide) (by decide) (by decide) (by decide),
    C4_rate_limit_retry.2.2 0 ⟨429, "2", "", ""⟩ ⟨429, "3", "", ""⟩ ⟨403, "4", "", ""⟩ [] 2 3 4
      (by decide) (by decide) (by decide) (by decide)
      (by decide) (by decide) (by decide) (by decide)
      (by decide) (by decide) (by decide) (by decide)⟩

/-- C5 counterexample: a non-rate-limited response reporting exactly 10
remaining requests (not fewer than 10) and a reset 60 s away makes the code
sleep (the guard is `rem <= 10`), while the claim predicts no sleep. -/
theorem C5_counterexample :
    RoundTrip 0 [⟨200, "", "10", "60"⟩] =
      .ok ⟨200, "", "10", "60"⟩ [61 * nsPerSecond] ∧
    ¬((10 : Int) < 10) :=
  ⟨by decide, by decide⟩

/-- The code's proactive-throttle condition: remaining quota parses to at
most 10 and the reset time parses to a moment strictly in the future and
less than 15 minutes away. -/
def proactiveSleepCond (now : Int) (r : HttpResponse) : Prop :=
  ∃ rem resetUnix, goAtoi r.remainingH = some rem ∧ rem ≤ 10 ∧
    goAtoi r.resetH = some resetUnix ∧
    0 < resetUnix * nsPerSecond - now ∧ resetUnix * nsPerSecond - now < 900 * nsPerSecond

/-- C5 (amended): for every non-rate-limited response, the transport sleeps
until the reset time plus 1 second before returning it if and only if the
remaining-quota header indicates at most 10 (not: fewer than 10) requests
remain and the reset-time header indicates a reset strictly in the future
and within 15 minutes; in all other cases the response is returned without
sleeping. -/
theorem C5_proactive_throttle :
    (∀ (now : Int) (script : List HttpResponse) (r : HttpResponse) (rem resetUnix : Int),
      ¬isRateLimited r →
      goAtoi r.remainingH = some rem → rem ≤ 10 →
      goAtoi r.resetH = some resetUnix →
      0 < resetUnix * nsPerSecond - now → resetUnix * nsPerSecond - now < 900 * nsPerSecond →
      RoundTrip now (r :: script) = .ok r [resetUnix * nsPerSecond - now + nsPerSecond]) ∧
    (∀ (now : Int) (script : List HttpResponse) (r : HttpResponse),
      ¬isRateLimited r → ¬proactiveSleepCond now r →
      RoundTrip now (r :: script) = .ok r []) := by
  constructor
  · intro now script r rem resetUnix hrl hrem hle hreset h1 h2
    have hrl' : ¬(r.status = 403 ∨ r.status = 429) := hrl
    show roundTripAux now 3 (r :: script) = _
    rw [show (3 : Nat) = 2 + 1 from rfl]
    simp only [roundTripAux]
    rw [if_neg hrl', hrem]
    simp only [if_pos hle]
    rw [hreset]
    simp only [if_pos (And.intro h1 h2)]
  · intro now script r hrl hcond
    have hrl' : ¬(r.status = 403 ∨ r.status = 429) := hrl
    show roundTripAux now 3 (r :: script) = _
    rw [show (3 : Nat) = 2 + 1 from rfl]
    simp only [roundTripAux]
    rw [if_neg hrl']
    cases hrem : goAtoi r.remainingH with
    | none => rfl
    | some rem =>
        simp only []
        by_cases hle : rem ≤ 10
        · rw [if_pos hle]
          cases hreset : goAtoi r.resetH with
          | none => rfl
          | some resetUnix =>
              simp only []
              rw [if_neg]
              intro hw
              exact hcond ⟨rem, resetUnix, hrem, hle, hreset, hw.1, hw.2⟩
        · rw [if_neg hle]

/-- Witness for C5: the sleep direction applied at a non-rate-limited
response with 5 remaining and reset 60 s in the future: the transport sleeps
61 s. -/
theorem C5_proactive_throttle_witness :
    RoundTrip 0 [⟨200, "", "5", "60"⟩] =
      .ok ⟨200, "", "5", "60"⟩ [(60 : Int) * nsPerSecond - 0 + nsPerSecond] :=
  C5_proactive_throttle.1 0 [] ⟨200, "", "5", "60"⟩ 5 60
    (by decide) (by decide) (by decide) (by decide) (by decide) (by decide)

/-! ## String utilities shared by the comparison parser and ParseSynthesis

Go strings are handled rune-wise here (`for … range`, and all slicing
positions in these functions fall on rune boundaries: `strings.Index`
positions of pure-ASCII needles are never inside a multi-byte rune), so
`List Char` is a faithful carrier. -/

/-- The backtick character (0x60). -/
def btick : Char := Char.ofNat 96

/-- The left brace and right brace characters (0x7b, 0x7d). -/
def lbrace : Char := Char.ofNat 123

def rbrace : Char := Char.ofNat 125

/-- Go `unicode.IsSpace` restricted to the Latin-1 range (space, \t, \n,
vertical tab, form feed, \r, NEL, NBSP); higher Unicode space runes do not
occur in any modelled input. -/
def isSpaceGo (c : Char) : Bool :=
  c = ' ' ∨ c = '\t' ∨ c = '\n' ∨ c = Char.ofNat 11 ∨ c = Char.ofNat 12 ∨
    c = '\r' ∨ c = Char.ofNat 133 ∨ c = Char.ofNat 160

/-- Go `strings.TrimSpace`. -/
def trimSpace (s : List Char) : List Char :=
  ((s.dropWhile isSpaceGo).reverse.dropWhile isSpaceGo).reverse

/-- The suffix after the first occurrence of three backticks
(`text[idx+3:]` for `idx = strings.Index(text, "```")`), or `none` when
absent. -/
def afterTicks : List Char → Option (List Char)
  | [] => none
  | c :: rest =>
      if c = btick ∧ rest.take 2 = [btick, btick] then some (rest.drop 2)
      else afterTicks rest

/-- The start positions of every occurrence of three backticks. -/
def tickPositions : List Char → Nat → List Nat
  | [], _ => []
  | c :: rest, i =>
      (if c = btick ∧ rest.take 2 = [btick, btick] then [i] else []) ++
        tickPositions rest (i + 1)

/-- `strings.LastIndex(s, "```")` as an `Option`. -/
def lastTickIdx (s : List Char) : Option Nat := (tickPositions s 0).getLast?

/-- Go `strings.TrimPrefix(s, "json")`. -/
def trimPrefixJson (s : List Char) : List Char :=
  if s.take 4 = ['j', 's', 'o', 'n'] then s.drop 4 else s

/-- `stripCodeFences` (src/internal/llm/ollama.go, lines 556-569): trim; when
the text does not already start with `{`, cut out the body of the first code
fence (dropping a `json` tag and anything after the last three backticks) and
trim again. -/
def stripCodeFences (s : List Char) : List Char :=
  let text := trimSpace s
  if text ≠ [] ∧ text.headD ' ' ≠ lbrace then
    match afterTicks text with
    | none => text
    | some rest =>
        let r2 := trimPrefixJson rest
        let r3 := match lastTickIdx r2 with
          | none => r2
          | some e => r2.take e
        trimSpace r3
  else text

/-- `textutil.validJSONEscape` (src/unnamed/part_004). -/
def validJSONEscape (ch : Char) : Bool :=
  ch = '"' ∨ ch = '\\' ∨ ch = '/' ∨ ch = 'b' ∨ ch = 'f' ∨ ch = 'n' ∨
    ch = 'r' ∨ ch = 't' ∨ ch = 'u'

/-- The rune loop of `textutil.SanitizeJSON` with its two state bits
(`inString`, `escaped`). -/
def sanitizeAux : List Char → Bool → Bool → List Char
  | [], _, _ => []
  | ch :: rest, inString, true =>
      (if validJSONEscape ch then [ch] else ['\\', ch]) ++ sanitizeAux rest inString false
  | ch :: rest, inString, false =>
      if ch = '\\' ∧ inString then ch :: sanitizeAux rest inString true
      else if ch = '"' then ch :: sanitizeAux rest (!inString) false
      else if inString ∧ ch = '\n' then '\\' :: 'n' :: sanitizeAux rest inString false
      else if inString ∧ ch = '\r' then '\\' :: 'r' :: sanitizeAux rest inString false
      else if inString ∧ ch = '\t' then '\\' :: 't' :: sanitizeAux rest inString false
      else ch :: sanitizeAux rest inString false

/-- Model of `textutil.SanitizeJSON`. -/
def SanitizeJSON (s : List Char) : List Char := sanitizeAux s false false

/-! ## A model of Go `encoding/json` decoding (RFC 8259 grammar)

`json.Decoder.Decode` reads the first JSON value of the stream (skipping
leading whitespace) and leaves trailing text untouched; `json.Unmarshal`
additionally requires the remainder to be whitespace.  Strings are strict:
a bare control character (< 0x20) inside a string literal is a syntax
error — the property `SanitizeJSON` exists to repair.  `\uXXXX` escapes are
mapped to the code unit's scalar value (surrogate-pair recombination is not
modelled; no modelled input uses `\u`). -/

/-- JSON insignificant whitespace. -/
def isJsonWs (c : Char) : Bool := c = ' ' ∨ c = '\t' ∨ c = '\n' ∨ c = '\r'

def skipWs (s : List Char) : List Char := s.dropWhile isJsonWs

def isDigitC (c : Char) : Bool := '0' ≤ c ∧ c ≤ '9'

def isHexC (c : Char) : Bool :=
  isDigitC c ∨ ('a' ≤ c ∧ c ≤ 'f') ∨ ('A' ≤ c ∧ c ≤ 'F')

def hexVal (c : Char) : Nat :=
  if isDigitC c then c.toNat - 48
  else if 'a' ≤ c ∧ c ≤ 'f' then c.toNat - 87
  else c.toNat - 55

/-- Decimal value of a digit string. -/
def digitsNat (ds : List Char) : Nat := ds.foldl (fun a c => a * 10 + (c.toNat - 48)) 0

/-- A parsed JSON value.  Numbers carry their exact decimal value as a
rational; Go stores the nearest `float64` of that decimal. -/
inductive JValue where
  | jnull
  | jbool (b : Bool)
  | jnum (v : ℚ)
  | jstr (s : List Char)
  | jarr (xs : List JValue)
  | jobj (fields : List (List Char × JValue))

/-- Parse a JSON string body after the opening quote: returns the decoded
content and the remainder after the closing quote.  Bare control characters
are a syntax error. -/
def parseStringBody : List Char → Option (List Char × List Char)
  | [] => none
  | c :: rest =>
      if c = '"' then some ([], rest)
      else if c = '\\' then
        match rest with
        | [] => none
        | e :: rest2 =>
            if e = '"' ∨ e = '\\' ∨ e = '/' then
              (parseStringBody rest2).map (fun p => (e :: p.1, p.2))
            else if e = 'b' then
              (parseStringBody rest2).map (fun p => (Char.ofNat 8 :: p.1, p.2))
            else if e = 'f' then
              (parseStringBody rest2).map (fun p => (Char.ofNat 12 :: p.1, p.2))
            else if e = 'n' then
              (parseStringBody rest2).map (fun p => ('\n' :: p.1, p.2))
            else if e = 'r' then
              (parseStringBody rest2).map (fun p => ('\r' :: p.1, p.2))
            else if e = 't' then
              (parseStringBody rest2).map (fun p => ('\t' :: p.1, p.2))
            else if e = 'u' then
              match rest2 with
              | h1 :: h2 :: h3 :: h4 :: rest3 =>
                  if isHexC h1 ∧ isHexC h2 ∧ isHexC h3 ∧ isHexC h4 then
                    (parseStringBody rest3).map (fun p =>
                      (Char.ofNat (((hexVal h1 * 16 + hexVal h2) * 16 + hexVal h3) * 16 +
                        hexVal h4) :: p.1, p.2))
                  else none
              | _ => none
            else none
      else if c.toNat < 32 then none
      else (parseStringBody rest).map (fun p => (c :: p.1, p.2))

/-- Parse a JSON number (RFC 8259 grammar: optional minus, `0` or a non-zero
leading digit run, optional fraction, optional exponent), returning its exact
decimal value.  An absent input phrased via `headD ' '` fails the digit test
(`' '` is not a digit), matching the grammar's at-least-one-digit rules. -/
def parseNumber (s : List Char) : Option (ℚ × List Char) :=
  let s1 := if s.headD ' ' = '-' then s.tail else s
  if isDigitC (s1.headD ' ') = false then none
  else if s1.headD ' ' = '0' ∧ isDigitC (s1.tail.headD ' ') = true then none
  else
    let ds := s1.takeWhile isDigitC
    let r1 := s1.dropWhile isDigitC
    if r1.headD ' ' = '.' ∧ isDigitC (r1.tail.headD ' ') = false then none
    else
      let fs := if r1.headD ' ' = '.' then r1.tail.takeWhile isDigitC else []
      let r2 := if r1.headD ' ' = '.' then r1.tail.dropWhile isDigitC else r1
      let base : ℚ := (digitsNat ds : ℚ) + (digitsNat fs : ℚ) / 10 ^ fs.length
      if r2.headD ' ' = 'e' ∨ r2.headD ' ' = 'E' then
        let t3 := r2.tail
        let t4 := if t3.headD ' ' = '-' ∨ t3.headD ' ' = '+' then t3.tail else t3
        if isDigitC (t4.headD ' ') = false then none
        else
          let ex : Int := if t3.headD ' ' = '-' then -(digitsNat (t4.takeWhile isDigitC) : Int)
            else (digitsNat (t4.takeWhile isDigitC) : Int)
          some ((if s.headD ' ' = '-' then -base else base) * (10 : ℚ) ^ ex,
            t4.dropWhile isDigitC)
      else
        some ((if s.headD ' ' = '-' then -base else base), r2)

mutual

/-- Parse one JSON value (fuel-bounded recursion; the callers pass fuel
exceeding twice the input length, which dominates the recursion depth). -/
def parseValue : Nat → List Char → Option (JValue × List Char)
  | 0, _ => none
  | fuel + 1, s =>
      match skipWs s with
      | [] => none
      | c :: rest =>
          if c = '"' then (parseStringBody rest).map (fun p => (.jstr p.1, p.2))
          else if c = 't' then
            if rest.take 3 = ['r', 'u', 'e'] then some (.jbool true, rest.drop 3) else none
          else if c = 'f' then
            if rest.take 4 = ['a', 'l', 's', 'e'] then some (.jbool false, rest.drop 4) else none
          else if c = 'n' then
            if rest.take 3 = ['u', 'l', 'l'] then some (.jnull, rest.drop 3) else none
          else if c = lbrace then
            if (skipWs rest).headD ' ' = rbrace then some (.jobj [], (skipWs rest).tail)
            else (parseMembers fuel (skipWs rest)).map (fun p => (.jobj p.1, p.2))
          else if c = '[' then
            if (skipWs rest).headD ' ' = ']' then some (.jarr [], (skipWs rest).tail)
            else (parseElems fuel (skipWs rest)).map (fun p => (.jarr p.1, p.2))
          else parseNumber (c :: rest) |>.map (fun p => (.jnum p.1, p.2))

/-- Parse the members of an object after the opening brace (first member not
yet read). -/
def parseMembers : Nat → List Char → Option (List (List Char × JValue) × List Char)
  | 0, _ => none
  | fuel + 1, s =>
      if (skipWs s).headD ' ' = '"' then
        match parseStringBody (skipWs s).tail with
        | none => none
        | some (key, r2) =>
            if (skipWs r2).headD ' ' = ':' then
              match parseValue fuel (skipWs r2).tail with
              | none => none
              | some (v, r4) =>
                  if (skipWs r4).headD ' ' = ',' then
                    (parseMembers fuel (skipWs r4).tail).map
                      (fun p => ((key, v) :: p.1, p.2))
                  else if (skipWs r4).headD ' ' = rbrace then
                    some ([(key, v)], (skipWs r4).tail)
                  else none
            else none
      else none

/-- Parse the elements of an array after `[` (first element not yet read). -/
def parseElems : Nat → List Char → Option (List JValue × List Char)
  | 0, _ => none
  | fuel + 1, s =>
      match parseValue fuel s with
      | none => none
      | some (v, r1) =>
          if (skipWs r1).headD ' ' = ',' then
            (parseElems fuel (skipWs r1).tail).map (fun p => (v :: p.1, p.2))
          else if (skipWs r1).headD ' ' = ']' then some ([v], (skipWs r1).tail)
          else none

end

/-- ASCII lower-casing, Go `encoding/json`'s case-insensitive field match. -/
def lowerAscii (c : Char) : Char :=
  if 'A' ≤ c ∧ c ≤ 'Z' then Char.ofNat (c.toNat + 32) else c

def lowerKey (s : List Char) : List Char := s.map lowerAscii

/-- Go decoding of a parsed value into `struct { Score float64; Feedback
string }`: the value must be an object; keys matching the json tags
(case-insensitively) assign the fields, later duplicates overwriting,
`null` ignored, a type mismatch failing; unmatched keys are skipped;
missing fields keep their zero values. -/
def decodeScoreFeedback (v : JValue) : Option (ℚ × List Char) :=
  match v with
  | .jobj fields =>
      fields.foldl (fun st kv =>
        st.bind fun p =>
          if lowerKey kv.1 = ['s', 'c', 'o', 'r', 'e'] then
            match kv.2 with
            | .jnum q => some (q, p.2)
            | .jnull => some p
            | _ => none
          else if lowerKey kv.1 = ['f', 'e', 'e', 'd', 'b', 'a', 'c', 'k'] then
            match kv.2 with
            | .jstr str => some (p.1, str)
            | .jnull => some p
            | _ => none
          else some p) (some (0, []))
  | _ => none

/-- `json.Decoder.Decode` into the score/feedback struct: parse the first
JSON value of the stream (trailing text ignored), then decode it. -/
def goDecodeFirst (s : List Char) : Option (ℚ × List Char) :=
  (parseValue (2 * s.length + 2) s).bind fun p => decodeScoreFeedback p.1

/-- UTF-8 byte length of a rune list. -/
def charsByteLen (s : List Char) : Nat := (s.map Char.utf8Size).sum

/-- The longest rune prefix whose UTF-8 byte length fits the budget. -/
def takeBytes : List Char → Nat → List Char
  | [], _ => []
  | c :: rest, budget =>
      if c.utf8Size ≤ budget then c :: takeBytes rest (budget - c.utf8Size) else []

/-- `textutil.Truncate` on the rune level: on valid UTF-8 (which `List Char`
always encodes) the byte-level cut that walks back off continuation bytes
lands exactly at the end of the longest rune prefix fitting the budget. -/
def truncateChars (s : List Char) (maxB : Nat) (suffix : List Char) : List Char :=
  if charsByteLen s ≤ maxB then s else takeBytes s maxB ++ suffix

/-- Model of `parseComparisonResult` (src/internal/llm/ollama.go, lines
530-554): strip fences, strictly decode the first JSON object, on failure
sanitize and retry exactly once, and on a second failure return the error
carrying the first 500 bytes of the raw input. -/
def parseComparisonResult (raw : List Char) : Except (List Char) (ℚ × List Char) :=
  match goDecodeFirst (stripCodeFences raw) with
  | some r => .ok r
  | none =>
      match goDecodeFirst (SanitizeJSON (stripCodeFences raw)) with
      | some r => .ok r
      | none => .error (truncateChars raw 500 ['.', '.', '.'])

/-! ## Lemmas for the comparison-parser claims -/

/-- Characters that pass through a JSON string body unchanged. -/
def SafeChar (c : Char) : Prop := c ≠ '"' ∧ c ≠ '\\' ∧ 32 ≤ c.toNat

instance (c : Char) : Decidable (SafeChar c) := by unfold SafeChar; infer_instance

theorem parseStringBody_safe_prepend (f1 : List Char) (h : ∀ c ∈ f1, SafeChar c) :
    ∀ t, parseStringBody (f1 ++ t) =
      (parseStringBody t).map (fun p => (f1 ++ p.1, p.2)) := by
  induction f1 with
  | nil =>
      intro t
      simp only [List.nil_append]
      cases parseStringBody t <;> simp
  | cons c cs ih =>
      intro t
      obtain ⟨h1, h2, h3⟩ := h c (by simp)
      have hcs : ∀ x ∈ cs, SafeChar x := fun x hx => h x (by simp [hx])
      show parseStringBody (c :: (cs ++ t)) = _
      rw [parseStringBody.eq_def]
      simp only []
      rw [if_neg h1, if_neg h2, if_neg (by omega), ih hcs t]
      cases parseStringBody t <;> simp

theorem parseStringBody_close (f1 : List Char) (h : ∀ c ∈ f1, SafeChar c) (t : List Char) :
    parseStringBody (f1 ++ '"' :: t) = some (f1, t) := by
  rw [parseStringBody_safe_prepend f1 h]
  rw [show parseStringBody ('"' :: t) = some ([], t) by
    rw [parseStringBody.eq_def]; simp]
  simp

theorem parseStringBody_newline (t : List Char) :
    parseStringBody ('\n' :: t) = none := by
  rw [parseStringBody.eq_def]
  simp only []
  rw [if_neg (show ¬('\n' : Char) = '"' by decide),
    if_neg (show ¬('\n' : Char) = '\\' by decide),
    if_pos (show ('\n' : Char).toNat < 32 by decide)]

/-- The number as the parser computes it: integer digits plus fraction. -/
def scoreVal (ds fs : List Char) : ℚ :=
  (digitsNat ds : ℚ) + (digitsNat fs : ℚ) / 10 ^ fs.length

/-- Rendering of the score literal: digits, then `.fs` when a fraction is
present. -/
def numLit (ds fs : List Char) : List Char := ds ++ (if fs = [] then [] else '.' :: fs)

/-- A digit run followed by a non-digit splits cleanly under
`takeWhile`/`dropWhile`. -/
theorem takeWhile_digits (ds : List Char) (hds : ∀ c ∈ ds, isDigitC c = true)
    (x : Char) (hx : isDigitC x = false) (t : List Char) :
    (ds ++ x :: t).takeWhile isDigitC = ds ∧
      (ds ++ x :: t).dropWhile isDigitC = x :: t := by
  induction ds with
  | nil =>
      simp only [List.nil_append]
      rw [List.takeWhile_cons, List.dropWhile_cons]
      simp [hx]
  | cons c cs ih =>
      have hc : isDigitC c = true := hds c (by simp)
      have hcs : ∀ y ∈ cs, isDigitC y = true := fun y hy => hds y (by simp [hy])
      obtain ⟨ih1, ih2⟩ := ih hcs
      constructor
      · show ((c :: (cs ++ x :: t)).takeWhile isDigitC) = c :: cs
        rw [List.takeWhile_cons, hc]
        simp [ih1]
      · show ((c :: (cs ++ x :: t)).dropWhile isDigitC) = x :: t
        rw [List.dropWhile_cons]
        simp [hc, ih2]

theorem parseNumber_render (ds fs : List Char) (x : Char) (t : List Char)
    (hds : ds ≠ []) (hdig : ∀ c ∈ ds, isDigitC c = true)
    (hlead : 1 < ds.length → ds.headD ' ' ≠ '0')
    (hfs : ∀ c ∈ fs, isDigitC c = true)
    (hx : isDigitC x = false) (hx2 : x ≠ '.') (hx3 : x ≠ 'e') (hx4 : x ≠ 'E') :
    parseNumber (numLit ds fs ++ x :: t) = some (scoreVal ds fs, x :: t) := by
  obtain ⟨c0, ds', rfl⟩ : ∃ c0 ds', ds = c0 :: ds' := by
    cases ds with
    | nil => exact absurd rfl hds
    | cons a l => exact ⟨a, l, rfl⟩
  have hc0 : isDigitC c0 = true := hdig c0 (by simp)
  have hc0m : c0 ≠ '-' := by
    intro hc
    rw [hc] at hc0
    exact absurd hc0 (by decide)
  by_cases hfse : fs = []
  · subst hfse
    have hshape : numLit (c0 :: ds') [] ++ x :: t = (c0 :: ds') ++ x :: t := by
      simp [numLit]
    obtain ⟨htw, hdw⟩ := takeWhile_digits (c0 :: ds') hdig x hx t
    have hlz : ¬(((c0 :: ds') ++ x :: t).tail.headD ' ' |> isDigitC) = true ∨ ¬(c0 = '0') := by
      cases ds' with
      | nil => exact Or.inl (by simp [hx])
      | cons d l =>
          exact Or.inr (by simpa using hlead (by simp))
    rw [hshape]
    unfold parseNumber
    rw [if_neg (show ¬(((c0 :: ds') ++ x :: t).headD ' ' = '-') by simpa using hc0m)]
    rw [if_neg (by simpa using hc0)]
    rw [if_neg (by
      rintro ⟨h1, h2⟩
      rcases hlz with h | h
      · exact h h2
      · exact h (by simpa using h1))]
    rw [htw, hdw]
    rw [if_neg (by
      rintro ⟨h1, _⟩
      exact hx2 (by simpa using h1))]
    simp only [if_neg (show ¬((x :: t).headD ' ' = '.') by simpa using hx2)]
    rw [if_neg (by
      rintro (h | h)
      · exact hx3 (by simpa using h)
      · exact hx4 (by simpa using h))]
    rw [if_neg (show ¬(((c0 :: ds') ++ x :: t).headD ' ' = '-') by simpa using hc0m)]
    simp [scoreVal]
  · obtain ⟨f0, fs', rfl⟩ : ∃ f0 fs', fs = f0 :: fs' := by
      cases fs with
      | nil => exact absurd rfl hfse
      | cons a l => exact ⟨a, l, rfl⟩
    have hf0 : isDigitC f0 = true := hfs f0 (by simp)
    have hshape : numLit (c0 :: ds') (f0 :: fs') ++ x :: t =
        (c0 :: ds') ++ '.' :: ((f0 :: fs') ++ x :: t) := by
      simp [numLit]
    obtain ⟨htw, hdw⟩ := takeWhile_digits (c0 :: ds') hdig '.' (by decide)
      ((f0 :: fs') ++ x :: t)
    obtain ⟨htw2, hdw2⟩ := takeWhile_digits (f0 :: fs') hfs x hx t
    rw [hshape]
    unfold parseNumber
    rw [if_neg (show ¬(((c0 :: ds') ++ '.' :: ((f0 :: fs') ++ x :: t)).headD ' ' = '-')
      by simpa using hc0m)]
    rw [if_neg (by simpa using hc0)]
    rw [if_neg (by
      rintro ⟨h1, h2⟩
      cases ds' with
      | nil =>
          rw [show (([c0] ++ '.' :: ((f0 :: fs') ++ x :: t)).tail.headD ' ') = '.' by simp] at h2
          exact absurd h2 (by decide)
      | cons d l =>
          exact absurd (by simpa using h1) (hlead (by simp)))]
    rw [htw, hdw]
    simp only [List.headD_cons, List.tail_cons]
    rw [if_neg (by
      rintro ⟨-, h2⟩
      rw [show ((f0 :: fs') ++ x :: t).headD ' ' = f0 by simp, hf0] at h2
      simp at h2)]
    simp only [eq_self_iff_true, if_true, htw2, hdw2]
    rw [if_neg (by
      rintro (h | h)
      · exact hx3 (by simpa using h)
      · exact hx4 (by simpa using h))]
    rw [if_neg (show ¬((c0 :: ds' ++ '.' :: (f0 :: fs' ++ x :: t)).headD ' ' = '-')
      by simpa using hc0m)]
    simp [scoreVal]

theorem skipWs_not_ws (c : Char) (l : List Char) (h : isJsonWs c = false) :
    skipWs (c :: l) = c :: l := by
  unfold skipWs
  rw [List.dropWhile_cons]
  simp [h]

theorem skipWs_space (l : List Char) : skipWs (' ' :: l) = skipWs l := by
  unfold skipWs
  rw [List.dropWhile_cons]
  simp [isJsonWs]

/-- A decimal digit is none of the parser's token-start characters. -/
theorem digit_facts (c : Char) (h : isDigitC c = true) :
    isJsonWs c = false ∧ c ≠ '"' ∧ c ≠ 't' ∧ c ≠ 'f' ∧ c ≠ 'n' ∧
      c ≠ lbrace ∧ c ≠ '[' := by
  simp only [isDigitC, decide_eq_true_eq] at h
  obtain ⟨h1, h2⟩ := h
  refine ⟨?_, ?_, ?_, ?_, ?_, ?_, ?_⟩
  · simp only [isJsonWs, decide_eq_true_eq]
    rw [decide_eq_false_iff_not]
    rintro (rfl | rfl | rfl | rfl) <;> revert h1 h2 <;> decide
  all_goals rintro rfl <;> revert h1 h2 <;> decide

/-- The exact key lists of the two struct fields. -/
def scoreKeyC : List Char := ['s', 'c', 'o', 'r', 'e']

def feedbackKeyC : List Char := ['f', 'e', 'e', 'd', 'b', 'a', 'c', 'k']

/-- The members of the canonical grader reply, after the opening brace. -/
def renderMembers (ds fs fb : List Char) : List Char :=
  ['"', 's', 'c', 'o', 'r', 'e', '"', ':', ' '] ++ numLit ds fs ++
    [',', ' ', '"', 'f', 'e', 'e', 'd', 'b', 'a', 'c', 'k', '"', ':', ' ', '"'] ++
    fb ++ ['"', rbrace]

/-- The canonical grader reply `{"score": N, "feedback": "FB"}`. -/
def renderJson (ds fs fb : List Char) : List Char := lbrace :: renderMembers ds fs fb

theorem parseValue_str (f : Nat) (s r1 : List Char) (content r2 : List Char)
    (hs : skipWs s = '"' :: r1) (hb : parseStringBody r1 = some (content, r2)) :
    parseValue (f + 1) s = some (.jstr content, r2) := by
  rw [parseValue, hs]
  simp only []
  rw [if_pos trivial, hb]
  rfl

theorem parseValue_str_fail (f : Nat) (s r1 : List Char)
    (hs : skipWs s = '"' :: r1) (hb : parseStringBody r1 = none) :
    parseValue (f + 1) s = none := by
  rw [parseValue, hs]
  simp only []
  rw [if_pos trivial, hb]
  rfl

theorem parseValue_num (f : Nat) (s : List Char) (c : Char) (rest : List Char)
    (q : ℚ) (r : List Char)
    (hs : skipWs s = c :: rest) (hc : isDigitC c = true)
    (hn : parseNumber (c :: rest) = some (q, r)) :
    parseValue (f + 1) s = some (.jnum q, r) := by
  obtain ⟨-, hq, ht, hf, hnn, hb, hk⟩ := digit_facts c hc
  rw [parseValue, hs]
  simp only []
  rw [if_neg hq, if_neg ht, if_neg hf, if_neg hnn, if_neg hb, if_neg hk, hn]
  rfl

theorem parseValue_obj (f : Nat) (s rest : List Char)
    (hs : skipWs s = lbrace :: rest) (hne : (skipWs rest).headD ' ' ≠ rbrace) :
    parseValue (f + 1) s = (parseMembers f (skipWs rest)).map (fun p => (.jobj p.1, p.2)) := by
  rw [parseValue, hs]
  simp only []
  rw [if_neg (show ¬lbrace = '"' by decide), if_neg (show ¬lbrace = 't' by decide),
    if_neg (show ¬lbrace = 'f' by decide), if_neg (show ¬lbrace = 'n' by decide),
    if_pos trivial, if_neg hne]

theorem parseMembers_last (f : Nat) (s key rest : List Char) (v : JValue) (r4 r5 : List Char)
    (hs : skipWs s = '"' :: (key ++ '"' :: ':' :: ' ' :: rest))
    (hkey : ∀ c ∈ key, SafeChar c)
    (hv : parseValue f (' ' :: rest) = some (v, r4))
    (hr4 : skipWs r4 = rbrace :: r5) :
    parseMembers (f + 1) s = some ([(key, v)], r5) := by
  rw [parseMembers, hs]
  rw [if_pos (by simp)]
  simp only [List.tail_cons]
  rw [parseStringBody_close key hkey]
  simp only []
  rw [skipWs_not_ws ':' _ (by decide)]
  rw [if_pos (by simp)]
  simp only [List.tail_cons, hv]
  rw [hr4]
  simp only [List.headD_cons, List.tail_cons]
  rw [if_neg (show ¬rbrace = ',' by decide), if_pos trivial]

theorem parseMembers_cons (f : Nat) (s key rest : List Char) (v : JValue) (r4 r5 : List Char)
    (hs : skipWs s = '"' :: (key ++ '"' :: ':' :: ' ' :: rest))
    (hkey : ∀ c ∈ key, SafeChar c)
    (hv : parseValue f (' ' :: rest) = some (v, r4))
    (hr4 : skipWs r4 = ',' :: r5) :
    parseMembers (f + 1) s =
      (parseMembers f r5).map (fun p => ((key, v) :: p.1, p.2)) := by
  rw [parseMembers, hs]
  rw [if_pos (by simp)]
  simp only [List.tail_cons]
  rw [parseStringBody_close key hkey]
  simp only []
  rw [skipWs_not_ws ':' _ (by decide)]
  rw [if_pos (by simp)]
  simp only [List.tail_cons, hv]
  rw [hr4]
  simp only [List.headD_cons, List.tail_cons]
  rw [if_pos trivial]

theorem parseMembers_fail (f : Nat) (s key rest : List Char)
    (hs : skipWs s = '"' :: (key ++ '"' :: ':' :: ' ' :: rest))
    (hkey : ∀ c ∈ key, SafeChar c)
    (hv : parseValue f (' ' :: rest) = none) :
    parseMembers (f + 1) s = none := by
  rw [parseMembers, hs]
  rw [if_pos (by simp)]
  simp only [List.tail_cons]
  rw [parseStringBody_close key hkey]
  simp only []
  rw [skipWs_not_ws ':' _ (by decide)]
  rw [if_pos (by simp)]
  simp only [List.tail_cons, hv]

/-- Hypotheses describing the content of the canonical render: a valid
integer-digit part, optional fraction digits, and a feedback string of plain
(escape-free) characters. -/
def RenderOK (ds fs fb : List Char) : Prop :=
  ds ≠ [] ∧ (∀ c ∈ ds, isDigitC c = true) ∧
    (1 < ds.length → ds.headD ' ' ≠ '0') ∧
    (∀ c ∈ fs, isDigitC c = true) ∧ (∀ c ∈ fb, SafeChar c)

/-- The second member `"feedback": "FB"` followed by the closing brace. -/
def fbTail (fb trail : List Char) : List Char :=
  '"' :: 'f' :: 'e' :: 'e' :: 'd' :: 'b' :: 'a' :: 'c' :: 'k' :: '"' :: ':' :: ' ' ::
    '"' :: (fb ++ '"' :: rbrace :: trail)

theorem parseMembers_fbTail (f : Nat) (fb trail : List Char)
    (hfb : ∀ c ∈ fb, SafeChar c) :
    parseMembers (f + 1 + 1) (' ' :: fbTail fb trail) =
      some ([(feedbackKeyC, .jstr fb)], trail) := by
  have hs : skipWs (' ' :: fbTail fb trail) =
      '"' :: (feedbackKeyC ++ '"' :: ':' :: ' ' :: ('"' :: (fb ++ '"' :: rbrace :: trail))) := by
    rw [skipWs_space]
    rw [show fbTail fb trail =
      '"' :: (feedbackKeyC ++ '"' :: ':' :: ' ' :: ('"' :: (fb ++ '"' :: rbrace :: trail)))
      by simp [fbTail, feedbackKeyC]]
    exact skipWs_not_ws '"' _ (by decide)
  have hv : parseValue (f + 1) (' ' :: ('"' :: (fb ++ '"' :: rbrace :: trail))) =
      some (.jstr fb, rbrace :: trail) := by
    apply parseValue_str f _ (fb ++ '"' :: rbrace :: trail)
    · rw [skipWs_space]
      exact skipWs_not_ws '"' _ (by decide)
    · exact parseStringBody_close fb hfb (rbrace :: trail)
  exact parseMembers_last (f + 1) _ feedbackKeyC ('"' :: (fb ++ '"' :: rbrace :: trail))
    (.jstr fb) (rbrace :: trail) trail hs (by decide) hv
    (skipWs_not_ws rbrace _ (by decide))

theorem parseMembers_render (f : Nat) (ds fs fb trail : List Char)
    (h : RenderOK ds fs fb) :
    parseMembers (f + 3) (renderMembers ds fs fb ++ trail) =
      some ([(scoreKeyC, .jnum (scoreVal ds fs)), (feedbackKeyC, .jstr fb)], trail) := by
  obtain ⟨hds, hdig, hlead, hfs, hfb⟩ := h
  obtain ⟨c0, ds', rfl⟩ : ∃ c0 ds', ds = c0 :: ds' := by
    cases ds with
    | nil => exact absurd rfl hds
    | cons a l => exact ⟨a, l, rfl⟩
  have hc0 : isDigitC c0 = true := hdig c0 (by simp)
  have hnum : parseValue (f + 1 + 1) (' ' :: (numLit (c0 :: ds') fs ++
      (',' :: ' ' :: fbTail fb trail))) =
      some (.jnum (scoreVal (c0 :: ds') fs), ',' :: ' ' :: fbTail fb trail) := by
    have hshape : numLit (c0 :: ds') fs ++ (',' :: ' ' :: fbTail fb trail) =
        c0 :: (ds' ++ ((if fs = [] then [] else '.' :: fs) ++ (',' :: ' ' :: fbTail fb trail))) := by
      simp [numLit]
    apply parseValue_num (f + 1) _ c0
      (ds' ++ ((if fs = [] then [] else '.' :: fs) ++ (',' :: ' ' :: fbTail fb trail)))
      (scoreVal (c0 :: ds') fs) (',' :: ' ' :: fbTail fb trail)
    · rw [skipWs_space, hshape, skipWs_not_ws c0 _ (digit_facts c0 hc0).1]
    · exact hc0
    · rw [← hshape]
      exact parseNumber_render (c0 :: ds') fs ',' (' ' :: fbTail fb trail) hds hdig hlead hfs
        (by decide) (by decide) (by decide) (by decide)
  have hs1 : skipWs (renderMembers (c0 :: ds') fs fb ++ trail) =
      '"' :: (scoreKeyC ++ '"' :: ':' :: ' ' :: (numLit (c0 :: ds') fs ++
        (',' :: ' ' :: fbTail fb trail))) := by
    rw [show renderMembers (c0 :: ds') fs fb ++ trail =
      '"' :: (scoreKeyC ++ '"' :: ':' :: ' ' :: (numLit (c0 :: ds') fs ++
        (',' :: ' ' :: fbTail fb trail))) by simp [renderMembers, scoreKeyC, fbTail]]
    exact skipWs_not_ws '"' _ (by decide)
  show parseMembers (f + 2 + 1) _ = _
  rw [parseMembers_cons (f + 2) _ scoreKeyC
    (numLit (c0 :: ds') fs ++ (',' :: ' ' :: fbTail fb trail))
    (.jnum (scoreVal (c0 :: ds') fs)) (',' :: ' ' :: fbTail fb trail) (' ' :: fbTail fb trail)
    hs1 (by decide) hnum (skipWs_not_ws ',' _ (by decide))]
  rw [show f + 2 = f + 1 + 1 from rfl, parseMembers_fbTail f fb trail hfb]
  rfl

theorem skipWs_self (l : List Char) (hne : l ≠ []) (h : isJsonWs (l.headD ' ') = false) :
    skipWs l = l := by
  cases l with
  | nil => exact absurd rfl hne
  | cons c t => exact skipWs_not_ws c t (by simpa using h)

theorem renderMembers_head (ds fs fb trail : List Char) :
    (renderMembers ds fs fb ++ trail).headD ' ' = '"' := by
  simp [renderMembers]

theorem parseValue_render (f : Nat) (ds fs fb trail : List Char)
    (h : RenderOK ds fs fb) :
    parseValue (f + 4) (renderJson ds fs fb ++ trail) =
      some (.jobj [(scoreKeyC, .jnum (scoreVal ds fs)), (feedbackKeyC, .jstr fb)], trail) := by
  have hm : skipWs (renderMembers ds fs fb ++ trail) = renderMembers ds fs fb ++ trail :=
    skipWs_self _ (by simp [renderMembers]) (by rw [renderMembers_head]; decide)
  rw [show f + 4 = f + 3 + 1 from rfl]
  rw [parseValue_obj (f + 3) _ (renderMembers ds fs fb ++ trail)
    (by
      rw [show renderJson ds fs fb ++ trail = lbrace :: (renderMembers ds fs fb ++ trail)
        by simp [renderJson]]
      exact skipWs_not_ws lbrace _ (by decide))
    (by rw [hm, renderMembers_head]; decide)]
  rw [hm, parseMembers_render f ds fs fb trail h]
  rfl

/-- The `\n` escape in a string body. -/
theorem parseStringBody_escape_n (t : List Char) :
    parseStringBody ('\\' :: 'n' :: t) =
      (parseStringBody t).map (fun p => ('\n' :: p.1, p.2)) := by
  rw [parseStringBody.eq_def]
  simp only []
  rw [if_neg (show ¬('\\' : Char) = '"' by decide), if_pos trivial]
  rw [if_neg (by decide), if_neg (by decide), if_neg (by decide), if_pos trivial]

/-- `parseMembers` on the feedback member with an arbitrary raw string body
(possibly containing escapes) that decodes to `fbDec`. -/
theorem parseMembers_fbTail2 (f : Nat) (fbRaw fbDec trail : List Char)
    (hps : parseStringBody (fbRaw ++ '"' :: rbrace :: trail) = some (fbDec, rbrace :: trail)) :
    parseMembers (f + 1 + 1) (' ' :: fbTail fbRaw trail) =
      some ([(feedbackKeyC, .jstr fbDec)], trail) := by
  have hs : skipWs (' ' :: fbTail fbRaw trail) =
      '"' :: (feedbackKeyC ++ '"' :: ':' :: ' ' :: ('"' :: (fbRaw ++ '"' :: rbrace :: trail))) := by
    rw [skipWs_space]
    rw [show fbTail fbRaw trail =
      '"' :: (feedbackKeyC ++ '"' :: ':' :: ' ' :: ('"' :: (fbRaw ++ '"' :: rbrace :: trail)))
      by simp [fbTail, feedbackKeyC]]
    exact skipWs_not_ws '"' _ (by decide)
  have hv : parseValue (f + 1) (' ' :: ('"' :: (fbRaw ++ '"' :: rbrace :: trail))) =
      some (.jstr fbDec, rbrace :: trail) := by
    apply parseValue_str f _ (fbRaw ++ '"' :: rbrace :: trail)
    · rw [skipWs_space]
      exact skipWs_not_ws '"' _ (by decide)
    · exact hps
  exact parseMembers_last (f + 1) _ feedbackKeyC ('"' :: (fbRaw ++ '"' :: rbrace :: trail))
    (.jstr fbDec) (rbrace :: trail) trail hs (by decide) hv
    (skipWs_not_ws rbrace _ (by decide))

/-- `parseMembers` fails on the feedback member when its raw string body is
unparseable. -/
theorem parseMembers_fbTail_fail (f : Nat) (fbRaw trail : List Char)
    (hps : parseStringBody (fbRaw ++ '"' :: rbrace :: trail) = none) :
    parseMembers (f + 1 + 1) (' ' :: fbTail fbRaw trail) = none := by
  have hs : skipWs (' ' :: fbTail fbRaw trail) =
      '"' :: (feedbackKeyC ++ '"' :: ':' :: ' ' :: ('"' :: (fbRaw ++ '"' :: rbrace :: trail))) := by
    rw [skipWs_space]
    rw [show fbTail fbRaw trail =
      '"' :: (feedbackKeyC ++ '"' :: ':' :: ' ' :: ('"' :: (fbRaw ++ '"' :: rbrace :: trail)))
      by simp [fbTail, feedbackKeyC]]
    exact skipWs_not_ws '"' _ (by decide)
  have hv : parseValue (f + 1) (' ' :: ('"' :: (fbRaw ++ '"' :: rbrace :: trail))) = none := by
    apply parseValue_str_fail f _ (fbRaw ++ '"' :: rbrace :: trail)
    · rw [skipWs_space]
      exact skipWs_not_ws '"' _ (by decide)
    · exact hps
  exact parseMembers_fail (f + 1) _ feedbackKeyC ('"' :: (fbRaw ++ '"' :: rbrace :: trail))
    hs (by decide) hv

/-- Digit/fraction conditions alone (feedback handled separately). -/
def NumOK (ds fs : List Char) : Prop :=
  ds ≠ [] ∧ (∀ c ∈ ds, isDigitC c = true) ∧
    (1 < ds.length → ds.headD ' ' ≠ '0') ∧ (∀ c ∈ fs, isDigitC c = true)

/-- `parseValue` on the canonical object whose feedback body is an arbitrary
raw string decoding to `fbDec`. -/
theorem parseValue_render2 (f : Nat) (ds fs fbRaw fbDec trail : List Char)
    (h : NumOK ds fs)
    (hps : parseStringBody (fbRaw ++ '"' :: rbrace :: trail) = some (fbDec, rbrace :: trail)) :
    parseValue (f + 4) (renderJson ds fs fbRaw ++ trail) =
      some (.jobj [(scoreKeyC, .jnum (scoreVal ds fs)), (feedbackKeyC, .jstr fbDec)], trail) := by
  obtain ⟨hds, hdig, hlead, hfs⟩ := h
  obtain ⟨c0, ds', rfl⟩ : ∃ c0 ds', ds = c0 :: ds' := by
    cases ds with
    | nil => exact absurd rfl hds
    | cons a l => exact ⟨a, l, rfl⟩
  have hc0 : isDigitC c0 = true := hdig c0 (by simp)
  have hnum : parseValue (f + 1 + 1) (' ' :: (numLit (c0 :: ds') fs ++
      (',' :: ' ' :: fbTail fbRaw trail))) =
      some (.jnum (scoreVal (c0 :: ds') fs), ',' :: ' ' :: fbTail fbRaw trail) := by
    have hshape : numLit (c0 :: ds') fs ++ (',' :: ' ' :: fbTail fbRaw trail) =
        c0 :: (ds' ++ ((if fs = [] then [] else '.' :: fs) ++
          (',' :: ' ' :: fbTail fbRaw trail))) := by
      simp [numLit]
    apply parseValue_num (f + 1) _ c0
      (ds' ++ ((if fs = [] then [] else '.' :: fs) ++ (',' :: ' ' :: fbTail fbRaw trail)))
      (scoreVal (c0 :: ds') fs) (',' :: ' ' :: fbTail fbRaw trail)
    · rw [skipWs_space, hshape, skipWs_not_ws c0 _ (digit_facts c0 hc0).1]
    · exact hc0
    · rw [← hshape]
      exact parseNumber_render (c0 :: ds') fs ',' (' ' :: fbTail fbRaw trail) hds hdig hlead hfs
        (by decide) (by decide) (by decide) (by decide)
  have hs1 : skipWs (renderMembers (c0 :: ds') fs fbRaw ++ trail) =
      '"' :: (scoreKeyC ++ '"' :: ':' :: ' ' :: (numLit (c0 :: ds') fs ++
        (',' :: ' ' :: fbTail fbRaw trail))) := by
    rw [show renderMembers (c0 :: ds') fs fbRaw ++ trail =
      '"' :: (scoreKeyC ++ '"' :: ':' :: ' ' :: (numLit (c0 :: ds') fs ++
        (',' :: ' ' :: fbTail fbRaw trail))) by simp [renderMembers, scoreKeyC, fbTail]]
    exact skipWs_not_ws '"' _ (by decide)
  have hmem : parseMembers (f + 3) (renderMembers (c0 :: ds') fs fbRaw ++ trail) =
      some ([(scoreKeyC, .jnum (scoreVal (c0 :: ds') fs)), (feedbackKeyC, .jstr fbDec)],
        trail) := by
    show parseMembers (f + 2 + 1) _ = _
    rw [parseMembers_cons (f + 2) _ scoreKeyC
      (numLit (c0 :: ds') fs ++ (',' :: ' ' :: fbTail fbRaw trail))
      (.jnum (scoreVal (c0 :: ds') fs)) (',' :: ' ' :: fbTail fbRaw trail)
      (' ' :: fbTail fbRaw trail)
      hs1 (by decide) hnum (skipWs_not_ws ',' _ (by decide))]
    rw [show f + 2 = f + 1 + 1 from rfl, parseMembers_fbTail2 f fbRaw fbDec trail hps]
    rfl
  have hm : skipWs (renderMembers (c0 :: ds') fs fbRaw ++ trail) =
      renderMembers (c0 :: ds') fs fbRaw ++ trail :=
    skipWs_self _ (by simp [renderMembers]) (by rw [renderMembers_head]; decide)
  rw [show f + 4 = f + 3 + 1 from rfl]
  rw [parseValue_obj (f + 3) _ (renderMembers (c0 :: ds') fs fbRaw ++ trail)
    (by
      rw [show renderJson (c0 :: ds') fs fbRaw ++ trail =
        lbrace :: (renderMembers (c0 :: ds') fs fbRaw ++ trail) by simp [renderJson]]
      exact skipWs_not_ws lbrace _ (by decide))
    (by rw [hm, renderMembers_head]; decide)]
  rw [hm, hmem]
  rfl

/-- `parseValue` fails on the canonical object when the feedback string body
is unparseable (e.g. contains a bare newline). -/
theorem parseValue_render_fail (f : Nat) (ds fs fbRaw trail : List Char)
    (h : NumOK ds fs)
    (hps : parseStringBody (fbRaw ++ '"' :: rbrace :: trail) = none) :
    parseValue (f + 4) (renderJson ds fs fbRaw ++ trail) = none := by
  obtain ⟨hds, hdig, hlead, hfs⟩ := h
  obtain ⟨c0, ds', rfl⟩ : ∃ c0 ds', ds = c0 :: ds' := by
    cases ds with
    | nil => exact absurd rfl hds
    | cons a l => exact ⟨a, l, rfl⟩
  have hc0 : isDigitC c0 = true := hdig c0 (by simp)
  have hnum : parseValue (f + 1 + 1) (' ' :: (numLit (c0 :: ds') fs ++
      (',' :: ' ' :: fbTail fbRaw trail))) =
      some (.jnum (scoreVal (c0 :: ds') fs), ',' :: ' ' :: fbTail fbRaw trail) := by
    have hshape : numLit (c0 :: ds') fs ++ (',' :: ' ' :: fbTail fbRaw trail) =
        c0 :: (ds' ++ ((if fs = [] then [] else '.' :: fs) ++
          (',' :: ' ' :: fbTail fbRaw trail))) := by
      simp [numLit]
    apply parseValue_num (f + 1) _ c0
      (ds' ++ ((if fs = [] then [] else '.' :: fs) ++ (',' :: ' ' :: fbTail fbRaw trail)))
      (scoreVal (c0 :: ds') fs) (',' :: ' ' :: fbTail fbRaw trail)
    · rw [skipWs_space, hshape, skipWs_not_ws c0 _ (digit_facts c0 hc0).1]
    · exact hc0
    · rw [← hshape]
      exact parseNumber_render (c0 :: ds') fs ',' (' ' :: fbTail fbRaw trail) hds hdig hlead hfs
        (by decide) (by decide) (by decide) (by decide)
  have hs1 : skipWs (renderMembers (c0 :: ds') fs fbRaw ++ trail) =
      '"' :: (scoreKeyC ++ '"' :: ':' :: ' ' :: (numLit (c0 :: ds') fs ++
        (',' :: ' ' :: fbTail fbRaw trail))) := by
    rw [show renderMembers (c0 :: ds') fs fbRaw ++ trail =
      '"' :: (scoreKeyC ++ '"' :: ':' :: ' ' :: (numLit (c0 :: ds') fs ++
        (',' :: ' ' :: fbTail fbRaw trail))) by simp [renderMembers, scoreKeyC, fbTail]]
    exact skipWs_not_ws '"' _ (by decide)
  have hmem : parseMembers (f + 3) (renderMembers (c0 :: ds') fs fbRaw ++ trail) = none := by
    show parseMembers (f + 2 + 1) _ = _
    rw [parseMembers_cons (f + 2) _ scoreKeyC
      (numLit (c0 :: ds') fs ++ (',' :: ' ' :: fbTail fbRaw trail))
      (.jnum (scoreVal (c0 :: ds') fs)) (',' :: ' ' :: fbTail fbRaw trail)
      (' ' :: fbTail fbRaw trail)
      hs1 (by decide) hnum (skipWs_not_ws ',' _ (by decide))]
    rw [show f + 2 = f + 1 + 1 from rfl, parseMembers_fbTail_fail f fbRaw trail hps]
    rfl
  have hm : skipWs (renderMembers (c0 :: ds') fs fbRaw ++ trail) =
      renderMembers (c0 :: ds') fs fbRaw ++ trail :=
    skipWs_self _ (by simp [renderMembers]) (by rw [renderMembers_head]; decide)
  rw [show f + 4 = f + 3 + 1 from rfl]
  rw [parseValue_obj (f + 3) _ (renderMembers (c0 :: ds') fs fbRaw ++ trail)
    (by
      rw [show renderJson (c0 :: ds') fs fbRaw ++ trail =
        lbrace :: (renderMembers (c0 :: ds') fs fbRaw ++ trail) by simp [renderJson]]
      exact skipWs_not_ws lbrace _ (by decide))
    (by rw [hm, renderMembers_head]; decide)]
  rw [hm, hmem]
  rfl

/-- Go struct decoding of the canonical two-member object fills both
fields. -/
theorem decode_render (v : ℚ) (fb : List Char) :
    decodeScoreFeedback (.jobj [(scoreKeyC, .jnum v), (feedbackKeyC, .jstr fb)]) =
      some (v, fb) := rfl

/-- `json.Decoder.Decode` succeeds on the canonical reply (plus any trailing
text) whenever its raw feedback body decodes. -/
theorem goDecodeFirst_render (ds fs fbRaw fbDec trail : List Char)
    (h : NumOK ds fs)
    (hps : parseStringBody (fbRaw ++ '"' :: rbrace :: trail) = some (fbDec, rbrace :: trail)) :
    goDecodeFirst (renderJson ds fs fbRaw ++ trail) = some (scoreVal ds fs, fbDec) := by
  obtain ⟨f, hf⟩ : ∃ f, 2 * (renderJson ds fs fbRaw ++ trail).length + 2 = f + 4 :=
    ⟨2 * (renderJson ds fs fbRaw ++ trail).length - 2, by simp [renderJson]⟩
  unfold goDecodeFirst
  rw [hf, parseValue_render2 f ds fs fbRaw fbDec trail h hps]
  rw [show Option.bind (some ((JValue.jobj [(scoreKeyC, .jnum (scoreVal ds fs)),
    (feedbackKeyC, .jstr fbDec)], trail)))
      (fun p => decodeScoreFeedback p.1) =
    decodeScoreFeedback (.jobj [(scoreKeyC, .jnum (scoreVal ds fs)),
      (feedbackKeyC, .jstr fbDec)]) from rfl]
  rw [decode_render]

/-- `json.Decoder.Decode` fails on the canonical reply whose raw feedback
body is unparseable. -/
theorem goDecodeFirst_render_fail (ds fs fbRaw trail : List Char)
    (h : NumOK ds fs)
    (hps : parseStringBody (fbRaw ++ '"' :: rbrace :: trail) = none) :
    goDecodeFirst (renderJson ds fs fbRaw ++ trail) = none := by
  obtain ⟨f, hf⟩ : ∃ f, 2 * (renderJson ds fs fbRaw ++ trail).length + 2 = f + 4 :=
    ⟨2 * (renderJson ds fs fbRaw ++ trail).length - 2, by simp [renderJson]⟩
  unfold goDecodeFirst
  rw [hf, parseValue_render_fail f ds fs fbRaw trail h hps]
  rfl

/-! ## Stepping `SanitizeJSON` through the canonical reply -/

theorem sanitize_nil (inS e : Bool) : sanitizeAux [] inS e = [] := by
  cases inS <;> cases e <;> rfl

/-- Outside a string literal, any character other than `"` passes through. -/
theorem sanitize_pass_out (c : Char) (rest : List Char) (hc : ¬c = '"') :
    sanitizeAux (c :: rest) false false = c :: sanitizeAux rest false false := by
  simp [sanitizeAux, hc]

/-- Inside a string literal, a safe character passes through. -/
theorem sanitize_pass_in (c : Char) (rest : List Char) (hc : SafeChar c) :
    sanitizeAux (c :: rest) true false = c :: sanitizeAux rest true false := by
  obtain ⟨h1, h2, h3⟩ := hc
  have hn : ¬c = '\n' := by intro e; rw [e] at h3; exact absurd h3 (by decide)
  have hr : ¬c = '\r' := by intro e; rw [e] at h3; exact absurd h3 (by decide)
  have ht : ¬c = '\t' := by intro e; rw [e] at h3; exact absurd h3 (by decide)
  simp [sanitizeAux, h1, h2, hn, hr, ht]

/-- An unescaped quote toggles the string state on. -/
theorem sanitize_quote_open (rest : List Char) :
    sanitizeAux ('"' :: rest) false false = '"' :: sanitizeAux rest true false := by
  simp [sanitizeAux]

/-- An unescaped quote toggles the string state off. -/
theorem sanitize_quote_close (rest : List Char) :
    sanitizeAux ('"' :: rest) true false = '"' :: sanitizeAux rest false false := by
  simp [sanitizeAux]

/-- A bare newline inside a string literal becomes the `\n` escape. -/
theorem sanitize_nl (rest : List Char) :
    sanitizeAux ('\n' :: rest) true false = '\\' :: 'n' :: sanitizeAux rest true false := by
  simp [sanitizeAux]

/-- A quote-free segment outside a string passes through unchanged. -/
theorem sanitize_out_app (l rest : List Char) (h : ∀ c ∈ l, ¬c = '"') :
    sanitizeAux (l ++ rest) false false = l ++ sanitizeAux rest false false := by
  induction l with
  | nil => simp
  | cons c cs ih =>
      rw [List.cons_append, sanitize_pass_out c _ (h c (by simp)),
        ih (fun x hx => h x (by simp [hx])), List.cons_append]

/-- A safe segment inside a string passes through unchanged. -/
theorem sanitize_in_app (l rest : List Char) (h : ∀ c ∈ l, SafeChar c) :
    sanitizeAux (l ++ rest) true false = l ++ sanitizeAux rest true false := by
  induction l with
  | nil => simp
  | cons c cs ih =>
      rw [List.cons_append, sanitize_pass_in c _ (h c (by simp)),
        ih (fun x hx => h x (by simp [hx])), List.cons_append]

theorem digit_ne_quote (c : Char) (h : isDigitC c = true) : ¬c = '"' := by
  intro e
  rw [e] at h
  exact absurd h (by decide)

/-- The rendered score literal contains no quote. -/
theorem numLit_ne_quote (ds fs : List Char) (hdig : ∀ c ∈ ds, isDigitC c = true)
    (hfs : ∀ c ∈ fs, isDigitC c = true) :
    ∀ c ∈ numLit ds fs, ¬c = '"' := by
  intro c hc
  rcases List.mem_append.1 hc with hd | hf
  · exact digit_ne_quote c (hdig c hd)
  · by_cases hfe : fs = []
    · rw [if_pos hfe] at hf
      exact absurd hf (List.not_mem_nil c)
    · rw [if_neg hfe] at hf
      rcases List.mem_cons.1 hf with rfl | hf2
      · decide
      · exact digit_ne_quote c (hfs c hf2)

/-- `SanitizeJSON` on the canonical reply with a bare newline in the
feedback escapes exactly that newline. -/
theorem sanitize_render (ds fs f1 f2 : List Char)
    (hdig : ∀ c ∈ ds, isDigitC c = true) (hfs : ∀ c ∈ fs, isDigitC c = true)
    (h1 : ∀ c ∈ f1, SafeChar c) (h2 : ∀ c ∈ f2, SafeChar c) :
    SanitizeJSON (renderJson ds fs (f1 ++ '\n' :: f2)) =
      renderJson ds fs (f1 ++ '\\' :: 'n' :: f2) := by
  show sanitizeAux (renderJson ds fs (f1 ++ '\n' :: f2)) false false = _
  simp only [renderJson, renderMembers, List.append_assoc, List.cons_append,
    List.nil_append]
  rw [sanitize_pass_out _ _ (by decide), sanitize_quote_open,
    sanitize_pass_in 's' _ (by decide), sanitize_pass_in 'c' _ (by decide),
    sanitize_pass_in 'o' _ (by decide), sanitize_pass_in 'r' _ (by decide),
    sanitize_pass_in 'e' _ (by decide), sanitize_quote_close,
    sanitize_pass_out ':' _ (by decide), sanitize_pass_out ' ' _ (by decide),
    sanitize_out_app (numLit ds fs) _ (numLit_ne_quote ds fs hdig hfs),
    sanitize_pass_out ',' _ (by decide), sanitize_pass_out ' ' _ (by decide),
    sanitize_quote_open,
    sanitize_pass_in 'f' _ (by decide), sanitize_pass_in 'e' _ (by decide),
    sanitize_pass_in 'e' _ (by decide), sanitize_pass_in 'd' _ (by decide),
    sanitize_pass_in 'b' _ (by decide), sanitize_pass_in 'a' _ (by decide),
    sanitize_pass_in 'c' _ (by decide), sanitize_pass_in 'k' _ (by decide),
    sanitize_quote_close,
    sanitize_pass_out ':' _ (by decide), sanitize_pass_out ' ' _ (by decide),
    sanitize_quote_open,
    sanitize_in_app f1 _ h1, sanitize_nl, sanitize_in_app f2 _ h2,
    sanitize_quote_close, sanitize_pass_out _ _ (by decide), sanitize_nil]

/-! ## `strings.TrimSpace` and the code-fence stripper on shaped inputs -/

theorem dropWhile_all (p : Char → Bool) (a X : List Char)
    (ha : ∀ x ∈ a, p x = true) :
    List.dropWhile p (a ++ X) = List.dropWhile p X := by
  induction a with
  | nil => simp
  | cons c cs ih =>
      rw [List.cons_append, List.dropWhile_cons]
      simp only [ha c (by simp)]
      exact ih (fun x hx => ha x (by simp [hx]))

/-- Trimming a text that is space padding around a block with non-space
first and last characters yields exactly the block. -/
theorem trimSpace_wrap (a b mid : List Char) (c d : Char)
    (ha : ∀ x ∈ a, isSpaceGo x = true) (hb : ∀ x ∈ b, isSpaceGo x = true)
    (hc : isSpaceGo c = false) (hd : isSpaceGo d = false) :
    trimSpace (a ++ c :: (mid ++ d :: b)) = c :: (mid ++ [d]) := by
  unfold trimSpace
  rw [dropWhile_all _ a _ ha, List.dropWhile_cons]
  simp only [hc, Bool.false_eq_true, if_false]
  have hrev : (c :: (mid ++ d :: b)).reverse = b.reverse ++ d :: (mid.reverse ++ [c]) := by
    simp
  rw [hrev, dropWhile_all _ b.reverse _ (fun x hx => hb x (by simpa using hx)),
    List.dropWhile_cons]
  simp only [hd, Bool.false_eq_true, if_false]
  simp

/-- `strings.Index(text, "` ``` `")` at the very front. -/
theorem afterTicks_ticks (rest : List Char) :
    afterTicks (btick :: btick :: btick :: rest) = some rest := by
  rw [afterTicks]
  simp [List.take]

/-- In a text that is a backtick-free body followed by one triple backtick,
the only fence occurrence is at the body's length. -/
theorem tickPositions_free (pre : List Char) (hp : ∀ c ∈ pre, ¬c = btick) :
    ∀ i, tickPositions (pre ++ [btick, btick, btick]) i = [i + pre.length] := by
  induction pre with
  | nil =>
      intro i
      simp [tickPositions, List.take]
  | cons c cs ih =>
      intro i
      rw [List.cons_append, tickPositions]
      rw [if_neg (fun h => hp c (by simp) h.1)]
      rw [ih (fun x hx => hp x (by simp [hx])) (i + 1)]
      simp only [List.nil_append, List.length_cons, List.cons.injEq, and_true]
      omega

/-- The canonical reply body with the closing brace split off. -/
def rmCore (ds fs fb : List Char) : List Char :=
  ['"', 's', 'c', 'o', 'r', 'e', '"', ':', ' '] ++ numLit ds fs ++
    [',', ' ', '"', 'f', 'e', 'e', 'd', 'b', 'a', 'c', 'k', '"', ':', ' ', '"'] ++
    fb ++ ['"']

theorem renderJson_core (ds fs fb : List Char) :
    renderJson ds fs fb = lbrace :: (rmCore ds fs fb ++ [rbrace]) := by
  simp [renderJson, renderMembers, rmCore]

theorem digit_ne_btick (c : Char) (h : isDigitC c = true) : ¬c = btick := by
  intro e
  rw [e] at h
  exact absurd h (by decide)

/-- The canonical reply contains no backtick when the feedback has none. -/
theorem render_tick_free (ds fs fb : List Char)
    (hdig : ∀ c ∈ ds, isDigitC c = true) (hfs : ∀ c ∈ fs, isDigitC c = true)
    (hfb : ∀ c ∈ fb, ¬c = btick) :
    ∀ c ∈ renderJson ds fs fb, ¬c = btick := by
  intro c hc e
  subst e
  rw [renderJson_core] at hc
  rcases List.mem_cons.1 hc with h | h
  · exact absurd h (by decide)
  rcases List.mem_append.1 h with h | h
  · unfold rmCore at h
    rcases List.mem_append.1 h with h1 | h1
    · rcases List.mem_append.1 h1 with h2 | h2
      · rcases List.mem_append.1 h2 with h3 | h3
        · rcases List.mem_append.1 h3 with h4 | h4
          · exact absurd h4 (by decide)
          · unfold numLit at h4
            rcases List.mem_append.1 h4 with h5 | h5
            · exact absurd (hdig btick h5) (by decide)
            · by_cases hfe : fs = []
              · rw [if_pos hfe] at h5
                exact absurd h5 (List.not_mem_nil btick)
              · rw [if_neg hfe] at h5
                rcases List.mem_cons.1 h5 with h6 | h6
                · exact absurd h6 (by decide)
                · exact absurd (hfs btick h6) (by decide)
        · exact absurd h3 (by decide)
      · exact hfb btick h2 rfl
    · exact absurd h1 (by decide)
  · exact absurd h (by decide)

/-- When the trimmed text already starts with `{`, `stripCodeFences` is just
the trim. -/
theorem stripCodeFences_brace (s : List Char)
    (h : (trimSpace s).headD ' ' = lbrace) :
    stripCodeFences s = trimSpace s := by
  unfold stripCodeFences
  simp only []
  rw [if_neg (fun hcon => hcon.2 h)]

/-- `stripCodeFences` on the canonical reply wrapped in a markdown
```` ```json ```` fence recovers exactly the reply. -/
theorem stripCodeFences_fence (ds fs fb : List Char)
    (hdig : ∀ c ∈ ds, isDigitC c = true) (hfs : ∀ c ∈ fs, isDigitC c = true)
    (hfb : ∀ c ∈ fb, ¬c = btick) :
    stripCodeFences ([btick, btick, btick, 'j', 's', 'o', 'n', '\n'] ++
      (renderJson ds fs fb ++ ['\n', btick, btick, btick])) = renderJson ds fs fb := by
  have htrim : trimSpace ([btick, btick, btick, 'j', 's', 'o', 'n', '\n'] ++
      (renderJson ds fs fb ++ ['\n', btick, btick, btick])) =
      [btick, btick, btick, 'j', 's', 'o', 'n', '\n'] ++
        (renderJson ds fs fb ++ ['\n', btick, btick, btick]) := by
    have hw := trimSpace_wrap [] []
      ([btick, btick, 'j', 's', 'o', 'n', '\n'] ++ (renderJson ds fs fb ++ ['\n', btick, btick]))
      btick btick (by simp) (by simp) (by decide) (by decide)
    simpa using hw
  have hfree : ∀ c ∈ '\n' :: (renderJson ds fs fb ++ ['\n']), ¬c = btick := by
    intro c hc e
    subst e
    rcases List.mem_cons.1 hc with h | h
    · exact absurd h (by decide)
    rcases List.mem_append.1 h with h | h
    · exact render_tick_free ds fs fb hdig hfs hfb btick h rfl
    · rcases List.mem_cons.1 h with h2 | h2
      · exact absurd h2 (by decide)
      · exact absurd h2 (List.not_mem_nil btick)
  have hsplit : '\n' :: (renderJson ds fs fb ++ ['\n', btick, btick, btick]) =
      ('\n' :: (renderJson ds fs fb ++ ['\n'])) ++ [btick, btick, btick] := by simp
  have hlast : lastTickIdx ('\n' :: (renderJson ds fs fb ++ ['\n', btick, btick, btick])) =
      some (('\n' :: (renderJson ds fs fb ++ ['\n'])).length) := by
    unfold lastTickIdx
    rw [hsplit, tickPositions_free _ hfree 0]
    simp
  have htake : ('\n' :: (renderJson ds fs fb ++ ['\n', btick, btick, btick])).take
      (('\n' :: (renderJson ds fs fb ++ ['\n'])).length) =
      '\n' :: (renderJson ds fs fb ++ ['\n']) := by
    rw [hsplit]
    exact List.take_left _ _
  have htrim2 : trimSpace ('\n' :: (renderJson ds fs fb ++ ['\n'])) = renderJson ds fs fb := by
    rw [renderJson_core]
    rw [show '\n' :: ((lbrace :: (rmCore ds fs fb ++ [rbrace])) ++ ['\n']) =
      ['\n'] ++ lbrace :: (rmCore ds fs fb ++ rbrace :: ['\n']) by simp]
    exact trimSpace_wrap ['\n'] ['\n'] (rmCore ds fs fb) lbrace rbrace
      (by decide) (by decide) (by decide) (by decide)
  unfold stripCodeFences
  simp only []
  rw [htrim]
  rw [if_pos ⟨by simp, by rw [List.cons_append, List.headD_cons]; decide⟩]
  rw [show [btick, btick, btick, 'j', 's', 'o', 'n', '\n'] ++
      (renderJson ds fs fb ++ ['\n', btick, btick, btick]) =
    btick :: btick :: btick ::
      ('j' :: 's' :: 'o' :: 'n' :: '\n' :: (renderJson ds fs fb ++ ['\n', btick, btick, btick]))
    by simp]
  rw [afterTicks_ticks]
  simp only []
  rw [show trimPrefixJson
      ('j' :: 's' :: 'o' :: 'n' :: '\n' :: (renderJson ds fs fb ++ ['\n', btick, btick, btick])) =
    '\n' :: (renderJson ds fs fb ++ ['\n', btick, btick, btick])
    by simp [trimPrefixJson, List.take, List.drop]]
  rw [hlast]
  simp only []
  rw [htake, htrim2]

/-- C7: for a grader reply carrying the canonical JSON object
`{"score": N, "feedback": "FB"}` — given raw, wrapped in a markdown
```` ```json ```` code fence, followed by a trailing sentence after the
closing brace, or with a literal newline inside the feedback string —
`parseComparisonResult` returns the score/feedback pair without error.
Moreover the fence-stripping step leaves any text already starting with
`{` (after trimming) untouched, and when both the strict decode and the
sanitize-and-retry decode fail, the result is the fatal parse error
carrying the first 500 bytes of the raw input. -/
theorem C7_parse_comparison
    (ds fs fb f1 f2 t1 : List Char) (tl : Char) (raw : List Char)
    (hnum : NumOK ds fs)
    (hfb : ∀ c ∈ fb, SafeChar c) (hfbt : ∀ c ∈ fb, ¬c = btick)
    (h1 : ∀ c ∈ f1, SafeChar c) (h2 : ∀ c ∈ f2, SafeChar c)
    (htl : isSpaceGo tl = false) :
    parseComparisonResult (renderJson ds fs fb) = Except.ok (scoreVal ds fs, fb) ∧
    parseComparisonResult ([btick, btick, btick, 'j', 's', 'o', 'n', '\n'] ++
      (renderJson ds fs fb ++ ['\n', btick, btick, btick])) =
      Except.ok (scoreVal ds fs, fb) ∧
    parseComparisonResult (renderJson ds fs fb ++ (t1 ++ [tl])) =
      Except.ok (scoreVal ds fs, fb) ∧
    parseComparisonResult (renderJson ds fs (f1 ++ '\n' :: f2)) =
      Except.ok (scoreVal ds fs, f1 ++ '\n' :: f2) ∧
    (∀ s, (trimSpace s).headD ' ' = lbrace → stripCodeFences s = trimSpace s) ∧
    (goDecodeFirst (stripCodeFences raw) = none →
      goDecodeFirst (SanitizeJSON (stripCodeFences raw)) = none →
      parseComparisonResult raw = Except.error (truncateChars raw 500 ['.', '.', '.'])) := by
  obtain ⟨hds, hdig, hlead, hfs⟩ := hnum
  have hnum' : NumOK ds fs := ⟨hds, hdig, hlead, hfs⟩
  have hdecode : ∀ t, goDecodeFirst (renderJson ds fs fb ++ t) =
      some (scoreVal ds fs, fb) := fun t =>
    goDecodeFirst_render ds fs fb fb t hnum' (parseStringBody_close fb hfb (rbrace :: t))
  have hd0 : goDecodeFirst (renderJson ds fs fb) = some (scoreVal ds fs, fb) := by
    have := hdecode []
    rwa [List.append_nil] at this
  have htrimR : ∀ g, trimSpace (renderJson ds fs g) = renderJson ds fs g := by
    intro g
    rw [renderJson_core]
    have hw := trimSpace_wrap [] [] (rmCore ds fs g) lbrace rbrace
      (by simp) (by simp) (by decide) (by decide)
    simpa using hw
  have hheadR : ∀ g, (trimSpace (renderJson ds fs g)).headD ' ' = lbrace := by
    intro g
    rw [htrimR g, renderJson_core, List.headD_cons]
  have hstrip1 : ∀ g, stripCodeFences (renderJson ds fs g) = renderJson ds fs g := by
    intro g
    rw [stripCodeFences_brace _ (hheadR g), htrimR g]
  refine ⟨?_, ?_, ?_, ?_, fun s h => stripCodeFences_brace s h, ?_⟩
  · unfold parseComparisonResult
    rw [hstrip1 fb, hd0]
  · unfold parseComparisonResult
    rw [stripCodeFences_fence ds fs fb hdig hfs hfbt, hd0]
  · have htrim3 : trimSpace (renderJson ds fs fb ++ (t1 ++ [tl])) =
        renderJson ds fs fb ++ (t1 ++ [tl]) := by
      rw [renderJson_core]
      rw [show (lbrace :: (rmCore ds fs fb ++ [rbrace])) ++ (t1 ++ [tl]) =
        [] ++ lbrace :: ((rmCore ds fs fb ++ rbrace :: t1) ++ tl :: []) by simp]
      have hw := trimSpace_wrap [] [] (rmCore ds fs fb ++ rbrace :: t1) lbrace tl
        (by simp) (by simp) (by decide) htl
      rw [hw]
      simp
    have hhead3 : (trimSpace (renderJson ds fs fb ++ (t1 ++ [tl]))).headD ' ' = lbrace := by
      rw [htrim3, renderJson_core, List.cons_append, List.headD_cons]
    unfold parseComparisonResult
    rw [stripCodeFences_brace _ hhead3, htrim3, hdecode (t1 ++ [tl])]
  · have hps_fail : parseStringBody ((f1 ++ '\n' :: f2) ++ '"' :: rbrace :: ([] : List Char)) =
        none := by
      rw [show (f1 ++ '\n' :: f2) ++ '"' :: rbrace :: ([] : List Char) =
        f1 ++ ('\n' :: (f2 ++ '"' :: rbrace :: [])) by simp]
      rw [parseStringBody_safe_prepend f1 h1, parseStringBody_newline]
      rfl
    have hfail : goDecodeFirst (renderJson ds fs (f1 ++ '\n' :: f2)) = none := by
      have := goDecodeFirst_render_fail ds fs (f1 ++ '\n' :: f2) [] hnum' hps_fail
      rwa [List.append_nil] at this
    have hps2 : parseStringBody ((f1 ++ '\\' :: 'n' :: f2) ++
        '"' :: rbrace :: ([] : List Char)) = some (f1 ++ '\n' :: f2, rbrace :: []) := by
      rw [show (f1 ++ '\\' :: 'n' :: f2) ++ '"' :: rbrace :: ([] : List Char) =
        f1 ++ ('\\' :: 'n' :: (f2 ++ '"' :: rbrace :: [])) by simp]
      rw [parseStringBody_safe_prepend f1 h1, parseStringBody_escape_n,
        parseStringBody_close f2 h2 (rbrace :: [])]
      rfl
    have hok2 : goDecodeFirst (renderJson ds fs (f1 ++ '\\' :: 'n' :: f2)) =
        some (scoreVal ds fs, f1 ++ '\n' :: f2) := by
      have := goDecodeFirst_render ds fs (f1 ++ '\\' :: 'n' :: f2) (f1 ++ '\n' :: f2) []
        hnum' hps2
      rwa [List.append_nil] at this
    unfold parseComparisonResult
    rw [hstrip1 (f1 ++ '\n' :: f2), hfail]
    simp only []
    rw [sanitize_render ds fs f1 f2 hdig hfs h1 h2, hok2]
  · intro ha hb
    unfold parseComparisonResult
    rw [ha]
    simp only []
    rw [hb]

/-! ## `analyzer.ParseSynthesis` (src/internal/analyzer/analyzer.go, lines
176-224)

The Go function trims the response, dereferences `text[0]` (a panic when
the trimmed text is empty, modelled as `none`), optionally cuts a code
fence, `json.Unmarshal`s into `map[string]json.RawMessage` (sanitizing and
retrying once), joins string-array fields with newlines, re-marshals (Go
emits map keys sorted) and unmarshals into the ten-field struct. -/

/-- `SynthesisResult` (src/internal/analyzer/analyzer.go, lines 19-30). -/
structure SynthesisResult where
  CodingPhilosophy : List Char
  CodeStyleRules : List Char
  ReviewPriorities : List Char
  ReviewVoice : List Char
  CommunicationPatterns : List Char
  TestingPhilosophy : List Char
  DistinctiveTraits : List Char
  DeveloperInterests : List Char
  ProjectPatterns : List Char
  CollaborationStyle : List Char
deriving DecidableEq

/-- The zero value every field starts from. -/
def synthZero : SynthesisResult := ⟨[], [], [], [], [], [], [], [], [], []⟩

/-- Byte-wise (code-point) lexicographic order on keys, the order
`json.Marshal` emits map keys in. -/
def charListLe : List Char → List Char → Bool
  | [], _ => true
  | _ :: _, [] => false
  | a :: as, b :: bs =>
      if a.toNat < b.toNat then true
      else if b.toNat < a.toNat then false
      else charListLe as bs

def insertSorted (x : List Char × JValue) :
    List (List Char × JValue) → List (List Char × JValue)
  | [] => [x]
  | y :: ys => if charListLe x.1 y.1 then x :: y :: ys else y :: insertSorted x ys

/-- `json.Marshal` of a map emits the entries sorted by key. -/
def sortFields (m : List (List Char × JValue)) : List (List Char × JValue) :=
  m.foldl (fun acc kv => insertSorted kv acc) []

/-- Map assignment: `json.Unmarshal` into a map keeps the last value of a
duplicated key. -/
def mapSet (m : List (List Char × JValue)) (k : List Char) (v : JValue) :
    List (List Char × JValue) :=
  if m.any (fun kv => kv.1 = k) then
    m.map (fun kv => if kv.1 = k then (k, v) else kv)
  else m ++ [(k, v)]

def fieldsToMap (fields : List (List Char × JValue)) : List (List Char × JValue) :=
  fields.foldl (fun m kv => mapSet m kv.1 kv.2) []

/-- `json.Unmarshal` into `map[string]json.RawMessage`: the whole text must
be one JSON object plus trailing whitespace. -/
def goUnmarshalObj (s : List Char) : Option (List (List Char × JValue)) :=
  match parseValue (2 * s.length + 2) s with
  | some (.jobj fields, rest) => if skipWs rest = [] then some (fieldsToMap fields) else none
  | _ => none

/-- `json.Unmarshal` of a raw value into `[]string`: every element must be
a string (`null` leaves a zero-value element, which `strings.Join` renders
as the empty string). -/
def allStrings : List JValue → Option (List (List Char))
  | [] => some []
  | .jstr s :: rest => (allStrings rest).map (fun l => s :: l)
  | .jnull :: rest => (allStrings rest).map (fun l => [] :: l)
  | _ => none

/-- The normalization loop: a raw value whose trimmed text starts with `[`
is an array; when it unmarshals as `[]string` it is replaced by the
newline-join of its items. -/
def normalizeField (v : JValue) : JValue :=
  match v with
  | .jarr xs =>
      match allStrings xs with
      | some items => .jstr (List.intercalate ['\n'] items)
      | none => v
  | _ => v

/-- The ten json tags of `SynthesisResult`, with their field setters. -/
def synthSet (r : SynthesisResult) (k : List Char) (s : List Char) :
    Option SynthesisResult :=
  if k = String.toList "coding_philosophy" then some { r with CodingPhilosophy := s }
  else if k = String.toList "code_style_rules" then some { r with CodeStyleRules := s }
  else if k = String.toList "review_priorities" then some { r with ReviewPriorities := s }
  else if k = String.toList "review_voice" then some { r with ReviewVoice := s }
  else if k = String.toList "communication_patterns" then
    some { r with CommunicationPatterns := s }
  else if k = String.toList "testing_philosophy" then some { r with TestingPhilosophy := s }
  else if k = String.toList "distinctive_traits" then some { r with DistinctiveTraits := s }
  else if k = String.toList "developer_interests" then some { r with DeveloperInterests := s }
  else if k = String.toList "project_patterns" then some { r with ProjectPatterns := s }
  else if k = String.toList "collaboration_style" then some { r with CollaborationStyle := s }
  else none

/-- Go decoding of the normalized object into `SynthesisResult`: keys match
the tags case-insensitively, strings assign, `null` is skipped, another
type fails, unmatched keys are ignored. -/
def decodeSynthesis (fields : List (List Char × JValue)) : Option SynthesisResult :=
  fields.foldl (fun st kv =>
    st.bind fun r =>
      match synthSet r (lowerKey kv.1) [] with
      | none => some r
      | some _ =>
          match kv.2 with
          | .jstr s => synthSet r (lowerKey kv.1) s
          | .jnull => some r
          | _ => none) (some synthZero)

/-- The unmarshal-sanitize-retry-normalize-decode pipeline after the panic
guard point. -/
def parseSynthesisBody (raw text2 : List Char) : Except (List Char) SynthesisResult :=
  match goUnmarshalObj text2 with
  | some m =>
      match decodeSynthesis (sortFields (m.map (fun kv => (kv.1, normalizeField kv.2)))) with
      | some r => .ok r
      | none => .error (truncateChars raw 500 ['.', '.', '.'])
  | none =>
      match goUnmarshalObj (SanitizeJSON text2) with
      | some m =>
          match decodeSynthesis
              (sortFields (m.map (fun kv => (kv.1, normalizeField kv.2)))) with
          | some r => .ok r
          | none => .error (truncateChars raw 500 ['.', '.', '.'])
      | none => .error (truncateChars raw 500 ['.', '.', '.'])

/-- `analyzer.ParseSynthesis`.  `none` models the `text[0]`
index-out-of-range panic; the fence logic mirrors the source (it runs with
no emptiness guard of its own, unlike `stripCodeFences`). -/
def ParseSynthesis (raw : List Char) : Option (Except (List Char) SynthesisResult) :=
  let text := trimSpace raw
  if text = [] then none
  else
    let text2 :=
      if text.headD ' ' ≠ lbrace then
        match afterTicks text with
        | none => text
        | some rest =>
            let r2 := trimPrefixJson rest
            let r3 := match lastTickIdx r2 with
              | none => r2
              | some e => r2.take e
            trimSpace r3
      else text
    some (parseSynthesisBody raw text2)

/-! ## `selectDiverseRepos` (src/internal/ghcrawl/client.go, lines 1135-1230)

The Go function works on a `map[int]bool` of selected indices and a
`map[string][]int` of language groups.  The model keeps the selected set
as a duplicate-free index list and the groups as an association list in
first-encounter order; the selected COUNT after every phase is
independent of Go's unspecified map iteration order, which is what the
claim is about.  `sort.Slice` is unstable, so tie order among equal sort
keys is likewise unspecified; the model sorts with a total preorder. -/

/-- The fields of `*github.Repository` the function reads (getters return
zero values for nil). -/
structure Repo where
  fork : Bool
  ownerLogin : List Char
  language : List Char
  createdAt : Int
  stargazersCount : Int
deriving DecidableEq

instance : Inhabited Repo := ⟨⟨false, [], [], 0, 0⟩⟩

/-- `strings.EqualFold` on the ASCII range. -/
def equalFold (a b : List Char) : Bool := lowerKey a = lowerKey b

def isOwnedNonFork (username : List Char) (r : Repo) : Bool :=
  !r.fork && equalFold r.ownerLogin username

/-- The grouping key: the primary language, `"_none"` when empty. -/
def langOf (r : Repo) : List Char :=
  if r.language = [] then String.toList "_none" else r.language

/-- `selected[i] = true` on a duplicate-free index list. -/
def selInsert (sel : List ℕ) (i : ℕ) : List ℕ := if i ∈ sel then sel else sel ++ [i]

/-- `langGroups[lang] = append(langGroups[lang], i)` on an association
list. -/
def addToGroup : List (List Char × List ℕ) → List Char → ℕ → List (List Char × List ℕ)
  | [], lang, i => [(lang, [i])]
  | (l, idxs) :: rest, lang, i =>
      if l = lang then (l, idxs ++ [i]) :: rest
      else (l, idxs) :: addToGroup rest lang i

/-- Grouping of the owned non-fork repos by primary language. -/
def langGroups (repos : List Repo) (username : List Char) : List (List Char × List ℕ) :=
  repos.enum.foldl
    (fun gs p => if isOwnedNonFork username p.2 then addToGroup gs (langOf p.2) p.1 else gs) []

/-- One pass of the inner `for _, indices := range langGroups` loop;
returns the new selected list and the `added` flag. -/
def phase1Round (groups : List (List Char × List ℕ)) (budget round : ℕ)
    (sel : List ℕ) : List ℕ × Bool :=
  groups.foldl
    (fun p g =>
      if round < g.2.length ∧ p.1.length < budget then (selInsert p.1 (g.2.getD round 0), true)
      else p)
    (sel, false)

/-- The round-robin loop `for round := 0; len(selected) < langBudget;
round++`, fuelled (each executed round either adds an index or is the
last). -/
def phase1Go (groups : List (List Char × List ℕ)) (budget : ℕ) :
    ℕ → ℕ → List ℕ → List ℕ
  | 0, _, sel => sel
  | f + 1, round, sel =>
      if sel.length < budget then
        match phase1Round groups budget round sel with
        | (sel2, true) => phase1Go groups budget f (round + 1) sel2
        | (sel2, false) => sel2
      else sel

/-- The unselected owned non-fork indices, in index order. -/
def unselectedOwned (repos : List Repo) (username : List Char) (sel : List ℕ) : List ℕ :=
  ((repos.enum.filter
    (fun p => decide (¬p.1 ∈ sel) && isOwnedNonFork username p.2)).map (fun p => p.1))

/-- Creation-date order (ascending, oldest first). -/
def byCreated (repos : List Repo) (a b : ℕ) : Prop :=
  (repos.getD a default).createdAt ≤ (repos.getD b default).createdAt

instance (repos : List Repo) : DecidableRel (byCreated repos) := by
  unfold byCreated DecidableRel
  infer_instance

/-- The stepped loop `for i := 0; i < len(unselected) && len(selected) <
maxRepos; i += step`, fuelled. -/
def phase2Go (u : List ℕ) (step maxR : ℕ) : ℕ → ℕ → List ℕ → List ℕ
  | 0, _, sel => sel
  | f + 1, i, sel =>
      if i < u.length ∧ sel.length < maxR then
        phase2Go u step maxR f (i + step) (selInsert sel (u.getD i 0))
      else sel

/-- Phase 2: temporal spread over the unselected owned repos. -/
def phase2 (repos : List Repo) (username : List Char) (maxR : ℕ) (sel : List ℕ) : List ℕ :=
  let u := List.insertionSort (byCreated repos) (unselectedOwned repos username sel)
  let remaining := maxR - sel.length
  if 0 < remaining ∧ 0 < u.length then
    let step := max (u.length / remaining) 1
    phase2Go u step maxR u.length 0 sel
  else sel

/-- Star order (descending). -/
def byStars (repos : List Repo) (a b : ℕ) : Prop :=
  (repos.getD b default).stargazersCount ≤ (repos.getD a default).stargazersCount

instance (repos : List Repo) : DecidableRel (byStars repos) := by
  unfold byStars DecidableRel
  infer_instance

/-- Phase 3: forks / collaborator repos by activity until the budget is
full. -/
def phase3 (repos : List Repo) (username : List Char) (maxR : ℕ) (sel : List ℕ) : List ℕ :=
  if sel.length < maxR then
    let forks := ((repos.enum.filter
      (fun p => decide (¬p.1 ∈ sel) &&
        (p.2.fork || !equalFold p.2.ownerLogin username))).map (fun p => p.1))
    let sorted := List.insertionSort (byStars repos) forks
    sorted.foldl (fun s i => if maxR ≤ s.length then s else selInsert s i) sel
  else sel

/-- `selectDiverseRepos`. -/
def selectDiverseRepos (repos : List Repo) (maxRepos : ℕ) (username : List Char) :
    List Repo :=
  if repos.length ≤ maxRepos then repos
  else
    let budget := max (maxRepos / 2) 1
    let sel1 := phase1Go (langGroups repos username) budget (repos.length + 1) 0 []
    let sel2 := phase2 repos username maxRepos sel1
    let sel3 := phase3 repos username maxRepos sel2
    (repos.enum.filter (fun p => decide (p.1 ∈ sel3))).map (fun p => p.2)

/-! ## Counting lemmas for `selectDiverseRepos` -/

/-- The `round`-th elements of the language groups, in group order. -/
def posAt (groups : List (List Char × List ℕ)) (round : ℕ) : List ℕ :=
  groups.flatMap (fun g => (g.2.drop round).take 1)

/-- All elements of the groups from position `round` on. -/
def groupElems (groups : List (List Char × List ℕ)) (round : ℕ) : List ℕ :=
  groups.flatMap (fun g => g.2.drop round)

theorem selInsert_of_not_mem (sel : List ℕ) (i : ℕ) (h : ¬i ∈ sel) :
    selInsert sel i = sel ++ [i] := if_neg h

theorem posElem_eq (l : List ℕ) (n : ℕ) (hlt : n < l.length) :
    (l.drop n).take 1 = [l.getD n 0] := by
  rw [List.drop_eq_getElem_cons hlt]
  simp [List.take, List.getD, List.getElem?_eq_getElem hlt]

theorem drop_decomp (l : List ℕ) (n : ℕ) :
    l.drop n = (l.drop n).take 1 ++ l.drop (n + 1) := by
  by_cases h : n < l.length
  · rw [List.drop_eq_getElem_cons h]
    simp [List.take]
  · have h1 : l.drop n = [] := List.drop_eq_nil_of_le (by omega)
    have h2 : l.drop (n + 1) = [] := List.drop_eq_nil_of_le (by omega)
    simp [h1, h2]

/-- The remaining group elements split into the current positions and the
later ones. -/
theorem groupElems_decomp (groups : List (List Char × List ℕ)) (round : ℕ) :
    List.Perm (groupElems groups round)
      (posAt groups round ++ groupElems groups (round + 1)) := by
  induction groups with
  | nil => simp [groupElems, posAt]
  | cons g gs ih =>
      show List.Perm (g.2.drop round ++ groupElems gs round)
        (((g.2.drop round).take 1 ++ posAt gs round) ++
          (g.2.drop (round + 1) ++ groupElems gs (round + 1)))
      have h1 : g.2.drop round ++ groupElems gs round =
          (g.2.drop round).take 1 ++ (g.2.drop (round + 1) ++ groupElems gs round) := by
        rw [← List.append_assoc, ← drop_decomp]
      rw [h1, List.append_assoc]
      refine List.Perm.append_left _ ?_
      refine (List.Perm.append_left _ ih).trans ?_
      rw [show posAt gs round ++ (g.2.drop (round + 1) ++ groupElems gs (round + 1)) =
        (posAt gs round ++ g.2.drop (round + 1)) ++ groupElems gs (round + 1)
        by rw [List.append_assoc]]
      rw [show g.2.drop (round + 1) ++ (posAt gs round ++ groupElems gs (round + 1)) =
        (g.2.drop (round + 1) ++ posAt gs round) ++ groupElems gs (round + 1)
        by rw [List.append_assoc]]
      exact List.Perm.append_right _ List.perm_append_comm

theorem take_one_nil (l : List ℕ) (h : l.take 1 = []) : l = [] := by
  cases l with
  | nil => rfl
  | cons a t => simp [List.take] at h

/-- When no group still has a `round`-th element, no elements remain at
all. -/
theorem posAt_nil_elems (groups : List (List Char × List ℕ)) (round : ℕ)
    (h : posAt groups round = []) : groupElems groups round = [] := by
  induction groups with
  | nil => rfl
  | cons g gs ih =>
      have h2 := List.append_eq_nil.1 h
      show g.2.drop round ++ groupElems gs round = []
      rw [take_one_nil _ h2.1, ih h2.2]
      rfl

/-- Specification of one round-robin pass: the selected list grows by
fresh current-position indices, one per group that still has one, capped
at the budget; the `added` flag reports whether any branch ran. -/
theorem phase1Round_spec (budget round : ℕ) :
    ∀ (groups : List (List Char × List ℕ)) (sel : List ℕ) (b : Bool),
    sel.length ≤ budget →
    (posAt groups round).Nodup →
    (∀ x ∈ posAt groups round, ¬x ∈ sel) →
    ∃ picks : List ℕ,
      (List.foldl
        (fun p g =>
          if round < g.2.length ∧ p.1.length < budget then
            (selInsert p.1 (g.2.getD round 0), true)
          else p) (sel, b) groups).1 = sel ++ picks ∧
      picks.Nodup ∧
      (∀ x ∈ picks, x ∈ posAt groups round) ∧
      (sel ++ picks).length = min budget (sel.length + (posAt groups round).length) ∧
      ((List.foldl
        (fun p g =>
          if round < g.2.length ∧ p.1.length < budget then
            (selInsert p.1 (g.2.getD round 0), true)
          else p) (sel, b) groups).2 = true ↔
        b = true ∨ (posAt groups round ≠ [] ∧ sel.length < budget)) := by
  intro groups
  induction groups with
  | nil =>
      intro sel b hsel _ _
      exact ⟨[], by simp, by simp, by simp, by simp [posAt]; omega, by simp [posAt]⟩
  | cons g gs ih =>
      intro sel b hsel hnd hdisj
      have hpos_cons : posAt (g :: gs) round =
          (g.2.drop round).take 1 ++ posAt gs round := rfl
      rw [List.foldl_cons]
      by_cases hel : round < g.2.length
      · have hpe : (g.2.drop round).take 1 = [g.2.getD round 0] := posElem_eq _ _ hel
        by_cases hlen : sel.length < budget
        · -- the branch runs: one fresh index is added
          have he_mem : g.2.getD round 0 ∈ posAt (g :: gs) round := by
            rw [hpos_cons, hpe]; simp
          have he_fresh : ¬g.2.getD round 0 ∈ sel := hdisj _ he_mem
          have hins : selInsert sel (g.2.getD round 0) = sel ++ [g.2.getD round 0] :=
            selInsert_of_not_mem _ _ he_fresh
          simp only []
          rw [if_pos (show round < g.2.length ∧ sel.length < budget from ⟨hel, hlen⟩)]
          rw [hins] at *
          rw [hpos_cons, hpe] at hnd
          have hnd2 : (posAt gs round).Nodup := (List.nodup_append.1 hnd).2.1
          have hne : ∀ x ∈ posAt gs round, x ≠ g.2.getD round 0 := by
            intro x hx he
            exact (List.disjoint_left.1 (List.nodup_append.1 hnd).2.2) (by simp [he]) hx
          have hdisj2 : ∀ x ∈ posAt gs round, ¬x ∈ sel ++ [g.2.getD round 0] := by
            intro x hx hmem
            rcases List.mem_append.1 hmem with h | h
            · exact hdisj x (by rw [hpos_cons, hpe]; simp [hx]) h
            · exact hne x hx (by simpa using h)
          obtain ⟨picks, hp1, hp2, hp3, hp4, hp5⟩ :=
            ih (sel ++ [g.2.getD round 0]) true (by simp; omega) hnd2 hdisj2
          refine ⟨g.2.getD round 0 :: picks, ?_, ?_, ?_, ?_, ?_⟩
          · rw [hp1]
            simp
          · exact List.nodup_cons.2 ⟨fun hc => hne _ (hp3 _ hc) rfl, hp2⟩
          · intro x hx
            rcases List.mem_cons.1 hx with rfl | hx2
            · exact he_mem
            · rw [hpos_cons, hpe]
              simpa using Or.inr (hp3 x hx2)
          · rw [show (sel ++ g.2.getD round 0 :: picks).length =
              ((sel ++ [g.2.getD round 0]) ++ picks).length by simp]
            rw [hp4, hpos_cons, hpe]
            simp
            omega
          · rw [hp5]
            simp [hpos_cons, hpe]
            exact Or.inr hlen
        · -- the budget is already full: nothing is ever added
          simp only []
          rw [if_neg (show ¬(round < g.2.length ∧ sel.length < budget) from fun hc => hlen hc.2)]
          rw [hpos_cons, hpe] at hnd hdisj
          obtain ⟨picks, hp1, hp2, hp3, hp4, hp5⟩ :=
            ih sel b hsel (List.nodup_append.1 hnd).2.1
              (fun x hx => hdisj x (by simp [hx]))
          refine ⟨picks, hp1, hp2, ?_, ?_, ?_⟩
          · intro x hx
            rw [hpos_cons, hpe]
            simpa using Or.inr (hp3 x hx)
          · rw [hp4, hpos_cons, hpe]
            simp
            omega
          · rw [hp5]
            simp [hpos_cons, hpe, hlen]
      · -- this group is exhausted: it contributes nothing
        simp only []
        rw [if_neg (show ¬(round < g.2.length ∧ sel.length < budget) from fun hc => hel hc.1)]
        have hpe : (g.2.drop round).take 1 = [] := by
          rw [List.drop_eq_nil_of_le (by omega)]
          rfl
        rw [hpos_cons, hpe] at hnd hdisj
        simp only [List.nil_append] at hnd hdisj
        obtain ⟨picks, hp1, hp2, hp3, hp4, hp5⟩ := ih sel b hsel hnd hdisj
        refine ⟨picks, hp1, hp2, ?_, ?_, ?_⟩
        · intro x hx
          rw [hpos_cons, hpe]
          simpa using hp3 x hx
        · rw [hp4, hpos_cons, hpe]
          simp
        · rw [hp5]
          simp [hpos_cons, hpe]

/-- Specification of the fuelled round-robin loop: starting from a
duplicate-free selection disjoint from the remaining group elements, it
ends with `min budget (sel.length + remaining)` selected indices, all
drawn from the start state or the groups. -/
theorem phase1Go_spec (groups : List (List Char × List ℕ)) (budget : ℕ) :
    ∀ (f round : ℕ) (sel : List ℕ),
    (groupElems groups round).length + 1 ≤ f →
    sel.length ≤ budget → sel.Nodup →
    (groupElems groups round).Nodup →
    (∀ x ∈ groupElems groups round, ¬x ∈ sel) →
    (phase1Go groups budget f round sel).Nodup ∧
    (∀ x ∈ phase1Go groups budget f round sel, x ∈ sel ∨ x ∈ groupElems groups round) ∧
    (phase1Go groups budget f round sel).length =
      min budget (sel.length + (groupElems groups round).length) := by
  intro f
  induction f with
  | zero => intro round sel hf; omega
  | succ f ihf =>
      intro round sel hf hsel hselnd hge hdisj
      have hperm := groupElems_decomp groups round
      have hnd2 : (posAt groups round ++ groupElems groups (round + 1)).Nodup :=
        hperm.nodup_iff.1 hge
      have hposnd : (posAt groups round).Nodup := (List.nodup_append.1 hnd2).1
      have hposdisj : ∀ x ∈ posAt groups round, ¬x ∈ sel := fun x hx =>
        hdisj x (hperm.mem_iff.2 (List.mem_append.2 (Or.inl hx)))
      simp only [phase1Go]
      by_cases hb : sel.length < budget
      · rw [if_pos hb]
        obtain ⟨picks, hp1, hp2, hp3, hp4, hp5⟩ :=
          phase1Round_spec budget round groups sel false hsel hposnd hposdisj
        have hp1' : (phase1Round groups budget round sel).1 = sel ++ picks := hp1
        have hp5' : ((phase1Round groups budget round sel).2 = true ↔
            false = true ∨ (posAt groups round ≠ [] ∧ sel.length < budget)) := hp5
        cases hfl : (phase1Round groups budget round sel).2 with
        | false =>
            have hpair : phase1Round groups budget round sel = (sel ++ picks, false) :=
              Prod.ext hp1' hfl
            rw [hpair]
            simp only []
            have hpos_nil : posAt groups round = [] := by
              by_contra hne
              exact absurd (hp5'.2 (Or.inr ⟨hne, hb⟩)) (by rw [hfl]; simp)
            have hpicks : picks = [] :=
              List.eq_nil_iff_forall_not_mem.2 (fun x hx => by
                have := hp3 x hx
                rw [hpos_nil] at this
                exact List.not_mem_nil x this)
            have hge_nil : groupElems groups round = [] := posAt_nil_elems _ _ hpos_nil
            subst hpicks
            rw [hge_nil]
            refine ⟨by simpa using hselnd, fun x hx => Or.inl (by simpa using hx), ?_⟩
            simp
            omega
        | true =>
            have hpair : phase1Round groups budget round sel = (sel ++ picks, true) :=
              Prod.ext hp1' hfl
            rw [hpair]
            simp only []
            have hlen2 : (sel ++ picks).length ≤ budget := by rw [hp4]; omega
            have hnd3 : (sel ++ picks).Nodup :=
              List.nodup_append.2 ⟨hselnd, hp2, fun a ha hpk => hposdisj a (hp3 a hpk) ha⟩
            have hgednd : (groupElems groups (round + 1)).Nodup := (List.nodup_append.1 hnd2).2.1
            have hdisj3 : ∀ x ∈ groupElems groups (round + 1), ¬x ∈ sel ++ picks := by
              intro x hx hmem
              rcases List.mem_append.1 hmem with h | h
              · exact hdisj x (hperm.mem_iff.2 (List.mem_append.2 (Or.inr hx))) h
              · exact (List.disjoint_left.1 (List.nodup_append.1 hnd2).2.2) (hp3 x h) hx
            have hpos_ne : posAt groups round ≠ [] := by
              have := hp5'.1 (by rw [hfl])
              rcases this with h | h
              · exact absurd h (by simp)
              · exact h.1
            have hlens : (groupElems groups round).length =
                (posAt groups round).length + (groupElems groups (round + 1)).length := by
              have := hperm.length_eq
              simpa using this
            have hposlen : 1 ≤ (posAt groups round).length :=
              List.length_pos.2 hpos_ne
            obtain ⟨ihnd, ihmem, ihlen⟩ := ihf (round + 1) (sel ++ picks)
              (by omega) hlen2 hnd3 hgednd hdisj3
            refine ⟨ihnd, ?_, ?_⟩
            · intro x hx
              rcases ihmem x hx with h | h
              · rcases List.mem_append.1 h with h2 | h2
                · exact Or.inl h2
                · exact Or.inr (hperm.mem_iff.2 (List.mem_append.2 (Or.inl (hp3 x h2))))
              · exact Or.inr (hperm.mem_iff.2 (List.mem_append.2 (Or.inr h)))
            · rw [ihlen, hp4]
              omega
      · rw [if_neg hb]
        refine ⟨hselnd, fun x hx => Or.inl hx, ?_⟩
        omega

/-- The indices of the owned non-fork repos, ascending. -/
def ownedIdx (repos : List Repo) (username : List Char) : List ℕ :=
  (repos.enum.filter (fun p => isOwnedNonFork username p.2)).map (fun p => p.1)

theorem addToGroup_flat (lang : List Char) (i : ℕ) :
    ∀ gs : List (List Char × List ℕ),
    List.Perm ((addToGroup gs lang i).flatMap (fun g => g.2))
      (gs.flatMap (fun g => g.2) ++ [i]) := by
  intro gs
  induction gs with
  | nil => simp [addToGroup]
  | cons g rest ih =>
      rw [addToGroup]
      by_cases h : g.1 = lang
      · rw [if_pos h]
        show List.Perm ((g.2 ++ [i]) ++ rest.flatMap (fun g => g.2))
          ((g.2 ++ rest.flatMap (fun g => g.2)) ++ [i])
        rw [List.append_assoc, List.append_assoc]
        exact List.Perm.append_left _ List.perm_append_comm
      · rw [if_neg h]
        show List.Perm (g.2 ++ (addToGroup rest lang i).flatMap (fun g => g.2))
          ((g.2 ++ rest.flatMap (fun g => g.2)) ++ [i])
        rw [List.append_assoc]
        exact List.Perm.append_left _ ih

theorem langGroups_flat_aux (username : List Char) :
    ∀ (l : List (ℕ × Repo)) (gs : List (List Char × List ℕ)),
    List.Perm
      ((l.foldl
        (fun gs p =>
          if isOwnedNonFork username p.2 then addToGroup gs (langOf p.2) p.1 else gs)
        gs).flatMap (fun g => g.2))
      (gs.flatMap (fun g => g.2) ++
        (l.filter (fun p => isOwnedNonFork username p.2)).map (fun p => p.1)) := by
  intro l
  induction l with
  | nil => simp
  | cons p l ih =>
      intro gs
      rw [List.foldl_cons, List.filter_cons]
      by_cases h : isOwnedNonFork username p.2 = true
      · rw [if_pos h, if_pos h]
        refine (ih (addToGroup gs (langOf p.2) p.1)).trans ?_
        rw [List.map_cons]
        refine (List.Perm.append_right _ (addToGroup_flat (langOf p.2) p.1 gs)).trans ?_
        rw [List.append_assoc]
        rfl
      · rw [if_neg h, if_neg h]
        exact ih gs

/-- The language groups hold exactly the owned non-fork indices. -/
theorem langGroups_flat (repos : List Repo) (username : List Char) :
    List.Perm ((langGroups repos username).flatMap (fun g => g.2))
      (ownedIdx repos username) := by
  have := langGroups_flat_aux username repos.enum []
  simpa [langGroups, ownedIdx] using this

theorem groupElems_zero (groups : List (List Char × List ℕ)) :
    groupElems groups 0 = groups.flatMap (fun g => g.2) := by
  simp [groupElems]

theorem ownedIdx_sublist (repos : List Repo) (username : List Char) :
    (ownedIdx repos username).Sublist (List.range repos.length) := by
  have h1 : (ownedIdx repos username).Sublist (repos.enum.map (fun p => p.1)) :=
    (List.filter_sublist _).map _
  rw [show (fun p : ℕ × Repo => p.1) = Prod.fst from rfl, List.enum_map_fst] at h1
  exact h1

theorem ownedIdx_nodup (repos : List Repo) (username : List Char) :
    (ownedIdx repos username).Nodup :=
  (List.nodup_range _).sublist (ownedIdx_sublist repos username)

theorem ownedIdx_lt (repos : List Repo) (username : List Char) :
    ∀ i ∈ ownedIdx repos username, i < repos.length := fun i hi =>
  List.mem_range.1 ((ownedIdx_sublist repos username).subset hi)

theorem ownedIdx_le_length (repos : List Repo) (username : List Char) :
    (ownedIdx repos username).length ≤ repos.length := by
  have := (ownedIdx_sublist repos username).length_le
  simpa using this

/-- Phase 1 ends with `min budget nOwned` selected owned indices. -/
theorem phase1_spec (repos : List Repo) (username : List Char) (budget : ℕ) :
    (phase1Go (langGroups repos username) budget (repos.length + 1) 0 []).Nodup ∧
    (∀ x ∈ phase1Go (langGroups repos username) budget (repos.length + 1) 0 [],
      x ∈ ownedIdx repos username) ∧
    (phase1Go (langGroups repos username) budget (repos.length + 1) 0 []).length =
      min budget (ownedIdx repos username).length := by
  have hflat : List.Perm (groupElems (langGroups repos username) 0)
      (ownedIdx repos username) := by
    rw [groupElems_zero]
    exact langGroups_flat repos username
  have hnd : (groupElems (langGroups repos username) 0).Nodup :=
    hflat.nodup_iff.2 (ownedIdx_nodup repos username)
  have hlen : (groupElems (langGroups repos username) 0).length =
      (ownedIdx repos username).length := hflat.length_eq
  obtain ⟨h1, h2, h3⟩ := phase1Go_spec (langGroups repos username) budget
    (repos.length + 1) 0 []
    (by rw [hlen]; have := ownedIdx_le_length repos username; omega)
    (by simp) (by simp) hnd (by simp)
  refine ⟨h1, ?_, ?_⟩
  · intro x hx
    rcases h2 x hx with h | h
    · exact absurd h (List.not_mem_nil x)
    · exact hflat.mem_iff.1 h
  · rw [h3, hlen]
    simp

/-- One step of a ceiling division: picking at `i` and jumping to
`i + step` consumes exactly one of the `⌈m / step⌉` picks. -/
theorem ceil_div_succ (m step : ℕ) (hs : 1 ≤ step) (hm : 1 ≤ m) :
    (m + step - 1) / step = 1 + (m - step + step - 1) / step := by
  by_cases h : m ≤ step
  · have h1 : m + step - 1 = (m - 1) + step := by omega
    rw [h1, Nat.add_div_right _ (by omega)]
    have h2 : (m - 1) / step = 0 := Nat.div_eq_of_lt (by omega)
    have h3 : m - step = 0 := by omega
    have h4 : (0 + step - 1) / step = 0 := Nat.div_eq_of_lt (by omega)
    rw [h2, h3, h4]
  · have h1 : m + step - 1 = (m - step + step - 1) + step := by omega
    rw [h1, Nat.add_div_right _ (by omega)]
    omega

/-- Specification of the fuelled stepped loop of phase 2: it selects
`⌈(len - i) / step⌉` fresh indices, capped at `maxR`. -/
theorem phase2Go_spec (u : List ℕ) (step maxR : ℕ) (hstep : 1 ≤ step) :
    ∀ (f i : ℕ) (sel : List ℕ),
    u.length ≤ f + i →
    sel.length ≤ maxR → sel.Nodup → u.Nodup →
    (∀ j, i ≤ j → j < u.length → ¬u.getD j 0 ∈ sel) →
    (phase2Go u step maxR f i sel).Nodup ∧
    (∀ x ∈ phase2Go u step maxR f i sel, x ∈ sel ∨ x ∈ u) ∧
    (phase2Go u step maxR f i sel).length =
      min maxR (sel.length + (u.length - i + step - 1) / step) := by
  intro f
  induction f with
  | zero =>
      intro i sel hf hsel hselnd _ _
      simp only [phase2Go]
      have h0 : u.length - i = 0 := by omega
      have h4 : (0 + step - 1) / step = 0 := Nat.div_eq_of_lt (by omega)
      rw [h0, h4]
      exact ⟨hselnd, fun x hx => Or.inl hx, by omega⟩
  | succ f ihf =>
      intro i sel hf hsel hselnd hund hfresh
      simp only [phase2Go]
      by_cases hc : i < u.length ∧ sel.length < maxR
      · rw [if_pos hc]
        have hfr : ¬u.getD i 0 ∈ sel := hfresh i le_rfl hc.1
        rw [selInsert_of_not_mem _ _ hfr]
        have hfresh2 : ∀ j, i + step ≤ j → j < u.length →
            ¬u.getD j 0 ∈ sel ++ [u.getD i 0] := by
          intro j hj hjl hmem
          rcases List.mem_append.1 hmem with h | h
          · exact hfresh j (by omega) hjl h
          · have hne : u.getD j 0 = u.getD i 0 := by simpa using h
            rw [List.getD_eq_getElem u 0 hjl, List.getD_eq_getElem u 0 hc.1] at hne
            have hget : u.get ⟨j, hjl⟩ = u.get ⟨i, hc.1⟩ := by
              simpa [List.get_eq_getElem] using hne
            have := (List.Nodup.get_inj_iff hund).1 hget
            have hji : j = i := congrArg Fin.val this
            omega
        have hnd2 : (sel ++ [u.getD i 0]).Nodup :=
          List.nodup_append.2 ⟨hselnd, by simp, by
            intro a ha hb
            rw [List.mem_singleton] at hb
            subst hb
            exact hfr ha⟩
        obtain ⟨h1, h2, h3⟩ := ihf (i + step) (sel ++ [u.getD i 0]) (by omega)
          (by simp; omega) hnd2 hund hfresh2
        refine ⟨h1, ?_, ?_⟩
        · intro x hx
          rcases h2 x hx with h | h
          · rcases List.mem_append.1 h with h | h
            · exact Or.inl h
            · rw [List.mem_singleton] at h
              subst h
              rw [List.getD_eq_getElem u 0 hc.1]
              exact Or.inr (List.getElem_mem _)
          · exact Or.inr h
        · rw [h3]
          simp only [List.length_append, List.length_cons, List.length_nil]
          have harith : (u.length - i + step - 1) / step =
              1 + (u.length - (i + step) + step - 1) / step := by
            have hc2 := ceil_div_succ (u.length - i) step hstep (by omega)
            have heq : u.length - (i + step) = u.length - i - step := by omega
            rw [heq]
            exact hc2
          rw [harith]
          omega
      · rw [if_neg hc]
        refine ⟨hselnd, fun x hx => Or.inl hx, ?_⟩
        by_cases hi : i < u.length
        · have hsl : sel.length = maxR := by omega
          generalize (u.length - i + step - 1) / step = q
          omega
        · have h0 : u.length - i = 0 := by omega
          have h4 : (0 + step - 1) / step = 0 := Nat.div_eq_of_lt (by omega)
          rw [h0, h4]
          omega

theorem unselectedOwned_eq (repos : List Repo) (username : List Char) (sel : List ℕ) :
    unselectedOwned repos username sel =
      (ownedIdx repos username).filter (fun i => decide (¬i ∈ sel)) := by
  unfold unselectedOwned ownedIdx
  rw [List.filter_map, List.filter_filter]
  rfl

/-- Removing a duplicate-free sub-selection from a duplicate-free list
leaves exactly the difference of the lengths. -/
theorem filter_not_mem_length (l s : List ℕ) (hl : l.Nodup) (hs : s.Nodup)
    (hsub : ∀ x ∈ s, x ∈ l) :
    (l.filter (fun i => decide (¬i ∈ s))).length = l.length - s.length := by
  have hper := List.filter_append_perm (fun i => decide (i ∈ s)) l
  have hmemfilter : List.Perm (l.filter (fun i => decide (i ∈ s))) s := by
    refine (List.perm_ext_iff_of_nodup (hl.filter _) hs).2 ?_
    intro a
    simp only [List.mem_filter, decide_eq_true_eq]
    exact ⟨fun h => h.2, fun h => ⟨hsub a h, h⟩⟩
  have h1 : (l.filter (fun i => decide (i ∈ s))).length +
      (l.filter (fun x => !decide (x ∈ s))).length = l.length := by
    have := hper.length_eq
    simpa using this
  have h2 : (l.filter (fun i => decide (i ∈ s))).length = s.length := hmemfilter.length_eq
  have h3 : l.filter (fun x => !decide (x ∈ s)) = l.filter (fun i => decide (¬i ∈ s)) := by
    simp [decide_not]
  rw [← h3]
  omega

/-- Phase 2 keeps the selection duplicate-free and owned, never exceeds the
budget, and reaches at least `min maxR nOwned` selected indices. -/
theorem phase2_spec (repos : List Repo) (username : List Char) (maxR : ℕ) (sel : List ℕ)
    (hnd : sel.Nodup) (hsub : ∀ x ∈ sel, x ∈ ownedIdx repos username)
    (hsel : sel.length ≤ maxR) :
    (phase2 repos username maxR sel).Nodup ∧
    (∀ x ∈ phase2 repos username maxR sel, x ∈ ownedIdx repos username) ∧
    (phase2 repos username maxR sel).length ≤ maxR ∧
    min maxR (ownedIdx repos username).length ≤ (phase2 repos username maxR sel).length := by
  have hslen : sel.length ≤ (ownedIdx repos username).length := by
    have hp : List.Perm ((ownedIdx repos username).filter (fun i => decide (i ∈ sel))) sel := by
      refine (List.perm_ext_iff_of_nodup ((ownedIdx_nodup repos username).filter _) hnd).2 ?_
      intro a
      simp only [List.mem_filter, decide_eq_true_eq]
      exact ⟨fun h => h.2, fun h => ⟨hsub a h, h⟩⟩
    have := hp.length_eq
    have hle := (List.filter_sublist (l := ownedIdx repos username)
      (p := fun i => decide (i ∈ sel))).length_le
    omega
  have huq := unselectedOwned_eq repos username sel
  have hulen : (unselectedOwned repos username sel).length =
      (ownedIdx repos username).length - sel.length := by
    rw [huq]
    exact filter_not_mem_length _ _ (ownedIdx_nodup repos username) hnd hsub
  have hperm : List.Perm
      (List.insertionSort (byCreated repos) (unselectedOwned repos username sel))
      (unselectedOwned repos username sel) := List.perm_insertionSort _ _
  have hundup : (List.insertionSort (byCreated repos)
      (unselectedOwned repos username sel)).Nodup := by
    refine hperm.nodup_iff.2 ?_
    rw [huq]
    exact (ownedIdx_nodup repos username).filter _
  have humem : ∀ x ∈ List.insertionSort (byCreated repos)
      (unselectedOwned repos username sel),
      x ∈ ownedIdx repos username ∧ ¬x ∈ sel := by
    intro x hx
    have := hperm.mem_iff.1 hx
    rw [huq] at this
    have h2 := List.mem_filter.1 this
    exact ⟨h2.1, by simpa using h2.2⟩
  have huslen : (List.insertionSort (byCreated repos)
      (unselectedOwned repos username sel)).length =
      (ownedIdx repos username).length - sel.length := by
    rw [hperm.length_eq]
    exact hulen
  unfold phase2
  simp only []
  by_cases hrem : 0 < maxR - sel.length ∧
      0 < (List.insertionSort (byCreated repos) (unselectedOwned repos username sel)).length
  · rw [if_pos hrem]
    have hstep : 1 ≤ max ((List.insertionSort (byCreated repos)
        (unselectedOwned repos username sel)).length / (maxR - sel.length)) 1 := le_max_right _ _
    obtain ⟨h1, h2, h3⟩ := phase2Go_spec
      (List.insertionSort (byCreated repos) (unselectedOwned repos username sel))
      (max ((List.insertionSort (byCreated repos)
        (unselectedOwned repos username sel)).length / (maxR - sel.length)) 1)
      maxR hstep
      (List.insertionSort (byCreated repos) (unselectedOwned repos username sel)).length 0 sel
      (by omega) hsel hnd hundup
      (by
        intro j _ hjl hmem
        have hx : (List.insertionSort (byCreated repos)
            (unselectedOwned repos username sel)).getD j 0 ∈
            List.insertionSort (byCreated repos) (unselectedOwned repos username sel) := by
          rw [List.getD_eq_getElem _ 0 hjl]
          exact List.getElem_mem _
        exact (humem _ hx).2 hmem)
    refine ⟨h1, ?_, ?_, ?_⟩
    · intro x hx
      rcases h2 x hx with h | h
      · exact hsub x h
      · exact (humem x h).1
    · rw [h3]
      exact Nat.min_le_left _ _
    · rw [h3]
      have hnu0 : (List.insertionSort (byCreated repos)
          (unselectedOwned repos username sel)).length - 0 =
          (List.insertionSort (byCreated repos)
            (unselectedOwned repos username sel)).length := by omega
      rw [hnu0]
      by_cases hq : (List.insertionSort (byCreated repos)
          (unselectedOwned repos username sel)).length / (maxR - sel.length) = 0
      · rw [hq]
        simp only [Nat.max_self, max_eq_right (Nat.zero_le 1), Nat.div_one]
        omega
      · have hqq : max ((List.insertionSort (byCreated repos)
            (unselectedOwned repos username sel)).length / (maxR - sel.length)) 1 =
            (List.insertionSort (byCreated repos)
              (unselectedOwned repos username sel)).length / (maxR - sel.length) :=
          Nat.max_eq_left (Nat.one_le_iff_ne_zero.2 hq)
        rw [hqq]
        have hml := Nat.div_mul_le_self (List.insertionSort (byCreated repos)
          (unselectedOwned repos username sel)).length (maxR - sel.length)
        have hle2 : maxR - sel.length ≤ (List.insertionSort (byCreated repos)
            (unselectedOwned repos username sel)).length /
            ((List.insertionSort (byCreated repos)
              (unselectedOwned repos username sel)).length / (maxR - sel.length)) := by
          rw [Nat.le_div_iff_mul_le (by omega)]
          calc (maxR - sel.length) * ((List.insertionSort (byCreated repos)
              (unselectedOwned repos username sel)).length / (maxR - sel.length)) =
              ((List.insertionSort (byCreated repos)
                (unselectedOwned repos username sel)).length / (maxR - sel.length)) *
                (maxR - sel.length) := Nat.mul_comm _ _
            _ ≤ _ := hml
        have hceil : (List.insertionSort (byCreated repos)
            (unselectedOwned repos username sel)).length /
            ((List.insertionSort (byCreated repos)
              (unselectedOwned repos username sel)).length / (maxR - sel.length)) ≤
            ((List.insertionSort (byCreated repos)
              (unselectedOwned repos username sel)).length +
              (List.insertionSort (byCreated repos)
                (unselectedOwned repos username sel)).length / (maxR - sel.length) - 1) /
            ((List.insertionSort (byCreated repos)
              (unselectedOwned repos username sel)).length / (maxR - sel.length)) :=
          Nat.div_le_div_right (by omega)
        generalize hgen : ((List.insertionSort (byCreated repos)
            (unselectedOwned repos username sel)).length +
            (List.insertionSort (byCreated repos)
              (unselectedOwned repos username sel)).length / (maxR - sel.length) - 1) /
            ((List.insertionSort (byCreated repos)
              (unselectedOwned repos username sel)).length / (maxR - sel.length)) = c
        rw [hgen] at hceil
        generalize (List.insertionSort (byCreated repos)
            (unselectedOwned repos username sel)).length /
            ((List.insertionSort (byCreated repos)
              (unselectedOwned repos username sel)).length / (maxR - sel.length)) = d at hle2 hceil
        omega
  · rw [if_neg hrem]
    refine ⟨hnd, hsub, hsel, ?_⟩
    omega

/-- Specification of the phase-3 fill loop: it adds fresh indices one at a
time until the budget is reached. -/
theorem phase3_fill (maxR : ℕ) :
    ∀ (lst sel : List ℕ), sel.Nodup → lst.Nodup → (∀ x ∈ lst, ¬x ∈ sel) →
    sel.length ≤ maxR →
    (lst.foldl (fun s i => if maxR ≤ s.length then s else selInsert s i) sel).Nodup ∧
    (∀ x ∈ lst.foldl (fun s i => if maxR ≤ s.length then s else selInsert s i) sel,
      x ∈ sel ∨ x ∈ lst) ∧
    (lst.foldl (fun s i => if maxR ≤ s.length then s else selInsert s i) sel).length =
      min maxR (sel.length + lst.length) := by
  intro lst
  induction lst with
  | nil =>
      intro sel h1 _ _ h4
      exact ⟨h1, fun x hx => Or.inl hx, by simp; omega⟩
  | cons x xs ih =>
      intro sel hselnd hlstnd hfresh hsel
      rw [List.foldl_cons]
      by_cases h : maxR ≤ sel.length
      · rw [if_pos h]
        obtain ⟨h1, h2, h3⟩ := ih sel hselnd (List.nodup_cons.1 hlstnd).2
          (fun y hy => hfresh y (by simp [hy])) hsel
        refine ⟨h1, ?_, ?_⟩
        · intro y hy
          rcases h2 y hy with hh | hh
          · exact Or.inl hh
          · exact Or.inr (by simp [hh])
        · rw [h3]
          simp only [List.length_cons]
          omega
      · rw [if_neg h]
        have hfr : ¬x ∈ sel := hfresh x (by simp)
        rw [selInsert_of_not_mem _ _ hfr]
        have hfresh2 : ∀ y ∈ xs, ¬y ∈ sel ++ [x] := by
          intro y hy hmem
          rcases List.mem_append.1 hmem with hh | hh
          · exact hfresh y (by simp [hy]) hh
          · rw [List.mem_singleton] at hh
            subst hh
            exact (List.nodup_cons.1 hlstnd).1 hy
        have hnd2 : (sel ++ [x]).Nodup :=
          List.nodup_append.2 ⟨hselnd, by simp, by
            intro a ha hb
            rw [List.mem_singleton] at hb
            subst hb
            exact hfr ha⟩
        obtain ⟨h1, h2, h3⟩ := ih (sel ++ [x]) hnd2 (List.nodup_cons.1 hlstnd).2
          hfresh2 (by simp; omega)
        refine ⟨h1, ?_, ?_⟩
        · intro y hy
          rcases h2 y hy with hh | hh
          · rcases List.mem_append.1 hh with hh2 | hh2
            · exact Or.inl hh2
            · exact Or.inr (by simpa using Or.inl (List.mem_singleton.1 hh2))
          · exact Or.inr (by simp [hh])
        · rw [h3]
          simp only [List.length_append, List.length_cons, List.length_nil]
          omega

/-- The phase-3 candidate predicate is the complement of ownership. -/
theorem notOwned_bool (username : List Char) (r : Repo) :
    (r.fork || !equalFold r.ownerLogin username) = !isOwnedNonFork username r := by
  unfold isOwnedNonFork
  cases r.fork <;> cases equalFold r.ownerLogin username <;> rfl

/-- An index selected as owned really is an owned non-fork repo. -/
theorem ownedIdx_owned (repos : List Repo) (username : List Char) (i : ℕ)
    (hi : i ∈ ownedIdx repos username) :
    ∀ r, (i, r) ∈ repos.enum → isOwnedNonFork username r = true := by
  intro r hmem
  obtain ⟨p, hp, hpi⟩ := List.mem_map.1 hi
  have hpf := List.mem_filter.1 hp
  have h1 := List.mem_enum_iff_get?.1 hpf.1
  have h2 := List.mem_enum_iff_get?.1 hmem
  simp only [] at h1 h2
  rw [hpi] at h1
  rw [h1] at h2
  have : p.2 = r := Option.some_injective _ h2
  rw [← this]
  exact hpf.2

/-- Phase 3 fills the selection with the non-owned repos up to the budget:
the final count is `min maxR (sel.length + (n - nOwned))`. -/
theorem phase3_spec (repos : List Repo) (username : List Char) (maxR : ℕ) (sel : List ℕ)
    (hnd : sel.Nodup) (hsub : ∀ x ∈ sel, x ∈ ownedIdx repos username)
    (hsel : sel.length ≤ maxR) :
    (phase3 repos username maxR sel).Nodup ∧
    (∀ x ∈ phase3 repos username maxR sel, x < repos.length) ∧
    (phase3 repos username maxR sel).length =
      min maxR (sel.length + (repos.length - (ownedIdx repos username).length)) := by
  have hsellt : ∀ x ∈ sel, x < repos.length := fun x hx =>
    ownedIdx_lt repos username x (hsub x hx)
  unfold phase3
  simp only []
  by_cases h : sel.length < maxR
  · rw [if_pos h]
    have hcongr : repos.enum.filter
        (fun p => decide (¬p.1 ∈ sel) && (p.2.fork || !equalFold p.2.ownerLogin username)) =
        repos.enum.filter (fun p => !isOwnedNonFork username p.2) := by
      apply List.filter_congr
      intro p hp
      rw [notOwned_bool]
      cases how : isOwnedNonFork username p.2 with
      | true => simp
      | false =>
          simp only [Bool.not_false, Bool.and_true, decide_eq_true_eq]
          intro hmem
          have := ownedIdx_owned repos username p.1 (hsub p.1 hmem) p.2 (by
            rw [show (p.1, p.2) = p from rfl]
            exact hp)
          rw [how] at this
          exact absurd this (by simp)
    rw [hcongr]
    have hfnodup : ((repos.enum.filter
        (fun p => !isOwnedNonFork username p.2)).map (fun p => p.1)).Nodup := by
      have hsl : ((repos.enum.filter (fun p => !isOwnedNonFork username p.2)).map
          (fun p => p.1)).Sublist (repos.enum.map (fun p => p.1)) :=
        (List.filter_sublist _).map _
      rw [show (fun p : ℕ × Repo => p.1) = Prod.fst from rfl, List.enum_map_fst] at hsl
      exact (List.nodup_range _).sublist hsl
    have hfmem : ∀ x ∈ (repos.enum.filter
        (fun p => !isOwnedNonFork username p.2)).map (fun p => p.1),
        x < repos.length ∧ ¬x ∈ sel := by
      intro x hx
      obtain ⟨p, hp, hpi⟩ := List.mem_map.1 hx
      have hpf := List.mem_filter.1 hp
      constructor
      · have : x ∈ repos.enum.map Prod.fst := List.mem_map.2 ⟨p, hpf.1, hpi⟩
        rw [List.enum_map_fst] at this
        exact List.mem_range.1 this
      · intro hmem
        have := ownedIdx_owned repos username x (hsub x hmem) p.2 (by
          rw [show (x, p.2) = p by rw [← hpi]]
          exact hpf.1)
        rw [this] at hpf
        exact absurd hpf.2 (by simp)
    have hsperm : List.Perm (List.insertionSort (byStars repos)
        ((repos.enum.filter (fun p => !isOwnedNonFork username p.2)).map (fun p => p.1)))
        ((repos.enum.filter (fun p => !isOwnedNonFork username p.2)).map (fun p => p.1)) :=
      List.perm_insertionSort _ _
    obtain ⟨h1, h2, h3⟩ := phase3_fill maxR
      (List.insertionSort (byStars repos)
        ((repos.enum.filter (fun p => !isOwnedNonFork username p.2)).map (fun p => p.1)))
      sel hnd (hsperm.nodup_iff.2 hfnodup)
      (fun x hx => (hfmem x (hsperm.mem_iff.1 hx)).2) (by omega)
    refine ⟨h1, ?_, ?_⟩
    · intro x hx
      rcases h2 x hx with hh | hh
      · exact hsellt x hh
      · exact (hfmem x (hsperm.mem_iff.1 hh)).1
    · rw [h3, hsperm.length_eq, List.length_map]
      have hcount := List.length_eq_length_filter_add (l := repos.enum)
        (fun p => isOwnedNonFork username p.2)
      have hol : (repos.enum.filter (fun p => isOwnedNonFork username p.2)).length =
          (ownedIdx repos username).length := by
        rw [ownedIdx, List.length_map]
      rw [List.enum_length] at hcount
      rw [show (repos.enum.filter (fun p => !isOwnedNonFork username p.2)).length =
        repos.length - (ownedIdx repos username).length by omega]
  · rw [if_neg h]
    refine ⟨hnd, hsellt, ?_⟩
    omega

/-- Collecting the selected repos by index yields one repo per selected
index. -/
theorem extract_length (repos : List Repo) (s : List ℕ) (hnd : s.Nodup)
    (hlt : ∀ i ∈ s, i < repos.length) :
    ((repos.enum.filter (fun p => decide (p.1 ∈ s))).map (fun p => p.2)).length =
      s.length := by
  rw [List.length_map]
  have h1 : (List.range repos.length).filter (fun i => decide (i ∈ s)) =
      (repos.enum.map Prod.fst).filter (fun i => decide (i ∈ s)) := by
    rw [List.enum_map_fst]
  have h2 : (repos.enum.filter (fun p => decide (p.1 ∈ s))).length =
      ((List.range repos.length).filter (fun i => decide (i ∈ s))).length := by
    rw [h1, List.filter_map, List.length_map]
    rfl
  rw [h2]
  have hperm : List.Perm ((List.range repos.length).filter (fun i => decide (i ∈ s))) s := by
    refine (List.perm_ext_iff_of_nodup ((List.nodup_range _).filter _) hnd).2 ?_
    intro a
    simp only [List.mem_filter, List.mem_range, decide_eq_true_eq]
    exact ⟨fun h => h.2, fun h => ⟨hlt a h, h⟩⟩
  exact hperm.length_eq

/-- C2 (amended): `selectDiverseRepos` keeps the whole list when it fits
the budget, and selects exactly `maxRepos` repos when the list is longer
and the budget is at least 1 (at `maxRepos = 0` the language phase still
selects one owned repo, so the claim as stated fails there). -/
theorem C2_select_diverse (repos : List Repo) (K : ℕ) (username : List Char) :
    (repos.length ≤ K → selectDiverseRepos repos K username = repos) ∧
    (K < repos.length → 1 ≤ K →
      (selectDiverseRepos repos K username).length = K) := by
  constructor
  · intro h
    unfold selectDiverseRepos
    rw [if_pos h]
  · intro hKlt hK1
    unfold selectDiverseRepos
    rw [if_neg (by omega)]
    simp only []
    obtain ⟨h1nd, h1sub, h1len⟩ := phase1_spec repos username (max (K / 2) 1)
    have h1le : (phase1Go (langGroups repos username) (max (K / 2) 1)
        (repos.length + 1) 0 []).length ≤ K := by
      rw [h1len]
      have : K / 2 ≤ K := Nat.div_le_self _ _
      omega
    obtain ⟨h2nd, h2sub, h2le, h2ge⟩ := phase2_spec repos username K _ h1nd h1sub h1le
    obtain ⟨h3nd, h3lt, h3len⟩ := phase3_spec repos username K _ h2nd h2sub h2le
    rw [extract_length repos _ h3nd h3lt, h3len]
    have hno := ownedIdx_le_length repos username
    omega

/-- C2 counterexample: with a budget of zero and a single owned non-fork
repository, `selectDiverseRepos` returns one repo, not zero — the claim
"if the list's length exceeds K, it returns exactly K repositories" fails
at K = 0. -/
theorem C2_counterexample :
    ¬((selectDiverseRepos [⟨false, ['u'], ['g'], 0, 0⟩] 0 ['u']).length = 0) := by
  decide

/-- Witness for the amended C2 at a concrete four-repo list and budget 2:
both the identity case (budget 4) and the exact-selection case
(budget 2). -/
theorem C2_select_diverse_witness :
    selectDiverseRepos
      [⟨false, ['u'], ['g'], 0, 3⟩, ⟨false, ['u'], ['r'], 1, 2⟩,
        ⟨true, ['u'], [], 2, 1⟩, ⟨false, ['v'], [], 3, 0⟩] 4 ['u'] =
      [⟨false, ['u'], ['g'], 0, 3⟩, ⟨false, ['u'], ['r'], 1, 2⟩,
        ⟨true, ['u'], [], 2, 1⟩, ⟨false, ['v'], [], 3, 0⟩] ∧
    (selectDiverseRepos
      [⟨false, ['u'], ['g'], 0, 3⟩, ⟨false, ['u'], ['r'], 1, 2⟩,
        ⟨true, ['u'], [], 2, 1⟩, ⟨false, ['v'], [], 3, 0⟩] 2 ['u']).length = 2 :=
  ⟨(C2_select_diverse
      [⟨false, ['u'], ['g'], 0, 3⟩, ⟨false, ['u'], ['r'], 1, 2⟩,
        ⟨true, ['u'], [], 2, 1⟩, ⟨false, ['v'], [], 3, 0⟩] 4 ['u']).1 (by decide),
    (C2_select_diverse
      [⟨false, ['u'], ['g'], 0, 3⟩, ⟨false, ['u'], ['r'], 1, 2⟩,
        ⟨true, ['u'], [], 2, 1⟩, ⟨false, ['v'], [], 3, 0⟩] 2 ['u']).2 (by decide) (by decide)⟩

/-- C10: refuted — `ParseSynthesis` is not total at its public interface.
The unguarded `text[0]` dereference panics (modelled as `none`) on the
empty string and on any whitespace-only string; on every input whose
trimmed text is nonempty it does return a result or an error. -/
theorem C10_parse_synthesis_panic :
    ParseSynthesis [] = none ∧
    ParseSynthesis [' ', '\n', '\t'] = none ∧
    ∀ raw, trimSpace raw ≠ [] → (ParseSynthesis raw).isSome = true := by
  refine ⟨rfl, rfl, ?_⟩
  intro raw h
  unfold ParseSynthesis
  simp only []
  rw [if_neg h]
  rfl

/-- Witness: the panic point at the empty input, and a nonempty input
reaching the body. -/
theorem C10_parse_synthesis_panic_witness :
    ParseSynthesis [] = none ∧ (ParseSynthesis ['a']).isSome = true :=
  ⟨C10_parse_synthesis_panic.1, C10_parse_synthesis_panic.2.2 ['a'] (by decide)⟩

/-- Witness for C7 at the concrete reply
`{"score": 85.5, "feedback": "good"}` (feedback `a\nb` in the newline
scenario, trailing sentence " OK.", raw text "hi" for the error branch). -/
theorem C7_parse_comparison_witness :
    NumOK ['8', '5'] ['5'] ∧
    (∀ c ∈ ['g', 'o', 'o', 'd'], SafeChar c) ∧
    (∀ c ∈ ['g', 'o', 'o', 'd'], ¬c = btick) ∧
    (∀ c ∈ ['a'], SafeChar c) ∧
    (∀ c ∈ ['b'], SafeChar c) ∧
    isSpaceGo '.' = false ∧
    (parseComparisonResult (renderJson ['8', '5'] ['5'] ['g', 'o', 'o', 'd']) =
        Except.ok (scoreVal ['8', '5'] ['5'], ['g', 'o', 'o', 'd']) ∧
      parseComparisonResult ([btick, btick, btick, 'j', 's', 'o', 'n', '\n'] ++
        (renderJson ['8', '5'] ['5'] ['g', 'o', 'o', 'd'] ++ ['\n', btick, btick, btick])) =
        Except.ok (scoreVal ['8', '5'] ['5'], ['g', 'o', 'o', 'd']) ∧
      parseComparisonResult (renderJson ['8', '5'] ['5'] ['g', 'o', 'o', 'd'] ++
        ([' ', 'O', 'K'] ++ ['.'])) =
        Except.ok (scoreVal ['8', '5'] ['5'], ['g', 'o', 'o', 'd']) ∧
      parseComparisonResult (renderJson ['8', '5'] ['5'] (['a'] ++ '\n' :: ['b'])) =
        Except.ok (scoreVal ['8', '5'] ['5'], ['a'] ++ '\n' :: ['b']) ∧
      (∀ s, (trimSpace s).headD ' ' = lbrace → stripCodeFences s = trimSpace s) ∧
      (goDecodeFirst (stripCodeFences ['h', 'i']) = none →
        goDecodeFirst (SanitizeJSON (stripCodeFences ['h', 'i'])) = none →
        parseComparisonResult ['h', 'i'] =
          Except.error (truncateChars ['h', 'i'] 500 ['.', '.', '.']))) :=
  ⟨⟨by decide, by decide, by decide, by decide⟩, by decide, by decide, by decide, by decide,
    by decide,
    C7_parse_comparison ['8', '5'] ['5'] ['g', 'o', 'o', 'd'] ['a'] ['b'] [' ', 'O', 'K'] '.'
      ['h', 'i'] ⟨by decide, by decide, by decide, by decide⟩ (by decide) (by decide)
      (by decide) (by decide) (by decide)⟩

end Devlica
